import Mathlib

/-!
# A shallow embedding of the chess rules engine (`chess.hpp`, `chess.cpp`)

Conventions of the embedding.

* C++ `int` is modelled by `Int`, and the arithmetic the code does on coordinates
  (`position::operator+`, `position::operator-`, `std::abs`) by the operation on `Int` followed
  by `wrapInt`, the reduction to the 32 bits of an `int` in two's complement.  On the
  coordinates of the board, which lie in `0..8`, and their differences, in `-8..8`, nothing
  wraps; a sum or difference wraps only when an argument has a magnitude of about `2^31`.
* The board `_occupants` is an 8×8 grid (`std::vector<std::vector<occupant>>(8, ...)`, never
  resized); it is modelled as a function `Fin 8 → Fin 8 → occupant`, indexed `[file-1][rank-1]`.
* `getOccupant` and `placeOccupant` index the grid with no bounds check.  An index outside the
  grid is undefined behaviour in C++; the model returns `none` there.  Every function that reads
  or writes the grid therefore lives in `Option`, and `none` always means *the C++ code accesses
  the grid out of bounds (or loops for ever)*.
* Member functions that modify the object take the state and return the new state.
-/

namespace Chess

/-! ## Geometry -/

/-- Difference of two positions (`struct move`). -/
structure move where
  file : Int
  rank : Int
deriving DecidableEq

/-- Positions on the chess board (`struct position`); the default `{0, 0}` is the sentinel. -/
structure position where
  file : Int := 0
  rank : Int := 0
deriving DecidableEq

/-- The value an `int` holds for the result `x` of an arithmetic operation: `int` has 32 bits
in two's complement, so this is `x` itself when it is representable and `x` wrapped around
modulo `2 ^ 32` otherwise (what the compiled code computes on overflow). -/
def wrapInt (x : Int) : Int := (x + 2147483648) % 4294967296 - 2147483648

/-- `std::abs` on `int` (the absolute value of the least `int` is not representable). -/
def iabs (x : Int) : Int := wrapInt (x.natAbs : Int)

/-- `move::isDiagonal`. -/
def move.isDiagonal (m : move) : Bool := decide (iabs m.file = iabs m.rank)

/-- `move::isStraight`. -/
def move.isStraight (m : move) : Bool := decide (m.file = 0 ∨ m.rank = 0)

/-- `move::directionize` (in place in C++; here the new value is returned).  `/` on `int`
truncates towards zero. -/
def move.directionize (m : move) : move :=
  { file := if m.file ≠ 0 then Int.tdiv m.file (iabs m.file) else m.file,
    rank := if m.rank ≠ 0 then Int.tdiv m.rank (iabs m.rank) else m.rank }

/-- `move::vert`. -/
def move.vert (offset : Int) : move := ⟨0, offset⟩

/-- `move::horiz`. -/
def move.horiz (offset : Int) : move := ⟨offset, 0⟩

/-- `move::abs`. -/
def move.abs (m : move) : move := ⟨iabs m.file, iabs m.rank⟩

/-- `position::operator-`: the two differences, as `int` computes them. -/
def position.sub (a other : position) : move :=
  ⟨wrapInt (a.file - other.file), wrapInt (a.rank - other.rank)⟩

/-- `position::operator+`: the two sums, as `int` computes them; if the result falls out of
the board, `{0, 0}` is returned. -/
def position.add (a : position) (other : move) : position :=
  let result : position := ⟨wrapInt (a.file + other.file), wrapInt (a.rank + other.rank)⟩
  if result.rank < 1 ∨ result.rank > 8 ∨ result.file < 1 ∨ result.file > 8 then
    {}
  else
    result

instance : HSub position position move := ⟨position.sub⟩

instance : HAdd position move position := ⟨position.add⟩

/-- `position::allPositions`: rank-major, file-minor. -/
def position.allPositions : List position :=
  (List.range 8).flatMap fun r => (List.range 8).map fun f => ⟨(f : Int) + 1, (r : Int) + 1⟩

/-! ## Occupants and the game state -/

/-- `enum class piece_type`. -/
inductive piece_type where
  | pawn | rook | knight | bishop | queen | king
deriving DecidableEq

/-- `enum class player`. -/
inductive player where
  | white | black
deriving DecidableEq

/-- `enum class result`. -/
inductive result where
  | capture | ok | no_piece | bad_piece | bad_move | blocked | lapsed | in_check
  | would_check | has_moved | bad_promote
deriving DecidableEq

/-- `struct occupant`, with the default member initialisers of the header. -/
structure occupant where
  is_empty : Bool := true
  owner : player := player.white
  piece : piece_type := piece_type.pawn
  didMove : Bool := false
  didTwoStep : Bool := false
  canBeLapsed : Bool := false
deriving DecidableEq

/-- The constructor `occupant(player, piece)`. -/
def occupant.of (pl : player) (pc : piece_type) : occupant :=
  { is_empty := false, owner := pl, piece := pc }

/-- `class chess`: the side to move and the 8×8 grid. -/
structure chess where
  _player : player
  _occupants : Fin 8 → Fin 8 → occupant

/-- The position lies on the board: file and rank are both in `1..8`. -/
def onBoard (p : position) : Prop := 1 ≤ p.file ∧ p.file ≤ 8 ∧ 1 ≤ p.rank ∧ p.rank ≤ 8

instance (p : position) : Decidable (onBoard p) :=
  inferInstanceAs (Decidable (1 ≤ p.file ∧ p.file ≤ 8 ∧ 1 ≤ p.rank ∧ p.rank ≤ 8))

/-- The grid cell `[file - 1][rank - 1]` of a position, when both indices are inside the
8×8 grid.  This is the bounds check that the C++ code does not make. -/
def cell (p : position) : Option (Fin 8 × Fin 8) :=
  if h : onBoard p then
    some (⟨(p.file - 1).toNat, by unfold onBoard at h; omega⟩,
      ⟨(p.rank - 1).toNat, by unfold onBoard at h; omega⟩)
  else
    none

/-- The squares tested by the scan of `isBlocked`, without the board: whether stepping from
`pos` by `dir` meets `to` within `n` tests. -/
def scanReaches (to' : position) (dir : move) : Nat → position → Bool
  | 0, _ => false
  | n + 1, pos => if pos = to' then true else scanReaches to' dir n (pos + dir)

/-- The arguments of a scan: it starts on the board and ends on the board or at the
sentinel. -/
def scanEndpoints : List (position × position) :=
  position.allPositions.flatMap fun f =>
    (({} : position) :: position.allPositions).map fun t => (f, t)

/-- The positions the code computes with: on the board, or the sentinel `{0, 0}`. -/
def valid (p : position) : Prop := p = {} ∨ onBoard p

namespace chess

/-- `chess::getOccupant`: `_occupants[at.file - 1][at.rank - 1]`. -/
def getOccupant (s : chess) (p : position) : Option occupant :=
  (cell p).map fun i => s._occupants i.1 i.2

/-- `chess::placeOccupant`: `_occupants[at.file - 1][at.rank - 1] = occupant`. -/
def placeOccupant (s : chess) (o : occupant) (p : position) : Option chess :=
  (cell p).map fun i =>
    { s with _occupants := fun f r => if f = i.1 ∧ r = i.2 then o else s._occupants f r }

/-- `chess::at`: for position `{0, 0}` returns a new default occupant. -/
def occupantAt (s : chess) (p : position) : Option occupant :=
  if p = {} then some {} else s.getOccupant p

/-- `chess::getOpponent`. -/
def getOpponent (s : chess) : player :=
  if s._player = player.white then player.black else player.white

/-- `chess::isCastling`.  The two corner squares `{8, p}` and `{1, p}` are on the board for
both values of `p`, so the reads cannot leave the grid; they are made first, and the C++
condition is then evaluated as it stands. -/
def isCastling (s : chess) (from' to' : position) (pl : player) : Option Bool :=
  let m : move := to' - from'
  let p : Int := if pl = player.white then 1 else 8
  (s.occupantAt ⟨8, p⟩).bind fun a =>
    (s.occupantAt ⟨1, p⟩).bind fun b =>
      some (decide (from' = ⟨5, p⟩ ∧
        ((m = move.horiz 2 ∧ a.piece = piece_type.rook ∧ a.owner = pl) ∨
          (m = move.horiz (-2) ∧ b.piece = piece_type.rook ∧ b.owner = pl))))

/-- `chess::canMovePawn`. -/
def canMovePawn (s : chess) (from' to' : position) (pl : player) : Option Bool :=
  let m : move := to' - from'
  let p : Int := if pl = player.white then 1 else -1
  if m = move.vert p then some true
  else
    (s.occupantAt from').bind fun f =>
      if f.didMove = false ∧ m = move.vert (2 * p) then some true
      else if m = ⟨1, p⟩ ∨ m = ⟨-1, p⟩ then
        (s.occupantAt to').bind fun t =>
          if t.is_empty = false then some true
          else
            (s.occupantAt (to' + move.vert (-p))).bind fun toLapse =>
              if toLapse.owner ≠ pl ∧ toLapse.didTwoStep = true then some true else some false
      else some false

/-- `chess::canMoveKing`. -/
def canMoveKing (s : chess) (from' to' : position) (pl : player) : Option Bool :=
  (s.isCastling from' to' pl).bind fun c =>
    if c then some true
    else
      let m : move := move.abs (to' - from')
      some (decide (m.file ≤ 1 ∧ m.rank ≤ 1))

/-- `chess::canMoveRook`. -/
def canMoveRook (m : move) : Bool := m.isStraight

/-- `chess::canMoveKnight`. -/
def canMoveKnight (m : move) : Bool :=
  let m := move.abs m
  decide ((m.file = 1 ∧ m.rank = 2) ∨ (m.file = 2 ∧ m.rank = 1))

/-- `chess::canMoveBishop`. -/
def canMoveBishop (m : move) : Bool := m.isDiagonal

/-- `chess::canMoveQueen`. -/
def canMoveQueen (m : move) : Bool := m.isStraight || m.isDiagonal

/-- `chess::canMove`. -/
def canMove (s : chess) (from' to' : position) (type : piece_type) (pl : player) : Option Bool :=
  let m : move := from' - to'
  match type with
  | piece_type.pawn => s.canMovePawn from' to' pl
  | piece_type.king => s.canMoveKing from' to' pl
  | piece_type.rook => some (canMoveRook m)
  | piece_type.knight => some (canMoveKnight m)
  | piece_type.bishop => some (canMoveBishop m)
  | piece_type.queen => some (canMoveQueen m)

/-- The `while (pos != to)` loop of `chess::isBlocked`: `some true` when an occupied square is
met, `some false` when `to` is reached.  The loop is run with a bound on the number of tests;
`none` when the bound is used up. -/
def isBlockedScan (s : chess) (to' : position) (dir : move) : Nat → position → Option Bool
  | 0, _ => none
  | n + 1, pos =>
    if pos ≠ to' then
      (s.occupantAt pos).bind fun o =>
        if o.is_empty = false then some true else isBlockedScan s to' dir n (pos + dir)
    else some false

/-- The bound given to the scan of `isBlocked`.  A scan that reaches `to` at all does so
within ten tests (at most eight squares of one line, and the sentinel once), so the bound is
only used up when the C++ loop does not terminate. -/
def scanBound : Nat := 16

/-- `chess::isBlocked`. -/
def isBlocked (s : chess) (from' to' : position) (pl : player) : Option Bool :=
  (s.occupantAt to').bind fun t =>
    (if t.is_empty = false then
      if t.owner = pl then some true
      else
        (s.occupantAt from').bind fun f =>
          some (decide (f.piece = piece_type.pawn ∧ (to' - from').isStraight = true
            ∧ t.owner = s.getOpponent))
    else some false).bind fun early =>
      if early then some true
      else
        let dir : move := to' - from'
        if dir.isDiagonal = false ∧ dir.isStraight = false then some false
        else
          let dir := dir.directionize
          (isBlockedScan s to' dir scanBound (from' + dir)).bind fun hit =>
            if hit then some true
            else
              (s.isCastling from' to' pl).bind fun c =>
                if c then (s.occupantAt (to' + move.horiz (-1))).map fun o => !o.is_empty
                else some false

/-- `chess::makeMove`. -/
def makeMove (s : chess) (from' to' : position) : Option chess :=
  (s.getOccupant from').bind fun o =>
    (s.placeOccupant o to').bind fun s1 => s1.placeOccupant {} from'

/-- `chess::swapPlayer`. -/
def swapPlayer (s : chess) : chess :=
  { s with _player := if s._player = player.white then player.black else player.white }

/-- The loop of `chess::findKingPosition`. -/
def findKingIn (s : chess) : List position → Option position
  | [] => some {}
  | p :: rest =>
    (s.getOccupant p).bind fun o =>
      if o.is_empty = false ∧ o.piece = piece_type.king ∧ o.owner = s._player then some p
      else findKingIn s rest

/-- `chess::findKingPosition`. -/
def findKingPosition (s : chess) : Option position :=
  s.findKingIn position.allPositions

/-- The loop of `chess::isChecked`. -/
def isCheckedIn (s : chess) (king : position) : List position → Option Bool
  | [] => some false
  | p :: rest =>
    (s.getOccupant p).bind fun o =>
      if o.is_empty = false ∧ o.owner ≠ s._player then
        (s.canMove p king o.piece s.getOpponent).bind fun cm =>
          (if cm then (s.isBlocked p king s.getOpponent).map fun b => !b
           else some false).bind fun threat =>
            if threat then
              (s.occupantAt p).bind fun a =>
                if a.piece = piece_type.pawn ∧ (king - p).isStraight = true then
                  isCheckedIn s king rest
                else some true
            else isCheckedIn s king rest
      else isCheckedIn s king rest

/-- `chess::isChecked`. -/
def isChecked (s : chess) : Option Bool :=
  s.findKingPosition.bind fun king => s.isCheckedIn king position.allPositions

/-- The body of the loop of `chess::restartLapses`, on one record. -/
def clearLapse (pl : player) (o : occupant) : occupant :=
  if o.is_empty = false ∧ o.owner = pl ∧ o.piece = piece_type.pawn then
    { o with canBeLapsed := false }
  else o

/-- `chess::restartLapses`.  The loop visits each of the 64 squares once and rewrites only the
square it visits, so it is the square-wise map below. -/
def restartLapses (s : chess) : chess :=
  { s with _occupants := fun f r => clearLapse s._player (s._occupants f r) }

/-- `chess::isLapsed`. -/
def isLapsed (s : chess) (from' to' : position) : Option Bool :=
  let p : Int := if s._player = player.white then -1 else 1
  (s.occupantAt (to' + move.vert p)).bind fun toLapse =>
    (s.occupantAt from').bind fun f =>
      if f.piece = piece_type.pawn ∧ toLapse.owner = s.getOpponent ∧ toLapse.didTwoStep = true
      then some (!toLapse.canBeLapsed)
      else some false

/-- `chess::isEnPassant`. -/
def isEnPassant (s : chess) (from' to' : position) : Option Bool :=
  let p : Int := if s._player = player.white then -1 else 1
  (s.occupantAt (to' + move.vert p)).bind fun toLapse =>
    (s.occupantAt from').bind fun f =>
      some (decide (f.piece = piece_type.pawn ∧ toLapse.owner = s.getOpponent
        ∧ toLapse.canBeLapsed = true))

/-- `chess::applyEnPassant`. -/
def applyEnPassant (s : chess) (p0 : position) : Option chess :=
  let p : Int := if s._player = player.white then -1 else 1
  let toLapsePos : position := p0 + move.vert p
  s.placeOccupant {} toLapsePos

/-- `chess::wouldCheck`. -/
def wouldCheck (s : chess) (from' to' : position) : Option (Bool × chess) :=
  (s.occupantAt to').bind fun tmpTarget =>
    (s.isEnPassant from' to').bind fun ep =>
      if ep then
        (s.occupantAt (to' + move.vert 1)).bind fun tmpUp =>
        (s.occupantAt (to' + move.vert (-1))).bind fun tmpDown =>
        (s.applyEnPassant to').bind fun s1 =>
        (s1.makeMove from' to').bind fun s2 =>
        s2.isChecked.bind fun res =>
        (s2.makeMove to' from').bind fun s3 =>
        (s3.placeOccupant tmpUp (to' + move.vert 1)).bind fun s4 =>
        (s4.placeOccupant tmpDown (to' + move.vert (-1))).bind fun s5 =>
        (s5.placeOccupant tmpTarget to').map fun s6 => (res, s6)
      else
        (s.makeMove from' to').bind fun s1 =>
        s1.isChecked.bind fun res =>
        (s1.makeMove to' from').bind fun s2 =>
        (s2.placeOccupant tmpTarget to').map fun s3 => (res, s3)

/-- A read-modify-write through the reference returned by `getOccupant`, as in
`getOccupant(from).didMove = true`. -/
def modifyOccupant (s : chess) (p : position) (g : occupant → occupant) : Option chess :=
  (s.getOccupant p).bind fun o => s.placeOccupant (g o) p

/-- `chess::setFlags`. -/
def setFlags (s : chess) (from' to' : position) : Option chess :=
  (s.occupantAt from').bind fun f =>
    (if f.piece = piece_type.pawn then
      if move.abs (to' - from') = move.vert 2 then
        (s.modifyOccupant from' fun o => { o with didTwoStep := true }).bind fun s1 =>
          s1.modifyOccupant from' fun o => { o with canBeLapsed := true }
      else
        s.modifyOccupant from' fun o => { o with didTwoStep := false }
    else some s).bind fun s2 =>
      s2.modifyOccupant from' fun o => { o with didMove := true }

/-- `chess::wouldCheckCastling`; `||` evaluates its second operand only when the first is
false. -/
def wouldCheckCastling (s : chess) (from' to' : position) : Option (Bool × chess) :=
  let m : move := to' - from'
  let p : Int := if m.file = 2 then 1 else -1
  (s.wouldCheck from' (from' + move.horiz p)).bind fun r1 =>
    if r1.1 then some (true, r1.2)
    else r1.2.wouldCheck from' (from' + move.horiz (2 * p))

/-- `chess::hasMoved`. -/
def hasMoved (s : chess) (from' to' : position) : Option Bool :=
  let m : move := to' - from'
  (s.occupantAt from').bind fun f =>
    if f.didMove then some true
    else if m.file = 2 then
      (s.occupantAt (from' + move.horiz 3)).map fun o => o.didMove
    else
      (s.occupantAt (from' + move.horiz (-4))).map fun o => o.didMove

/-- `chess::isPromote`. -/
def isPromote (s : chess) (from' to' : position) : Option Bool :=
  (s.occupantAt from').map fun f =>
    decide (f.piece = piece_type.pawn ∧ (to'.rank = 1 ∨ to'.rank = 8))

/-- `chess::isValidPromote`. -/
def isValidPromote (promote : piece_type) : Bool :=
  decide (promote ≠ piece_type.pawn ∧ promote ≠ piece_type.king)

/-- `chess::applyPromote`. -/
def applyPromote (s : chess) (p : position) (promote : piece_type) : Option chess :=
  s.modifyOccupant p fun o => { o with piece := promote }

/-- `chess::makeCastling`. -/
def makeCastling (s : chess) (from' to' : position) : Option chess :=
  let m : move := to' - from'
  (if m.file = 2 then
    s.makeMove (to' + move.horiz 1) (to' + move.horiz (-1))
  else
    s.makeMove (to' + move.horiz (-2)) (to' + move.horiz 1)).bind fun s1 =>
    (s1.getOccupant from').bind fun k =>
      (s1.placeOccupant k to').bind fun s2 => s2.placeOccupant {} from'

/-- The last part of `chess::play` (from `result result = result::ok;` to the end): the move
passed every check and any promotion is already applied; it is now carried out. -/
def playExecute (s : chess) (from' to' : position) : Option (result × chess) :=
  (s.occupantAt to').bind fun t =>
    (if t.is_empty = false then some true else s.isEnPassant from' to').bind fun isCapture =>
      let res : result := if isCapture then result.capture else result.ok
      (s.isEnPassant from' to').bind fun ep =>
        (if ep then s.applyEnPassant to' else some s).bind fun s1 =>
          (s1.setFlags from' to').bind fun s2 =>
            (s2.isCastling from' to' s2._player).bind fun c =>
              (if c then s2.makeCastling from' to' else s2.makeMove from' to').bind fun s3 =>
                some (res, s3.swapPlayer)

/-- The promotion step of `chess::play` (`if (isPromote(from, to)) ...`) followed by the
execution of the move. -/
def playPromote (s : chess) (from' to' : position) (promote : piece_type) :
    Option (result × chess) :=
  (s.isPromote from' to').bind fun pr =>
    if pr then
      if isValidPromote promote = false then some (result.bad_promote, s)
      else (s.applyPromote from' promote).bind fun s1 => s1.playExecute from' to'
    else s.playExecute from' to'

/-- The body of `chess::play` after its first statement `restartLapses();`: the checks in
their order of precedence, then the promotion and the execution of the move. -/
def playChecks (s : chess) (from' to' : position) (promote : piece_type) :
    Option (result × chess) :=
  s.isChecked.bind fun wasChecked =>
  (s.occupantAt from').bind fun p =>
    if p.is_empty then some (result.no_piece, s)
    else if p.owner ≠ s._player then some (result.bad_piece, s)
    else
      (s.canMove from' to' p.piece s._player).bind fun cm =>
      if cm = false then some (result.bad_move, s)
      else
        (s.isBlocked from' to' s._player).bind fun bl =>
        if bl then some (result.blocked, s)
        else
          (s.isLapsed from' to').bind fun la =>
          if la then some (result.lapsed, s)
          else
            (s.isCastling from' to' s._player).bind fun c =>
            if c then
              if wasChecked then some (result.in_check, s)
              else
                (s.wouldCheckCastling from' to').bind fun wc =>
                if wc.1 then some (result.would_check, wc.2)
                else
                  (wc.2.hasMoved from' to').bind fun hm =>
                  if hm then some (result.has_moved, wc.2)
                  else wc.2.playPromote from' to' promote
            else
              (s.wouldCheck from' to').bind fun wc =>
              if wc.1 then
                if wasChecked then some (result.in_check, wc.2)
                else some (result.would_check, wc.2)
              else wc.2.playPromote from' to' promote

/-- `chess::play`.  The result code and the state after the call. -/
def play (s : chess) (from' to' : position) (promote : piece_type := piece_type.pawn) :
    Option (result × chess) :=
  s.restartLapses.playChecks from' to' promote

/-- The loop `for (int i = 1; i <= 8; ++i)` of the constructor, placing the pawns. -/
def newPawns (s : chess) : List Int → Option chess
  | [] => some s
  | i :: rest =>
    (s.placeOccupant (occupant.of player.white piece_type.pawn) ⟨i, 2⟩).bind fun s1 =>
      (s1.placeOccupant (occupant.of player.black piece_type.pawn) ⟨i, 7⟩).bind fun s2 =>
        newPawns s2 rest

/-- One pass of the loop `for (int i: {1, 8})` of the constructor, placing a back rank. -/
def newBackRank (s : chess) (colour : player) (i : Int) : Option chess :=
  (s.placeOccupant (occupant.of colour piece_type.rook) ⟨1, i⟩).bind fun s1 =>
  (s1.placeOccupant (occupant.of colour piece_type.knight) ⟨2, i⟩).bind fun s2 =>
  (s2.placeOccupant (occupant.of colour piece_type.bishop) ⟨3, i⟩).bind fun s3 =>
  (s3.placeOccupant (occupant.of colour piece_type.queen) ⟨4, i⟩).bind fun s4 =>
  (s4.placeOccupant (occupant.of colour piece_type.king) ⟨5, i⟩).bind fun s5 =>
  (s5.placeOccupant (occupant.of colour piece_type.bishop) ⟨6, i⟩).bind fun s6 =>
  (s6.placeOccupant (occupant.of colour piece_type.knight) ⟨7, i⟩).bind fun s7 =>
  s7.placeOccupant (occupant.of colour piece_type.rook) ⟨8, i⟩

/-- The constructor `chess::chess()`. -/
def new : Option chess :=
  let s0 : chess := { _player := player.white, _occupants := fun _ _ => {} }
  (newPawns s0 [1, 2, 3, 4, 5, 6, 7, 8]).bind fun s1 =>
    (newBackRank s1 player.white 1).bind fun s2 => newBackRank s2 player.black 8

/-- The piece kinds of a back rank in file order (index `file - 1`). -/
def backRankPiece (f : Fin 8) : piece_type :=
  match f.val with
  | 0 => piece_type.rook
  | 1 => piece_type.knight
  | 2 => piece_type.bishop
  | 3 => piece_type.queen
  | 4 => piece_type.king
  | 5 => piece_type.bishop
  | 6 => piece_type.knight
  | _ => piece_type.rook

/-- The state built by the constructor, in closed form (see `new_eq_start`). -/
def start : chess :=
  { _player := player.white,
    _occupants := fun f r =>
      match r.val with
      | 0 => occupant.of player.white (backRankPiece f)
      | 1 => occupant.of player.white piece_type.pawn
      | 6 => occupant.of player.black piece_type.pawn
      | 7 => occupant.of player.black (backRankPiece f)
      | _ => {} }

/-- A sequence of `play` calls, each on the state left by the one before; the result codes
in order and the final state. -/
def playAll (s : chess) : List (position × position × piece_type) → Option (List result × chess)
  | [] => some ([], s)
  | (f, t, pr) :: rest =>
    (s.play f t pr).bind fun r =>
      (playAll r.2 rest).map fun rs => (r.1 :: rs.1, rs.2)

/-- The record `setFlags` leaves on `from`, for the record `o` found there and the
displacement `m` of the move. -/
def newFlags (o : occupant) (m : move) : occupant :=
  let o1 : occupant :=
    if o.piece = piece_type.pawn then
      if move.abs m = move.vert 2 then
        { o with didTwoStep := true, canBeLapsed := true }
      else { o with didTwoStep := false }
    else o
  { o1 with didMove := true }

/-- A call `play(from, to)` with the default promotion kind, given by the four coordinates. -/
def ply (f1 r1 f2 r2 : Int) : position × position × piece_type :=
  (⟨f1, r1⟩, ⟨f2, r2⟩, piece_type.pawn)

/-- The state reached from the initial position by a sequence of `play` calls (the initial
position itself if a call leaves the grid). -/
def after (moves : List (position × position × piece_type)) : chess :=
  match start.playAll moves with
  | some r => r.2
  | none => start

end chess

/-- The home rank of a player: the value `p` of `isCastling`. -/
def homeRank (pl : player) : Int := if pl = player.white then 1 else 8

/-- The file of the rook's corner on the side the king moves to (`step` is `1` towards file 8,
`-1` towards file 1). -/
def rookCorner (step : Int) : Int := if step = 1 then 8 else 1

/-- The initial position with the black pawn on `{3, 7}` flagged as having just double-stepped
(`didTwoStep` and `canBeLapsed` set). -/
def flaggedOnRank7 : chess :=
  { _player := player.white,
    _occupants := fun f r =>
      if f.val = 2 ∧ r.val = 6 then
        occupant.mk false player.black piece_type.pawn false true true
      else chess.start._occupants f r }

/-- The thirteen calls of `main` that precede the castling attempt. -/
def mainMoves : List (position × position × piece_type) :=
  [chess.ply 1 2 1 4, chess.ply 1 7 1 5, chess.ply 1 4 1 5, chess.ply 7 2 7 3,
    chess.ply 7 7 7 6, chess.ply 6 1 8 3, chess.ply 7 8 6 6, chess.ply 7 1 6 3,
    chess.ply 6 8 8 6, chess.ply 8 1 7 1, chess.ply 5 7 5 6, chess.ply 7 1 8 1,
    chess.ply 6 6 8 5]

/-- The number of squares of the board whose record satisfies `P`. -/
def chess.countSquares (s : chess) (P : occupant → Bool) : Nat :=
  (position.allPositions.filter fun p =>
    match s.getOccupant p with
    | some o => P o
    | none => false).length

/-- The number of pieces of kind `pc` that player `pl` has on the board. -/
def chess.countPieces (s : chess) (pl : player) (pc : piece_type) : Nat :=
  s.countSquares fun o => !o.is_empty && decide (o.owner = pl) && decide (o.piece = pc)

/-- The record of a piece of `pl` of kind `pc` with no flag set: the value of the constructor
`occupant(player, piece)`, field by field. -/
def fresh (pl : player) (pc : piece_type) : occupant := occupant.mk false pl pc false false false

/-- The twelve calls of `test_promote` that precede the promoting move. -/
def promoteMoves : List (position × position × piece_type) :=
  [chess.ply 2 2 2 4, chess.ply 6 7 6 5, chess.ply 2 4 2 5, chess.ply 6 5 6 4,
    chess.ply 3 2 3 4, chess.ply 6 4 6 3, chess.ply 3 4 3 5, chess.ply 2 7 2 6,
    chess.ply 3 5 2 6, chess.ply 2 8 3 6, chess.ply 2 6 1 7, chess.ply 1 8 2 8]

/-- The squares strictly between `from` and `to` along the unit direction of the displacement:
`from + k * dir` for `1 <= k < n`, where `dir` is the displacement made a direction and `n` is
the larger of its two absolute coordinates. -/
def squaresBetween (from' to' : position) : List position :=
  let d : move := (to' - from' : move).directionize
  let n : Nat := max (to'.file - from'.file).natAbs (to'.rank - from'.rank).natAbs
  (List.range (n - 1)).map fun k =>
    ⟨from'.file + ((k : Int) + 1) * d.file, from'.rank + ((k : Int) + 1) * d.rank⟩

/-- The squares that the scan of `isBlocked` tests before it reaches `to`, without the board. -/
def scanPath (to' : position) (dir : move) : Nat → position → Option (List position)
  | 0, _ => none
  | n + 1, pos =>
    if pos = to' then some [] else (scanPath to' dir n (pos + dir)).map fun l => pos :: l

/-- The square holds a piece: `!at(p).is_empty`. -/
def chess.occupied (s : chess) (p : position) : Bool :=
  match s.occupantAt p with
  | some o => !o.is_empty
  | none => false

/-- The piece on `p` gives check to a king on `k`: `p` holds a piece `o` of the opponent of the
side to move, `canMove(p, k, o.piece, opponent)` holds, `isBlocked(p, k, opponent)` does not,
and `o` is not a pawn with a straight displacement `k - p`. -/
def chess.threatens (s : chess) (k p : position) : Prop :=
  ∃ o, s.occupantAt p = some o ∧ o.is_empty = false ∧ o.owner = s.getOpponent ∧
    s.canMove p k o.piece s.getOpponent = some true ∧
    s.isBlocked p k s.getOpponent = some false ∧
    ¬ (o.piece = piece_type.pawn ∧ (k - p : move).isStraight = true)

/-- The initial position with the squares `{6,1}` and `{7,1}` emptied and, on the corner
`{8,1}`, an empty record of kind `rook` (`is_empty` true, `piece` rook, owner white): a board
that `placeOccupant`, a public member, can set up, and that `play` never produces. -/
def emptyCorner : chess :=
  { _player := player.white,
    _occupants := fun f r =>
      if (f.val = 5 ∨ f.val = 6) ∧ r.val = 0 then {}
      else if f.val = 7 ∧ r.val = 0 then
        occupant.mk true player.white piece_type.rook false false false
      else chess.start._occupants f r }

/-- The `int` value `x` is representable on 32 bits. -/
def isInt (x : Int) : Prop := -2147483648 ≤ x ∧ x < 2147483648

instance (x : Int) : Decidable (isInt x) :=
  inferInstanceAs (Decidable (-2147483648 ≤ x ∧ x < 2147483648))

/-- What each record of a state reached by play satisfies, on the square `q` where it stands:
an empty record is the default record; `didTwoStep` is only set on a pawn, which then stands
on the rank a double step ends on; `canBeLapsed` is only set with `didTwoStep`; and a pawn that
has not moved stands on its initial rank. -/
def recordOk (q : position) (o : occupant) : Prop :=
  (o.is_empty = true → o = {}) ∧
  (o.didTwoStep = true → o.is_empty = false ∧ o.piece = piece_type.pawn ∧
    q.rank = (if o.owner = player.white then 4 else 5)) ∧
  (o.canBeLapsed = true → o.didTwoStep = true) ∧
  (o.is_empty = false → o.piece = piece_type.pawn → o.didMove = false →
    q.rank = (if o.owner = player.white then 2 else 7))

instance (q : position) (o : occupant) : Decidable (recordOk q o) := by
  unfold recordOk
  infer_instance

/-- The invariant of the states reached by play: every record is `recordOk`, and behind a
pawn of the player not to move that can be taken en passant the square it skipped is empty. -/
def chess.flagsOk (s : chess) : Prop :=
  (∀ q o, s.getOccupant q = some o → recordOk q o) ∧
  (∀ q o, s.getOccupant q = some o → o.canBeLapsed = true → o.owner ≠ s._player →
    ∃ e, s.occupantAt (q + move.vert (if o.owner = player.white then -1 else 1)) = some e ∧
      e.is_empty = true)

/-- The states reachable from the initial position by calls of `play` with on-board
positions, whatever the calls answer. -/
inductive Reachable : chess → Prop where
  | init {s : chess} : chess.new = some s → Reachable s
  | step {s s' : chess} {from' to' : position} {promote : piece_type} {r : result} :
      Reachable s → onBoard from' → onBoard to' →
      s.play from' to' promote = some (r, s') → Reachable s'

/-- The weight of a square in a count: `1` if its record satisfies `P`. -/
def chess.weight (s : chess) (P : occupant → Bool) (q : position) : Nat :=
  match s.getOccupant q with
  | some o => if P o then 1 else 0
  | none => 0

/-- The number of occupied squares. -/
def chess.occupiedCount (s : chess) : Nat := s.countSquares fun o => !o.is_empty

/-- The number of squares occupied by a piece of `pl`. -/
def chess.ownedCount (s : chess) (pl : player) : Nat :=
  s.countSquares fun o => !o.is_empty && decide (o.owner = pl)

/-! ## Lemmas on the grid accessors -/

/-- The constructor stays inside the grid and builds the state `start`. -/
theorem new_eq_start : chess.new = some chess.start := by
  unfold chess.new chess.start
  simp [chess.newPawns, chess.newBackRank, chess.placeOccupant, cell, Option.map, Option.bind,
    onBoard]
  funext f r
  fin_cases f <;> fin_cases r <;> rfl

theorem cell_isSome {p : position} (h : onBoard p) : ∃ i, cell p = some i := by
  unfold cell
  rw [dif_pos h]
  exact ⟨_, rfl⟩

theorem cell_eq_none {p : position} (h : ¬ onBoard p) : cell p = none := by
  unfold cell
  rw [dif_neg h]

theorem onBoard_of_cell {p : position} {i : Fin 8 × Fin 8} (h : cell p = some i) : onBoard p := by
  by_contra hn
  rw [cell_eq_none hn] at h
  cases h

theorem cell_inj {p q : position} {i : Fin 8 × Fin 8} (hp : cell p = some i) (hq : cell q = some i) :
    p = q := by
  have h1 := onBoard_of_cell hp
  have h2 := onBoard_of_cell hq
  unfold cell at hp hq
  rw [dif_pos h1] at hp
  rw [dif_pos h2] at hq
  obtain ⟨pf, pr⟩ := p
  obtain ⟨qf, qr⟩ := q
  unfold onBoard at h1 h2
  simp only at h1 h2 hp hq
  rw [← hq] at hp
  simp only [Option.some.injEq, Prod.mk.injEq, Fin.mk.injEq] at hp
  obtain ⟨a, b⟩ := hp
  have : pf = qf := by omega
  have : pr = qr := by omega
  subst_vars
  rfl

theorem cell_surj (i : Fin 8 × Fin 8) : ∃ p, cell p = some i := by
  obtain ⟨⟨a, ha⟩, ⟨b, hb⟩⟩ := i
  refine ⟨⟨(a : Int) + 1, (b : Int) + 1⟩, ?_⟩
  unfold cell
  have h : onBoard ⟨(a : Int) + 1, (b : Int) + 1⟩ := by
    unfold onBoard
    dsimp only
    omega
  rw [dif_pos h]
  simp

namespace chess

theorem getOccupant_isSome (s : chess) {p : position} (h : onBoard p) :
    ∃ o, s.getOccupant p = some o := by
  obtain ⟨i, hi⟩ := cell_isSome h
  exact ⟨s._occupants i.1 i.2, by simp [getOccupant, hi]⟩

theorem getOccupant_eq_none (s : chess) {p : position} (h : ¬ onBoard p) :
    s.getOccupant p = none := by
  simp [getOccupant, cell_eq_none h]

theorem onBoard_of_getOccupant {s : chess} {p : position} {o : occupant}
    (h : s.getOccupant p = some o) : onBoard p := by
  by_contra hn
  rw [getOccupant_eq_none s hn] at h
  cases h

theorem placeOccupant_isSome (s : chess) (o : occupant) {p : position} (h : onBoard p) :
    ∃ s', s.placeOccupant o p = some s' := by
  obtain ⟨i, hi⟩ := cell_isSome h
  simp [placeOccupant, hi]

theorem onBoard_of_placeOccupant {s s' : chess} {o : occupant} {p : position}
    (h : s.placeOccupant o p = some s') : onBoard p := by
  by_contra hn
  simp [placeOccupant, cell_eq_none hn] at h

theorem placeOccupant_player {s s' : chess} {o : occupant} {p : position}
    (h : s.placeOccupant o p = some s') : s'._player = s._player := by
  unfold placeOccupant at h
  cases hc : cell p with
  | none => simp [hc] at h
  | some i =>
    simp [hc] at h
    rw [← h]

theorem getOccupant_placeOccupant {s s' : chess} {o : occupant} {p : position}
    (h : s.placeOccupant o p = some s') (q : position) :
    s'.getOccupant q = if q = p then some o else s.getOccupant q := by
  unfold placeOccupant at h
  cases hc : cell p with
  | none => simp [hc] at h
  | some i =>
    simp only [hc, Option.map_some', Option.some.injEq] at h
    subst h
    unfold getOccupant
    cases hq : cell q with
    | none =>
      have : q ≠ p := by
        rintro rfl
        rw [hc] at hq
        cases hq
      simp [this]
    | some j =>
      by_cases hqp : q = p
      · subst hqp
        rw [hc] at hq
        cases hq
        simp
      · have hne : j ≠ i := by
          rintro rfl
          exact hqp (cell_inj hq hc)
        have : ¬ (j.1 = i.1 ∧ j.2 = i.2) := by
          rintro ⟨a, b⟩
          exact hne (Prod.ext a b)
        simp [hqp, this]

theorem ext_get {s t : chess} (hp : s._player = t._player)
    (h : ∀ q, s.getOccupant q = t.getOccupant q) : s = t := by
  obtain ⟨sp, sb⟩ := s
  obtain ⟨tp, tb⟩ := t
  simp only at hp
  subst hp
  congr 1
  funext f r
  obtain ⟨q, hq⟩ := cell_surj (f, r)
  have := h q
  simpa [getOccupant, hq] using this

theorem occupantAt_sentinel (s : chess) : s.occupantAt {} = some {} := by
  simp [occupantAt]

theorem occupantAt_of_onBoard (s : chess) {p : position} (h : onBoard p) :
    s.occupantAt p = s.getOccupant p := by
  have : p ≠ {} := by
    rintro rfl
    revert h
    decide
  simp [occupantAt, this]

theorem makeMove_spec {s s' : chess} {f t : position} (h : s.makeMove f t = some s') :
    ∃ o, s.getOccupant f = some o ∧ onBoard t ∧ s'._player = s._player ∧
      ∀ q, s'.getOccupant q =
        if q = f then some {} else if q = t then some o else s.getOccupant q := by
  unfold makeMove at h
  simp only [Option.bind_eq_some] at h
  obtain ⟨o, ho, s1, h1, h2⟩ := h
  refine ⟨o, ho, onBoard_of_placeOccupant h1, ?_, ?_⟩
  · rw [placeOccupant_player h2, placeOccupant_player h1]
  · intro q
    rw [getOccupant_placeOccupant h2, getOccupant_placeOccupant h1]

theorem makeMove_isSome (s : chess) {f t : position} (hf : onBoard f) (ht : onBoard t) :
    ∃ s', s.makeMove f t = some s' := by
  obtain ⟨o, ho⟩ := s.getOccupant_isSome hf
  obtain ⟨s1, h1⟩ := s.placeOccupant_isSome o ht
  obtain ⟨s2, h2⟩ := s1.placeOccupant_isSome {} hf
  exact ⟨s2, by simp [makeMove, ho, h1, h2]⟩

theorem occupantAt_eq_getOccupant_of_place {s s1 s2 : chess} {o x : occupant} {p : position}
    (h : s.occupantAt p = some o) (hp : s1.placeOccupant x p = some s2) :
    s.getOccupant p = some o := by
  rw [← occupantAt_of_onBoard s (onBoard_of_placeOccupant hp)]
  exact h

theorem applyEnPassant_spec {s s' : chess} {t : position} (h : s.applyEnPassant t = some s') :
    ∃ c, (c = t + move.vert (-1) ∨ c = t + move.vert 1) ∧ s.placeOccupant {} c = some s' := by
  unfold applyEnPassant at h
  by_cases hp : s._player = player.white
  · exact ⟨_, Or.inl rfl, by simpa [hp] using h⟩
  · exact ⟨_, Or.inr rfl, by simpa [hp] using h⟩

/-- Frame property of `wouldCheck`: whenever the simulation returns, the state is the one it
started from. -/
theorem wouldCheck_state {s s' : chess} {f t : position} {b : Bool}
    (h : s.wouldCheck f t = some (b, s')) : s' = s := by
  unfold wouldCheck at h
  simp only [Option.bind_eq_some] at h
  obtain ⟨tmpTarget, hT, ep, -, h⟩ := h
  split at h
  · simp only [Option.bind_eq_some, Option.map_eq_some'] at h
    obtain ⟨tmpUp, hU, tmpDown, hD, s1, h1, s2, h2, res, -, s3, h3, s4, h4, s5, h5, s6, h6, h7⟩ := h
    obtain ⟨c, hc, h1⟩ := applyEnPassant_spec h1
    generalize t + move.vert 1 = u at hU h4 hc
    generalize t + move.vert (-1) = d at hD h5 hc
    obtain ⟨o2, ho2, -, hp2, hg2⟩ := makeMove_spec h2
    obtain ⟨o3, ho3, -, hp3, hg3⟩ := makeMove_spec h3
    have hT' := occupantAt_eq_getOccupant_of_place hT h6
    have hU' := occupantAt_eq_getOccupant_of_place hU h4
    have hD' := occupantAt_eq_getOccupant_of_place hD h5
    simp only [Prod.mk.injEq] at h7
    obtain ⟨-, rfl⟩ := h7
    apply ext_get
    · rw [placeOccupant_player h6, placeOccupant_player h5, placeOccupant_player h4, hp3, hp2,
        placeOccupant_player h1]
    · intro q
      rw [hg2, getOccupant_placeOccupant h1] at ho3
      rw [getOccupant_placeOccupant h1] at ho2
      rw [getOccupant_placeOccupant h6, getOccupant_placeOccupant h5,
        getOccupant_placeOccupant h4, hg3, hg2, getOccupant_placeOccupant h1]
      rcases hc with rfl | rfl <;> split_ifs at ho2 ho3 ⊢ <;> simp_all
  · simp only [Option.bind_eq_some, Option.map_eq_some'] at h
    obtain ⟨s1, h1, res, -, s2, h2, s3, h3, h4⟩ := h
    obtain ⟨o1, ho1, -, hp1, hg1⟩ := makeMove_spec h1
    obtain ⟨o2, ho2, -, hp2, hg2⟩ := makeMove_spec h2
    have hT' := occupantAt_eq_getOccupant_of_place hT h3
    simp only [Prod.mk.injEq] at h4
    obtain ⟨-, rfl⟩ := h4
    apply ext_get
    · rw [placeOccupant_player h3, hp2, hp1]
    · intro q
      rw [hg1] at ho2
      rw [getOccupant_placeOccupant h3, hg2, hg1]
      split_ifs at ho2 ⊢ <;> simp_all

theorem restartLapses_player (s : chess) : s.restartLapses._player = s._player := rfl

theorem modifyOccupant_spec {s s' : chess} {p : position} {g : occupant → occupant}
    (h : s.modifyOccupant p g = some s') :
    ∃ o, s.getOccupant p = some o ∧ s'._player = s._player ∧
      ∀ q, s'.getOccupant q = if q = p then some (g o) else s.getOccupant q := by
  unfold modifyOccupant at h
  simp only [Option.bind_eq_some] at h
  obtain ⟨o, ho, h1⟩ := h
  exact ⟨o, ho, placeOccupant_player h1, getOccupant_placeOccupant h1⟩

theorem setFlags_player {s s' : chess} {f t : position} (h : s.setFlags f t = some s') :
    s'._player = s._player := by
  unfold setFlags at h
  simp only [Option.bind_eq_some] at h
  obtain ⟨o, -, s2, h2, h3⟩ := h
  obtain ⟨-, -, hp3, -⟩ := modifyOccupant_spec h3
  rw [hp3]
  split at h2
  · split at h2
    · simp only [Option.bind_eq_some] at h2
      obtain ⟨s1, h1, h2⟩ := h2
      obtain ⟨-, -, hp1, -⟩ := modifyOccupant_spec h1
      obtain ⟨-, -, hp2, -⟩ := modifyOccupant_spec h2
      rw [hp2, hp1]
    · obtain ⟨-, -, hp2, -⟩ := modifyOccupant_spec h2
      exact hp2
  · cases h2
    rfl

theorem makeCastling_player {s s' : chess} {f t : position} (h : s.makeCastling f t = some s') :
    s'._player = s._player := by
  unfold makeCastling at h
  simp only [Option.bind_eq_some] at h
  obtain ⟨s1, h1, k, -, s2, h2, h3⟩ := h
  rw [placeOccupant_player h3, placeOccupant_player h2]
  split at h1
  · obtain ⟨-, -, -, hp, -⟩ := makeMove_spec h1
    exact hp
  · obtain ⟨-, -, -, hp, -⟩ := makeMove_spec h1
    exact hp

theorem swapPlayer_player (s : chess) : s.swapPlayer._player = s.getOpponent := rfl

/-- The execution part of `play` answers `capture` or `ok` and hands the move to the
opponent. -/
theorem playExecute_spec {s s' : chess} {f t : position} {r : result}
    (h : s.playExecute f t = some (r, s')) :
    (r = result.capture ∨ r = result.ok) ∧ s'._player = s.getOpponent := by
  unfold playExecute at h
  simp only [Option.bind_eq_some] at h
  obtain ⟨o, -, isCapture, -, ep, -, s1, h1, s2, h2, c, -, s3, h3, h4⟩ := h
  simp only [Option.some.injEq, Prod.mk.injEq] at h4
  obtain ⟨hr, rfl⟩ := h4
  constructor
  · cases isCapture
    · right
      simpa using hr.symm
    · left
      simpa using hr.symm
  · have e1 : s1._player = s._player := by
      split at h1
      · obtain ⟨c, -, h1⟩ := applyEnPassant_spec h1
        exact placeOccupant_player h1
      · cases h1
        rfl
    have e2 := setFlags_player h2
    have e3 : s3._player = s2._player := by
      split at h3
      · exact makeCastling_player h3
      · obtain ⟨-, -, -, hp, -⟩ := makeMove_spec h3
        exact hp
    rw [swapPlayer_player]
    unfold getOpponent
    rw [e3, e2, e1]

theorem playPromote_spec {s s' : chess} {f t : position} {pr : piece_type} {r : result}
    (h : s.playPromote f t pr = some (r, s')) :
    (r = result.bad_promote ∧ s' = s) ∨
      ((r = result.capture ∨ r = result.ok) ∧ s'._player = s.getOpponent) := by
  unfold playPromote at h
  simp only [Option.bind_eq_some] at h
  obtain ⟨p, -, h⟩ := h
  split at h
  · split at h
    · left
      simp only [Option.some.injEq, Prod.mk.injEq] at h
      exact ⟨h.1.symm, h.2.symm⟩
    · right
      simp only [Option.bind_eq_some] at h
      obtain ⟨s1, h1, h2⟩ := h
      obtain ⟨-, -, hp, -⟩ := modifyOccupant_spec h1
      have := playExecute_spec h2
      unfold getOpponent at this ⊢
      rw [hp] at this
      exact this
  · right
    exact playExecute_spec h

theorem wouldCheckCastling_state {s s' : chess} {f t : position} {b : Bool}
    (h : s.wouldCheckCastling f t = some (b, s')) : s' = s := by
  unfold wouldCheckCastling at h
  simp only [Option.bind_eq_some] at h
  obtain ⟨⟨b1, s1⟩, h1, h2⟩ := h
  have e1 := wouldCheck_state h1
  subst e1
  split at h2
  · simp only [Option.some.injEq, Prod.mk.injEq] at h2
    exact h2.2.symm
  · exact wouldCheck_state h2

/-- What a call of `play` can do: either it rejects the move and leaves the state as
`restartLapses` made it, or it carries the move out and the turn passes. -/
theorem play_spec {s s' : chess} {f t : position} {pr : piece_type} {r : result}
    (h : s.play f t pr = some (r, s')) :
    (r ≠ result.ok ∧ r ≠ result.capture ∧ s' = s.restartLapses) ∨
      ((r = result.capture ∨ r = result.ok) ∧ s'._player = s.getOpponent) := by
  unfold play playChecks at h
  obtain ⟨wasChecked, -, h⟩ := Option.bind_eq_some.mp h
  obtain ⟨p, -, h⟩ := Option.bind_eq_some.mp h
  have key : ∀ s2 : chess, s2 = s.restartLapses → s2.playPromote f t pr = some (r, s') →
      (r ≠ result.ok ∧ r ≠ result.capture ∧ s' = s.restartLapses) ∨
      ((r = result.capture ∨ r = result.ok) ∧ s'._player = s.getOpponent) := by
    intro s2 e h
    subst e
    rcases playPromote_spec h with ⟨rfl, rfl⟩ | h
    · left
      exact ⟨by decide, by decide, rfl⟩
    · right
      exact h
  have err : ∀ r0 : result, r0 ≠ result.ok → r0 ≠ result.capture → ∀ s2 : chess,
      s2 = s.restartLapses → some (r0, s2) = some (r, s') →
      (r ≠ result.ok ∧ r ≠ result.capture ∧ s' = s.restartLapses) ∨
      ((r = result.capture ∨ r = result.ok) ∧ s'._player = s.getOpponent) := by
    intro r0 h1 h2 s2 e h
    simp only [Option.some.injEq, Prod.mk.injEq] at h
    obtain ⟨rfl, rfl⟩ := h
    exact Or.inl ⟨h1, h2, e⟩
  by_cases c1 : p.is_empty = true
  · rw [if_pos c1] at h
    exact err _ (by decide) (by decide) _ rfl h
  rw [if_neg c1] at h
  by_cases c2 : p.owner ≠ s.restartLapses._player
  · rw [if_pos c2] at h
    exact err _ (by decide) (by decide) _ rfl h
  rw [if_neg c2] at h
  obtain ⟨cm, -, h⟩ := Option.bind_eq_some.mp h
  by_cases c3 : cm = false
  · rw [if_pos c3] at h
    exact err _ (by decide) (by decide) _ rfl h
  rw [if_neg c3] at h
  obtain ⟨bl, -, h⟩ := Option.bind_eq_some.mp h
  by_cases c4 : bl = true
  · rw [if_pos c4] at h
    exact err _ (by decide) (by decide) _ rfl h
  rw [if_neg c4] at h
  obtain ⟨la, -, h⟩ := Option.bind_eq_some.mp h
  by_cases c5 : la = true
  · rw [if_pos c5] at h
    exact err _ (by decide) (by decide) _ rfl h
  rw [if_neg c5] at h
  obtain ⟨c, -, h⟩ := Option.bind_eq_some.mp h
  by_cases c6 : c = true
  · rw [if_pos c6] at h
    by_cases c7 : wasChecked = true
    · rw [if_pos c7] at h
      exact err _ (by decide) (by decide) _ rfl h
    rw [if_neg c7] at h
    obtain ⟨⟨wc, s2⟩, hw, h⟩ := Option.bind_eq_some.mp h
    have e := wouldCheckCastling_state hw
    dsimp only at h
    by_cases c8 : wc = true
    · rw [if_pos c8] at h
      exact err _ (by decide) (by decide) _ e h
    rw [if_neg c8] at h
    obtain ⟨hm, -, h⟩ := Option.bind_eq_some.mp h
    by_cases c9 : hm = true
    · rw [if_pos c9] at h
      exact err _ (by decide) (by decide) _ e h
    rw [if_neg c9] at h
    exact key _ e h
  · rw [if_neg c6] at h
    obtain ⟨⟨wc, s2⟩, hw, h⟩ := Option.bind_eq_some.mp h
    have e := wouldCheck_state hw
    dsimp only at h
    by_cases c8 : wc = true
    · rw [if_pos c8] at h
      by_cases c7 : wasChecked = true
      · rw [if_pos c7] at h
        exact err _ (by decide) (by decide) _ e h
      · rw [if_neg c7] at h
        exact err _ (by decide) (by decide) _ e h
    · rw [if_neg c8] at h
      exact key _ e h

end chess

/-- An `int` result that is representable is not changed by the wrap. -/
theorem wrapInt_of_range {x : Int} (h1 : -2147483648 ≤ x) (h2 : x < 2147483648) :
    wrapInt x = x := by
  unfold wrapInt
  omega

@[simp] theorem wrapInt_zero : wrapInt 0 = 0 := by decide

@[simp] theorem wrapInt_one : wrapInt 1 = 1 := by decide

@[simp] theorem wrapInt_neg_one : wrapInt (-1) = -1 := by decide

@[simp] theorem wrapInt_two : wrapInt 2 = 2 := by decide

@[simp] theorem wrapInt_neg_two : wrapInt (-2) = -2 := by decide

theorem valid_bounds {p : position} (h : valid p) :
    0 ≤ p.file ∧ p.file ≤ 8 ∧ 0 ≤ p.rank ∧ p.rank ≤ 8 := by
  rcases h with rfl | h
  · decide
  · unfold onBoard at h
    omega

/-- The difference of two positions the code computes with does not wrap. -/
theorem sub_of_valid {a b : position} (ha : valid a) (hb : valid b) :
    (a - b : move) = ⟨a.file - b.file, a.rank - b.rank⟩ := by
  have h1 := valid_bounds ha
  have h2 := valid_bounds hb
  show position.sub a b = _
  unfold position.sub
  rw [wrapInt_of_range (by omega) (by omega), wrapInt_of_range (by omega) (by omega)]

theorem valid_add (p : position) (m : move) : valid (p + m) := by
  show valid (position.add p m)
  unfold position.add
  dsimp only
  split
  · exact Or.inl rfl
  · rename_i h
    right
    unfold onBoard
    dsimp only
    omega

theorem mem_allPositions {p : position} (h : onBoard p) : p ∈ position.allPositions := by
  obtain ⟨f, r⟩ := p
  unfold onBoard at h
  dsimp only at h
  obtain ⟨h1, h2, h3, h4⟩ := h
  interval_cases f <;> interval_cases r <;> decide

theorem onBoard_of_mem_allPositions : ∀ p ∈ position.allPositions, onBoard p := by
  decide

set_option maxHeartbeats 4000000 in
/-- On every pair of endpoints with a straight or diagonal displacement the scan tests
exactly the squares strictly between them, in order, and then reaches `to`. -/
theorem scanPath_all : ∀ ft ∈ scanEndpoints,
    ((ft.2 - ft.1 : move).isDiagonal = true ∨ (ft.2 - ft.1 : move).isStraight = true) →
      scanPath ft.2 (ft.2 - ft.1 : move).directionize chess.scanBound
        (ft.1 + (ft.2 - ft.1 : move).directionize) = some (squaresBetween ft.1 ft.2) := by
  decide!

/-- A scan that has a path reaches `to`. -/
theorem scanReaches_of_scanPath (t : position) (dir : move) :
    ∀ (n : Nat) (pos : position) (l : List position),
      scanPath t dir n pos = some l → scanReaches t dir n pos = true := by
  intro n
  induction n with
  | zero =>
    intro pos l h
    simp [scanPath] at h
  | succ n ih =>
    intro pos l h
    unfold scanPath at h
    unfold scanReaches
    by_cases hpos : pos = t
    · rw [if_pos hpos]
    · rw [if_neg hpos] at h
      rw [if_neg hpos]
      obtain ⟨l1, hl1, -⟩ := Option.map_eq_some'.mp h
      exact ih _ _ hl1

theorem scanReaches_all : ∀ ft ∈ scanEndpoints,
    ((ft.2 - ft.1 : move).isDiagonal = true ∨ (ft.2 - ft.1 : move).isStraight = true) →
      scanReaches ft.2 (ft.2 - ft.1 : move).directionize chess.scanBound
        (ft.1 + (ft.2 - ft.1 : move).directionize) = true := by
  intro ft hft hd
  exact scanReaches_of_scanPath _ _ _ _ _ (scanPath_all ft hft hd)

namespace chess

theorem occupantAt_isSome (s : chess) {p : position} (h : valid p) :
    ∃ o, s.occupantAt p = some o := by
  rcases h with rfl | h
  · exact ⟨_, occupantAt_sentinel s⟩
  · rw [occupantAt_of_onBoard s h]
    exact getOccupant_isSome s h

theorem isCastling_isSome (s : chess) (f t : position) (pl : player) :
    ∃ b, s.isCastling f t pl = some b := by
  have h8 : ∀ p : Int, (p = 1 ∨ p = 8) → ∃ o, s.occupantAt ⟨8, p⟩ = some o := by
    rintro p (rfl | rfl) <;> exact occupantAt_isSome s (Or.inr (by decide))
  have h1 : ∀ p : Int, (p = 1 ∨ p = 8) → ∃ o, s.occupantAt ⟨1, p⟩ = some o := by
    rintro p (rfl | rfl) <;> exact occupantAt_isSome s (Or.inr (by decide))
  unfold isCastling
  dsimp only
  generalize hp : (if pl = player.white then (1 : Int) else 8) = p
  have hp' : p = 1 ∨ p = 8 := by
    rw [← hp]
    split
    · exact Or.inl rfl
    · exact Or.inr rfl
  obtain ⟨a, ha⟩ := h8 p hp'
  obtain ⟨b, hb⟩ := h1 p hp'
  rw [ha, hb]
  exact ⟨_, rfl⟩

theorem canMove_isSome (s : chess) {f t : position} (hf : valid f) (ht : valid t)
    (pc : piece_type) (pl : player) : ∃ b, s.canMove f t pc pl = some b := by
  unfold canMove
  cases pc
  case pawn =>
    dsimp only
    unfold canMovePawn
    dsimp only
    obtain ⟨a, ha⟩ := s.occupantAt_isSome hf
    obtain ⟨b, hb⟩ := s.occupantAt_isSome ht
    obtain ⟨c, hc⟩ := s.occupantAt_isSome
      (valid_add t (move.vert (-(if pl = player.white then 1 else -1))))
    rw [ha, hb, hc]
    simp only [Option.some_bind]
    split_ifs <;> simp
  case king =>
    dsimp only
    unfold canMoveKing
    obtain ⟨c, hc⟩ := s.isCastling_isSome f t pl
    rw [hc]
    simp only [Option.some_bind]
    split_ifs <;> simp
  all_goals exact ⟨_, rfl⟩

theorem isBlockedScan_isSome (s : chess) (t : position) (dir : move) :
    ∀ (n : Nat) (pos : position), valid pos → scanReaches t dir n pos = true →
      ∃ b, s.isBlockedScan t dir n pos = some b := by
  intro n
  induction n with
  | zero =>
    intro pos _ h
    simp [scanReaches] at h
  | succ n ih =>
    intro pos hv h
    unfold isBlockedScan
    unfold scanReaches at h
    by_cases hpos : pos = t
    · simp [hpos]
    · rw [if_neg hpos] at h
      obtain ⟨o, ho⟩ := s.occupantAt_isSome hv
      rw [if_pos hpos, ho]
      simp only [Option.some_bind]
      split
      · exact ⟨_, rfl⟩
      · exact ih _ (valid_add pos dir) h

theorem mem_scanEndpoints {f t : position} (hf : onBoard f) (ht : valid t) :
    (f, t) ∈ scanEndpoints := by
  unfold scanEndpoints
  simp only [List.mem_flatMap, List.mem_map, Prod.mk.injEq]
  refine ⟨f, mem_allPositions hf, t, ?_, rfl, rfl⟩
  rcases ht with rfl | ht
  · exact List.mem_cons_self _ _
  · exact List.mem_cons_of_mem _ (mem_allPositions ht)

theorem isBlocked_isSome (s : chess) {f t : position} (hf : onBoard f) (ht : valid t)
    (pl : player) : ∃ b, s.isBlocked f t pl = some b := by
  unfold isBlocked
  obtain ⟨a, ha⟩ := s.occupantAt_isSome ht
  obtain ⟨b, hb⟩ := s.occupantAt_isSome (Or.inr hf)
  obtain ⟨c, hc⟩ := s.isCastling_isSome f t pl
  obtain ⟨d, hd⟩ := s.occupantAt_isSome (valid_add t (move.horiz (-1)))
  rw [ha, hb, hc, hd]
  simp only [Option.some_bind]
  have hscan := scanReaches_all (f, t) (mem_scanEndpoints hf ht)
  dsimp only at hscan
  have early : ∃ e, (if a.is_empty = false then
      if a.owner = pl then some true
      else some (decide (b.piece = piece_type.pawn ∧ (t - f : move).isStraight = true
            ∧ a.owner = s.getOpponent))
    else some false) = some e := by
    split_ifs <;> exact ⟨_, rfl⟩
  obtain ⟨e, he⟩ := early
  rw [he]
  simp only [Option.some_bind]
  by_cases h1 : e = true
  · simp [h1]
  rw [if_neg h1]
  by_cases h2 : (t - f : move).isDiagonal = false ∧ (t - f : move).isStraight = false
  · simp [h2]
  rw [if_neg h2]
  have h3 : (t - f : move).isDiagonal = true ∨ (t - f : move).isStraight = true := by
    by_contra hn
    push_neg at hn
    exact h2 ⟨by simpa using hn.1, by simpa using hn.2⟩
  obtain ⟨hit, hhit⟩ := s.isBlockedScan_isSome t _ scanBound _
    (valid_add f (t - f : move).directionize) (hscan h3)
  rw [hhit]
  simp only [Option.some_bind]
  split_ifs <;> simp

theorem findKingIn_valid (s : chess) : ∀ l : List position, (∀ p ∈ l, onBoard p) →
    ∃ k, s.findKingIn l = some k ∧ valid k := by
  intro l
  induction l with
  | nil =>
    intro _
    exact ⟨_, rfl, Or.inl rfl⟩
  | cons p rest ih =>
    intro h
    have hp : onBoard p := h p (List.mem_cons_self _ _)
    obtain ⟨o, ho⟩ := s.getOccupant_isSome hp
    unfold findKingIn
    rw [ho]
    simp only [Option.some_bind]
    split
    · exact ⟨p, rfl, Or.inr hp⟩
    · exact ih fun q hq => h q (List.mem_cons_of_mem _ hq)

theorem isCheckedIn_isSome (s : chess) {king : position} (hk : valid king) :
    ∀ l : List position, (∀ p ∈ l, onBoard p) → ∃ b, s.isCheckedIn king l = some b := by
  intro l
  induction l with
  | nil =>
    intro _
    exact ⟨_, rfl⟩
  | cons p rest ih =>
    intro h
    have hp : onBoard p := h p (List.mem_cons_self _ _)
    have ih' := ih fun q hq => h q (List.mem_cons_of_mem _ hq)
    obtain ⟨o, ho⟩ := s.getOccupant_isSome hp
    obtain ⟨cm, hcm⟩ := s.canMove_isSome (Or.inr hp) hk o.piece s.getOpponent
    obtain ⟨bl, hbl⟩ := s.isBlocked_isSome hp hk s.getOpponent
    obtain ⟨a, ha⟩ := s.occupantAt_isSome (Or.inr hp)
    unfold isCheckedIn
    rw [ho]
    simp only [Option.some_bind]
    rw [hcm, hbl, ha]
    cases cm <;> cases bl <;>
      simp only [Option.some_bind, Option.map_some', Bool.not_true, Bool.not_false,
        Bool.false_eq_true, if_true, if_false] <;>
      split_ifs <;> first | exact ih' | exact ⟨_, rfl⟩

/-- `isChecked` never leaves the grid: it returns on every state. -/
theorem isChecked_isSome (s : chess) : ∃ b, s.isChecked = some b := by
  unfold isChecked findKingPosition
  obtain ⟨k, hk, hv⟩ := s.findKingIn_valid _ onBoard_of_mem_allPositions
  rw [hk]
  exact s.isCheckedIn_isSome hv _ onBoard_of_mem_allPositions

end chess

theorem add_of_onBoard {p : position} {m : move}
    (h : onBoard ⟨p.file + m.file, p.rank + m.rank⟩) :
    p + m = ⟨p.file + m.file, p.rank + m.rank⟩ := by
  show position.add p m = _
  unfold position.add
  unfold onBoard at h
  dsimp only at h ⊢
  rw [wrapInt_of_range (by omega) (by omega), wrapInt_of_range (by omega) (by omega),
    if_neg (by omega)]

theorem exists_of_map_fst {α β : Type} {x : Option (α × β)} {a : α}
    (h : x.map Prod.fst = some a) : ∃ b, x = some (a, b) := by
  cases x with
  | none => cases h
  | some v =>
    obtain ⟨v1, v2⟩ := v
    simp only [Option.map_some', Option.some.injEq] at h
    subst h
    exact ⟨v2, rfl⟩

namespace chess

theorem isEnPassant_isSome (s : chess) {f : position} (hf : valid f) (t : position) :
    ∃ b, s.isEnPassant f t = some b := by
  unfold isEnPassant
  dsimp only
  obtain ⟨a, ha⟩ := s.occupantAt_isSome
    (valid_add t (move.vert (if s._player = player.white then -1 else 1)))
  obtain ⟨b, hb⟩ := s.occupantAt_isSome hf
  rw [ha, hb]
  exact ⟨_, rfl⟩

theorem wouldCheck_isSome (s : chess) {f t : position} (hf : onBoard f) (ht : onBoard t)
    (h : ¬ (s.isEnPassant f t = some true ∧ (t.rank = 1 ∨ t.rank = 8))) :
    ∃ r, s.wouldCheck f t = some r := by
  obtain ⟨tt, htt⟩ := s.occupantAt_isSome (Or.inr ht)
  obtain ⟨ep, hep⟩ := s.isEnPassant_isSome (Or.inr hf) t
  unfold wouldCheck
  rw [htt, hep]
  simp only [Option.some_bind]
  cases ep
  · obtain ⟨s1, h1⟩ := s.makeMove_isSome hf ht
    obtain ⟨res, hres⟩ := s1.isChecked_isSome
    obtain ⟨s2, h2⟩ := s1.makeMove_isSome ht hf
    obtain ⟨s3, h3⟩ := s2.placeOccupant_isSome tt ht
    simp [h1, hres, h2, h3]
  · have hr : t.rank ≠ 1 ∧ t.rank ≠ 8 := by
      constructor
      · intro e
        exact h ⟨hep, Or.inl e⟩
      · intro e
        exact h ⟨hep, Or.inr e⟩
    have hup : onBoard (t + move.vert 1) := by
      have : onBoard ⟨t.file + (move.vert 1).file, t.rank + (move.vert 1).rank⟩ := by
        unfold onBoard at ht ⊢
        simp only [move.vert]
        omega
      rw [add_of_onBoard this]
      exact this
    have hdn : onBoard (t + move.vert (-1)) := by
      have : onBoard ⟨t.file + (move.vert (-1)).file, t.rank + (move.vert (-1)).rank⟩ := by
        unfold onBoard at ht ⊢
        simp only [move.vert]
        omega
      rw [add_of_onBoard this]
      exact this
    obtain ⟨u, hu⟩ := s.occupantAt_isSome (Or.inr hup)
    obtain ⟨d, hd⟩ := s.occupantAt_isSome (Or.inr hdn)
    have hcap : ∃ s1, s.applyEnPassant t = some s1 := by
      unfold applyEnPassant
      dsimp only
      split
      · exact s.placeOccupant_isSome _ hdn
      · exact s.placeOccupant_isSome _ hup
    obtain ⟨s1, h1⟩ := hcap
    obtain ⟨s2, h2⟩ := s1.makeMove_isSome hf ht
    obtain ⟨res, hres⟩ := s2.isChecked_isSome
    obtain ⟨s3, h3⟩ := s2.makeMove_isSome ht hf
    obtain ⟨s4, h4⟩ := s3.placeOccupant_isSome u hup
    obtain ⟨s5, h5⟩ := s4.placeOccupant_isSome d hdn
    obtain ⟨s6, h6⟩ := s5.placeOccupant_isSome tt ht
    simp [hu, hd, h1, h2, hres, h3, h4, h5, h6]

end chess

/-! ## Symbolic execution of `play` on a pawn's diagonal step -/

theorem sub_def (a b : position) :
    (a - b : move) = ⟨wrapInt (a.file - b.file), wrapInt (a.rank - b.rank)⟩ := rfl

theorem add_eq (p : position) (m : move) (q : position) (hq : onBoard q)
    (hf : q.file = p.file + m.file) (hr : q.rank = p.rank + m.rank) : p + m = q := by
  obtain ⟨qf, qr⟩ := q
  dsimp only at hf hr
  subst hf hr
  exact add_of_onBoard hq

namespace chess

theorem getOccupant_restartLapses (s : chess) (p : position) :
    s.restartLapses.getOccupant p = (s.getOccupant p).map (clearLapse s._player) := by
  unfold getOccupant restartLapses clearLapse
  cases cell p <;> rfl

theorem occupantAt_restartLapses (s : chess) (p : position) :
    s.restartLapses.occupantAt p = (s.occupantAt p).map (clearLapse s._player) := by
  unfold occupantAt
  split
  · rfl
  · exact getOccupant_restartLapses s p

theorem onBoard_of_occupantAt {s : chess} {p : position} {o : occupant}
    (h : s.occupantAt p = some o) (hne : o.is_empty = false) : onBoard p := by
  unfold occupantAt at h
  split at h
  · simp only [Option.some.injEq] at h
    subst h
    cases hne
  · exact onBoard_of_getOccupant h

theorem isCastling_eq_false (s : chess) {f t : position} (pl : player)
    (h1 : (t - f : move) ≠ move.horiz 2) (h2 : (t - f : move) ≠ move.horiz (-2)) :
    s.isCastling f t pl = some false := by
  obtain ⟨b, hb⟩ := s.isCastling_isSome f t pl
  cases b
  · exact hb
  · exfalso
    unfold isCastling at hb
    dsimp only at hb
    obtain ⟨a, -, hb⟩ := Option.bind_eq_some.mp hb
    obtain ⟨c, -, hb⟩ := Option.bind_eq_some.mp hb
    simp only [Option.some.injEq, decide_eq_true_eq] at hb
    rcases hb.2 with h | h
    · exact h1 h.1
    · exact h2 h.1

theorem isBlockedScan_self (s : chess) (t : position) (dir : move) (n : Nat) :
    s.isBlockedScan t dir (n + 1) t = some false := by
  simp [isBlockedScan]

/-- A pawn's one-step diagonal move onto an empty square is never obstructed. -/
theorem isBlocked_pawn_diagonal (s : chess) (ff fr d fw : Int) (pl : player) (target : occupant)
    (hd : d = 1 ∨ d = -1) (hfw : fw = 1 ∨ fw = -1)
    (hb : onBoard ⟨ff + d, fr + fw⟩)
    (htarget : s.occupantAt ⟨ff + d, fr + fw⟩ = some target) (ht1 : target.is_empty = true) :
    s.isBlocked ⟨ff, fr⟩ ⟨ff + d, fr + fw⟩ pl = some false := by
  have hcs : s.isCastling ⟨ff, fr⟩ ⟨ff + d, fr + fw⟩ pl = some false :=
    isCastling_eq_false _ _
      (by rcases hfw with rfl | rfl <;> simp [sub_def, move.horiz])
      (by rcases hfw with rfl | rfl <;> simp [sub_def, move.horiz])
  have e : ∀ m : move, m = ⟨d, fw⟩ → m.isDiagonal = true ∧ m.directionize = ⟨d, fw⟩ := by
    rintro m rfl
    rcases hd with rfl | rfl <;> rcases hfw with rfl | rfl <;> decide
  have hm : ((⟨ff + d, fr + fw⟩ : position) - (⟨ff, fr⟩ : position) : move) = ⟨d, fw⟩ := by
    rcases hd with rfl | rfl <;> rcases hfw with rfl | rfl <;> simp [sub_def]
  obtain ⟨e1, e2⟩ := e _ hm
  have e3 : (⟨ff, fr⟩ : position) + (⟨d, fw⟩ : move) = ⟨ff + d, fr + fw⟩ :=
    add_eq _ _ _ hb rfl rfl
  unfold isBlocked
  rw [htarget, hcs]
  simp only [Option.some_bind, ht1, Bool.true_eq_false, if_false, e1, false_and, e2, e3,
    scanBound, isBlockedScan_self, Bool.false_eq_true]

/-- A pawn's one-step diagonal move is pseudo-legal when the square behind the destination
holds an occupant of the other side with `didTwoStep` set. -/
theorem canMove_pawn_enPassant (s : chess) (ff fr d : Int) (pawn target victim : occupant)
    (hd : d = 1 ∨ d = -1)
    (hfrom : s.occupantAt ⟨ff, fr⟩ = some pawn)
    (htarget : s.occupantAt ⟨ff + d, fr + (if s._player = player.white then 1 else -1)⟩
      = some target)
    (hvb : onBoard ⟨ff + d, fr⟩)
    (hvictim : s.occupantAt ⟨ff + d, fr⟩ = some victim)
    (hv2 : victim.owner ≠ s._player) (hv4 : victim.didTwoStep = true) :
    s.canMove ⟨ff, fr⟩ ⟨ff + d, fr + (if s._player = player.white then 1 else -1)⟩
      piece_type.pawn s._player = some true := by
  obtain ⟨pl, board⟩ := s
  cases pl
  · have e1 : (⟨ff + d, fr + 1⟩ : position) + (⟨0, -1⟩ : move) = ⟨ff + d, fr⟩ :=
      add_eq _ _ _ hvb (by simp) (by simp)
    simp only [if_true] at htarget
    rcases hd with rfl | rfl <;>
      simp [canMove, canMovePawn, sub_def, move.vert, hfrom, htarget, e1, hvictim, hv2, hv4]
  · have e1 : (⟨ff + d, fr + -1⟩ : position) + (⟨0, 1⟩ : move) = ⟨ff + d, fr⟩ :=
      add_eq _ _ _ hvb (by simp) (by simp)
    simp only [reduceCtorEq, if_false] at htarget
    rcases hd with rfl | rfl <;>
      simp [canMove, canMovePawn, sub_def, move.vert, hfrom, htarget, e1, hvictim, hv2, hv4]

theorem isLapsed_pawn (s : chess) (ff fr d : Int) (pawn victim : occupant)
    (hfrom : s.occupantAt ⟨ff, fr⟩ = some pawn) (hp3 : pawn.piece = piece_type.pawn)
    (hvb : onBoard ⟨ff + d, fr⟩)
    (hvictim : s.occupantAt ⟨ff + d, fr⟩ = some victim)
    (hv2 : victim.owner = s.getOpponent) (hv4 : victim.didTwoStep = true) :
    s.isLapsed ⟨ff, fr⟩ ⟨ff + d, fr + (if s._player = player.white then 1 else -1)⟩
      = some (!victim.canBeLapsed) := by
  obtain ⟨pl, board⟩ := s
  cases pl
  · have e1 : (⟨ff + d, fr + 1⟩ : position) + (⟨0, -1⟩ : move) = ⟨ff + d, fr⟩ :=
      add_eq _ _ _ hvb (by simp) (by simp)
    simp [isLapsed, move.vert, e1, hvictim, hfrom, hp3, hv2, hv4]
  · have e1 : (⟨ff + d, fr + -1⟩ : position) + (⟨0, 1⟩ : move) = ⟨ff + d, fr⟩ :=
      add_eq _ _ _ hvb (by simp) (by simp)
    simp [isLapsed, move.vert, e1, hvictim, hfrom, hp3, hv2, hv4]

theorem getOpponent_ne (s : chess) : s.getOpponent ≠ s._player := by
  obtain ⟨pl, board⟩ := s
  cases pl <;> simp [getOpponent]

theorem valid_of_occupantAt {s : chess} {p : position} {o : occupant}
    (h : s.occupantAt p = some o) : valid p := by
  unfold occupantAt at h
  split at h
  · rename_i e
    exact Or.inl e
  · exact Or.inr (onBoard_of_getOccupant h)

/-- `isBlocked` reads the square `to` first: when it returns, `to` is on the board or the
sentinel. -/
theorem valid_of_isBlocked {s : chess} {f t : position} {pl : player} {b : Bool}
    (h : s.isBlocked f t pl = some b) : valid t := by
  unfold isBlocked at h
  obtain ⟨t0, ht0, -⟩ := Option.bind_eq_some.mp h
  exact valid_of_occupantAt ht0

theorem onBoard_of_occupantAt_file {s : chess} {p : position} {o : occupant}
    (h : s.occupantAt p = some o) (hne : p.file ≠ 0) : onBoard p := by
  rcases valid_of_occupantAt h with rfl | h
  · exact absurd rfl hne
  · exact h

theorem playChecks_lapsed (s : chess) (ff fr d : Int) (promote : piece_type)
    (pawn target victim : occupant) (hd : d = 1 ∨ d = -1)
    (hfrom : s.occupantAt ⟨ff, fr⟩ = some pawn) (hp1 : pawn.is_empty = false)
    (hp2 : pawn.owner = s._player) (hp3 : pawn.piece = piece_type.pawn)
    (htarget : s.occupantAt ⟨ff + d, fr + (if s._player = player.white then 1 else -1)⟩
      = some target)
    (ht1 : target.is_empty = true)
    (hvictim : s.occupantAt ⟨ff + d, fr⟩ = some victim)
    (hv1 : victim.is_empty = false) (hv2 : victim.owner = s.getOpponent)
    (hv4 : victim.didTwoStep = true) (hv5 : victim.canBeLapsed = false) :
    s.playChecks ⟨ff, fr⟩ ⟨ff + d, fr + (if s._player = player.white then 1 else -1)⟩ promote
      = some (result.lapsed, s) := by
  have hvb := onBoard_of_occupantAt hvictim hv1
  obtain ⟨wc, hwc⟩ := s.isChecked_isSome
  have hfw : (if s._player = player.white then (1 : Int) else -1) = 1 ∨
      (if s._player = player.white then (1 : Int) else -1) = -1 := by
    split
    · exact Or.inl rfl
    · exact Or.inr rfl
  have htb : onBoard ⟨ff + d, fr + (if s._player = player.white then 1 else -1)⟩ := by
    refine onBoard_of_occupantAt_file htarget ?_
    unfold onBoard at hvb
    dsimp only at hvb ⊢
    omega
  have hcm := canMove_pawn_enPassant s ff fr d pawn target victim hd hfrom htarget hvb
    hvictim (by rw [hv2]; exact s.getOpponent_ne) hv4
  have hbl := isBlocked_pawn_diagonal s ff fr d _ s._player target hd hfw htb htarget ht1
  have hla := isLapsed_pawn s ff fr d pawn victim hfrom hp3 hvb hvictim hv2 hv4
  unfold playChecks
  rw [hwc]
  simp only [Option.some_bind]
  rw [hfrom]
  simp only [Option.some_bind, hp1, hp2, hp3, hcm, hbl, hla, hv5]
  simp

theorem modifyOccupant_isSome (s : chess) {p : position} {o : occupant}
    (h : s.getOccupant p = some o) (g : occupant → occupant) :
    ∃ s', s.modifyOccupant p g = some s' ∧ s'._player = s._player ∧
      ∀ q, s'.getOccupant q = if q = p then some (g o) else s.getOccupant q := by
  obtain ⟨s', hs'⟩ := s.placeOccupant_isSome (g o) (onBoard_of_getOccupant h)
  refine ⟨s', ?_, placeOccupant_player hs', getOccupant_placeOccupant hs'⟩
  unfold modifyOccupant
  rw [h]
  exact hs'

theorem setFlags_spec (s : chess) {f : position} (t : position) {o : occupant}
    (hf : s.getOccupant f = some o) :
    ∃ s', s.setFlags f t = some s' ∧ s'._player = s._player ∧
      ∀ q, s'.getOccupant q = if q = f then some (newFlags o (t - f)) else s.getOccupant q := by
  have hb := onBoard_of_getOccupant hf
  have hat : s.occupantAt f = some o := by
    rw [occupantAt_of_onBoard s hb]
    exact hf
  unfold setFlags
  rw [hat]
  simp only [Option.some_bind]
  by_cases hp : o.piece = piece_type.pawn
  · by_cases h2 : move.abs (t - f) = move.vert 2
    · obtain ⟨s1, h1, p1, g1⟩ := s.modifyOccupant_isSome hf fun o => { o with didTwoStep := true }
      have hf1 : s1.getOccupant f = some { o with didTwoStep := true } := by
        rw [g1]
        simp
      obtain ⟨s2, h2', p2, g2⟩ := s1.modifyOccupant_isSome hf1
        fun o => { o with canBeLapsed := true }
      have hf2 : s2.getOccupant f = some { o with didTwoStep := true, canBeLapsed := true } := by
        rw [g2]
        simp
      obtain ⟨s3, h3, p3, g3⟩ := s2.modifyOccupant_isSome hf2 fun o => { o with didMove := true }
      refine ⟨s3, ?_, by rw [p3, p2, p1], ?_⟩
      · simp only [hp, h2, if_true, h1, Option.some_bind, h2', h3]
      · intro q
        rw [g3, g2, g1]
        by_cases hq : q = f
        · simp [hq, newFlags, hp, h2]
        · simp [hq]
    · obtain ⟨s1, h1, p1, g1⟩ := s.modifyOccupant_isSome hf fun o => { o with didTwoStep := false }
      have hf1 : s1.getOccupant f = some { o with didTwoStep := false } := by
        rw [g1]
        simp
      obtain ⟨s3, h3, p3, g3⟩ := s1.modifyOccupant_isSome hf1 fun o => { o with didMove := true }
      refine ⟨s3, ?_, by rw [p3, p1], ?_⟩
      · simp only [hp, h2, if_true, if_false, h1, Option.some_bind, h3]
      · intro q
        rw [g3, g1]
        by_cases hq : q = f
        · simp [hq, newFlags, hp, h2]
        · simp [hq]
  · obtain ⟨s3, h3, p3, g3⟩ := s.modifyOccupant_isSome hf fun o => { o with didMove := true }
    refine ⟨s3, ?_, p3, ?_⟩
    · simp only [hp, if_false, Option.some_bind, h3]
    · intro q
      rw [g3]
      by_cases hq : q = f
      · simp [hq, newFlags, hp]
      · simp [hq]

theorem makeMove_spec' (s : chess) {f t : position} {o : occupant}
    (hf : s.getOccupant f = some o) (ht : onBoard t) :
    ∃ s', s.makeMove f t = some s' ∧ s'._player = s._player ∧
      ∀ q, s'.getOccupant q =
        if q = f then some {} else if q = t then some o else s.getOccupant q := by
  obtain ⟨s', hs'⟩ := s.makeMove_isSome (onBoard_of_getOccupant hf) ht
  obtain ⟨o', ho', -, hp, hg⟩ := makeMove_spec hs'
  rw [hf] at ho'
  cases ho'
  exact ⟨s', hs', hp, hg⟩

theorem isEnPassant_pawn (s : chess) (ff fr d : Int) (pawn victim : occupant)
    (hfrom : s.occupantAt ⟨ff, fr⟩ = some pawn) (hp3 : pawn.piece = piece_type.pawn)
    (hvb : onBoard ⟨ff + d, fr⟩)
    (hvictim : s.occupantAt ⟨ff + d, fr⟩ = some victim)
    (hv2 : victim.owner = s.getOpponent) :
    s.isEnPassant ⟨ff, fr⟩ ⟨ff + d, fr + (if s._player = player.white then 1 else -1)⟩
      = some victim.canBeLapsed := by
  obtain ⟨pl, board⟩ := s
  cases pl
  · have e1 : (⟨ff + d, fr + 1⟩ : position) + (⟨0, -1⟩ : move) = ⟨ff + d, fr⟩ :=
      add_eq _ _ _ hvb (by simp) (by simp)
    simp [isEnPassant, move.vert, e1, hvictim, hfrom, hp3, hv2]
  · have e1 : (⟨ff + d, fr + -1⟩ : position) + (⟨0, 1⟩ : move) = ⟨ff + d, fr⟩ :=
      add_eq _ _ _ hvb (by simp) (by simp)
    simp [isEnPassant, move.vert, e1, hvictim, hfrom, hp3, hv2]

theorem applyEnPassant_eq (s : chess) (ff fr d : Int) (hvb : onBoard ⟨ff + d, fr⟩) :
    s.applyEnPassant ⟨ff + d, fr + (if s._player = player.white then 1 else -1)⟩
      = s.placeOccupant {} ⟨ff + d, fr⟩ := by
  obtain ⟨pl, board⟩ := s
  cases pl
  · have e1 : (⟨ff + d, fr + 1⟩ : position) + (⟨0, -1⟩ : move) = ⟨ff + d, fr⟩ :=
      add_eq _ _ _ hvb (by simp) (by simp)
    simp [applyEnPassant, move.vert, e1]
  · have e1 : (⟨ff + d, fr + -1⟩ : position) + (⟨0, 1⟩ : move) = ⟨ff + d, fr⟩ :=
      add_eq _ _ _ hvb (by simp) (by simp)
    simp [applyEnPassant, move.vert, e1]

theorem playExecute_enPassant (s : chess) (ff fr d : Int) (pawn target victim : occupant)
    (hd : d = 1 ∨ d = -1)
    (hfrom : s.occupantAt ⟨ff, fr⟩ = some pawn) (hp1 : pawn.is_empty = false)
    (hp3 : pawn.piece = piece_type.pawn)
    (htarget : s.occupantAt ⟨ff + d, fr + (if s._player = player.white then 1 else -1)⟩
      = some target)
    (ht1 : target.is_empty = true)
    (hvictim : s.occupantAt ⟨ff + d, fr⟩ = some victim)
    (hv1 : victim.is_empty = false) (hv2 : victim.owner = s.getOpponent)
    (hv5 : victim.canBeLapsed = true) :
    ∃ s', s.playExecute ⟨ff, fr⟩ ⟨ff + d, fr + (if s._player = player.white then 1 else -1)⟩
        = some (result.capture, s') ∧ s'._player = s.getOpponent ∧
      ∀ q, s'.getOccupant q =
        if q = ⟨ff, fr⟩ then some {}
        else if q = ⟨ff + d, fr + (if s._player = player.white then 1 else -1)⟩ then
          some { pawn with didTwoStep := false, didMove := true }
        else if q = ⟨ff + d, fr⟩ then some {}
        else s.getOccupant q := by
  have hvb := onBoard_of_occupantAt hvictim hv1
  have hfb := onBoard_of_occupantAt hfrom hp1
  have hfw : (if s._player = player.white then (1 : Int) else -1) = 1 ∨
      (if s._player = player.white then (1 : Int) else -1) = -1 := by
    split
    · exact Or.inl rfl
    · exact Or.inr rfl
  have hep := isEnPassant_pawn s ff fr d pawn victim hfrom hp3 hvb hvictim hv2
  have happ := applyEnPassant_eq s ff fr d hvb
  generalize (if s._player = player.white then (1 : Int) else -1) = fw at *
  have htb : onBoard ⟨ff + d, fr + fw⟩ := by
    refine onBoard_of_occupantAt_file htarget ?_
    unfold onBoard at hvb
    dsimp only at hvb ⊢
    omega
  have hne1 : (⟨ff, fr⟩ : position) ≠ ⟨ff + d, fr⟩ := by
    intro e
    simp only [position.mk.injEq] at e
    omega
  have hne2 : (⟨ff + d, fr + fw⟩ : position) ≠ ⟨ff + d, fr⟩ := by
    intro e
    simp only [position.mk.injEq] at e
    omega
  have hne3 : (⟨ff + d, fr + fw⟩ : position) ≠ ⟨ff, fr⟩ := by
    intro e
    simp only [position.mk.injEq] at e
    omega
  obtain ⟨s1, h1⟩ := s.placeOccupant_isSome {} hvb
  have g1 := getOccupant_placeOccupant h1
  have hf0 : s.getOccupant ⟨ff, fr⟩ = some pawn := by
    rw [← occupantAt_of_onBoard s hfb]
    exact hfrom
  have hf1 : s1.getOccupant ⟨ff, fr⟩ = some pawn := by
    rw [g1, if_neg hne1]
    exact hf0
  obtain ⟨s2, h2, p2, g2⟩ := s1.setFlags_spec ⟨ff + d, fr + fw⟩ hf1
  have hnf : newFlags pawn ((⟨ff + d, fr + fw⟩ : position) - (⟨ff, fr⟩ : position))
      = { pawn with didTwoStep := false, didMove := true } := by
    have : move.abs ((⟨ff + d, fr + fw⟩ : position) - (⟨ff, fr⟩ : position)) ≠ move.vert 2 := by
      rcases hd with rfl | rfl <;> rcases hfw with rfl | rfl <;>
        simp [sub_def, move.abs, move.vert, iabs]
    simp only [newFlags, hp3, if_true, this, if_false]
  rw [hnf] at g2
  have hcs : s2.isCastling ⟨ff, fr⟩ ⟨ff + d, fr + fw⟩ s2._player = some false :=
    isCastling_eq_false _ _
      (by rcases hfw with rfl | rfl <;> simp [sub_def, move.horiz])
      (by rcases hfw with rfl | rfl <;> simp [sub_def, move.horiz])
  have hf2 : s2.getOccupant ⟨ff, fr⟩ = some { pawn with didTwoStep := false, didMove := true } := by
    rw [g2, if_pos rfl]
  obtain ⟨s3, h3, p3, g3⟩ := s2.makeMove_spec' hf2 htb
  refine ⟨s3.swapPlayer, ?_, ?_, ?_⟩
  · unfold playExecute
    rw [htarget, hep, happ, h1]
    simp only [Option.some_bind, ht1, Bool.true_eq_false, if_false, hv5, if_true, h2, hcs,
      Bool.false_eq_true, h3]
  · rw [swapPlayer_player]
    unfold getOpponent
    rw [p3, p2, placeOccupant_player h1]
  · intro q
    show s3.getOccupant q = _
    rw [g3, g2, g1]
    by_cases hq1 : q = ⟨ff, fr⟩
    · simp [hq1]
    · by_cases hq2 : q = ⟨ff + d, fr + fw⟩
      · simp [hq2, hne3]
      · simp [hq1, hq2]

theorem playChecks_enPassant (s : chess) (ff fr d : Int) (promote : piece_type)
    (pawn target victim : occupant) (hd : d = 1 ∨ d = -1)
    (hfrom : s.occupantAt ⟨ff, fr⟩ = some pawn) (hp1 : pawn.is_empty = false)
    (hp2 : pawn.owner = s._player) (hp3 : pawn.piece = piece_type.pawn)
    (htarget : s.occupantAt ⟨ff + d, fr + (if s._player = player.white then 1 else -1)⟩
      = some target)
    (ht1 : target.is_empty = true)
    (hlast : fr + (if s._player = player.white then 1 else -1)
      ≠ (if s._player = player.white then 8 else 1))
    (hvictim : s.occupantAt ⟨ff + d, fr⟩ = some victim)
    (hv1 : victim.is_empty = false) (hv2 : victim.owner = s.getOpponent)
    (hv4 : victim.didTwoStep = true) (hv5 : victim.canBeLapsed = true)
    (hsafe : (s.wouldCheck ⟨ff, fr⟩
      ⟨ff + d, fr + (if s._player = player.white then 1 else -1)⟩).map Prod.fst = some false) :
    ∃ s', s.playChecks ⟨ff, fr⟩ ⟨ff + d, fr + (if s._player = player.white then 1 else -1)⟩
        promote = some (result.capture, s') ∧ s'._player = s.getOpponent ∧
      ∀ q, s'.getOccupant q =
        if q = ⟨ff, fr⟩ then some {}
        else if q = ⟨ff + d, fr + (if s._player = player.white then 1 else -1)⟩ then
          some { pawn with didTwoStep := false, didMove := true }
        else if q = ⟨ff + d, fr⟩ then some {}
        else s.getOccupant q := by
  have hvb := onBoard_of_occupantAt hvictim hv1
  have hfb := onBoard_of_occupantAt hfrom hp1
  obtain ⟨wc, hwc⟩ := s.isChecked_isSome
  have hfw : (if s._player = player.white then (1 : Int) else -1) = 1 ∨
      (if s._player = player.white then (1 : Int) else -1) = -1 := by
    split
    · exact Or.inl rfl
    · exact Or.inr rfl
  have htb : onBoard ⟨ff + d, fr + (if s._player = player.white then 1 else -1)⟩ := by
    refine onBoard_of_occupantAt_file htarget ?_
    unfold onBoard at hvb
    dsimp only at hvb ⊢
    omega
  have hcm := canMove_pawn_enPassant s ff fr d pawn target victim hd hfrom htarget hvb
    hvictim (by rw [hv2]; exact s.getOpponent_ne) hv4
  have hbl := isBlocked_pawn_diagonal s ff fr d _ s._player target hd hfw htb htarget ht1
  have hla := isLapsed_pawn s ff fr d pawn victim hfrom hp3 hvb hvictim hv2 hv4
  have hcs : s.isCastling ⟨ff, fr⟩ ⟨ff + d, fr + (if s._player = player.white then 1 else -1)⟩
      s._player = some false :=
    isCastling_eq_false _ _
      (by rcases hfw with h | h <;> rw [h] <;> simp [sub_def, move.horiz])
      (by rcases hfw with h | h <;> rw [h] <;> simp [sub_def, move.horiz])
  obtain ⟨s2, hw⟩ := exists_of_map_fst hsafe
  have e2 := wouldCheck_state hw
  subst e2
  have hpr : s2.isPromote ⟨ff, fr⟩ ⟨ff + d, fr + (if s2._player = player.white then 1 else -1)⟩
      = some false := by
    have : ¬ (fr + (if s2._player = player.white then (1 : Int) else -1) = 1 ∨
        fr + (if s2._player = player.white then (1 : Int) else -1) = 8) := by
      unfold onBoard at hfb
      dsimp only at hfb
      by_cases hw : s2._player = player.white
      · simp only [hw, if_true] at hlast ⊢
        omega
      · simp only [hw, if_false] at hlast ⊢
        omega
    simp [isPromote, hfrom, this]
  obtain ⟨s', hex, hpl, hg⟩ := playExecute_enPassant s2 ff fr d pawn target victim hd hfrom hp1
    hp3 htarget ht1 hvictim hv1 hv2 hv5
  refine ⟨s', ?_, hpl, hg⟩
  unfold playChecks
  rw [hwc]
  simp only [Option.some_bind]
  rw [hfrom]
  simp only [Option.some_bind, hp1, hp2, hp3, hcm, hbl, hla, hv5, hcs, hw]
  simp [playPromote, hpr, hex]

end chess

/-! ## Symbolic execution of `play` on a castling move -/

namespace chess

theorem onBoard_homeRank (f : Int) (hf : 1 ≤ f ∧ f ≤ 8) (pl : player) :
    onBoard ⟨f, homeRank pl⟩ := by
  unfold onBoard homeRank
  cases pl <;> simp <;> omega

/-- `isCastling` in terms of the two corner records. -/
theorem isCastling_eq (s : chess) (f t : position) (pl : player) {a b : occupant}
    (ha : s.occupantAt ⟨8, homeRank pl⟩ = some a) (hb : s.occupantAt ⟨1, homeRank pl⟩ = some b) :
    s.isCastling f t pl = some (decide (f = ⟨5, homeRank pl⟩ ∧
      (((t - f : move) = move.horiz 2 ∧ a.piece = piece_type.rook ∧ a.owner = pl) ∨
        ((t - f : move) = move.horiz (-2) ∧ b.piece = piece_type.rook ∧ b.owner = pl)))) := by
  unfold isCastling
  unfold homeRank at ha hb
  dsimp only
  rw [ha, hb]
  rfl

theorem isLapsed_not_pawn (s : chess) {f : position} (t : position) {k : occupant}
    (hk : s.occupantAt f = some k) (hkp : k.piece ≠ piece_type.pawn) :
    s.isLapsed f t = some false := by
  unfold isLapsed
  dsimp only
  obtain ⟨a, ha⟩ := s.occupantAt_isSome
    (valid_add t (move.vert (if s._player = player.white then -1 else 1)))
  rw [ha, hk]
  simp [hkp]

theorem isEnPassant_not_pawn (s : chess) {f : position} (t : position) {k : occupant}
    (hk : s.occupantAt f = some k) (hkp : k.piece ≠ piece_type.pawn) :
    s.isEnPassant f t = some false := by
  unfold isEnPassant
  dsimp only
  obtain ⟨a, ha⟩ := s.occupantAt_isSome
    (valid_add t (move.vert (if s._player = player.white then -1 else 1)))
  rw [ha, hk]
  simp [hkp]

theorem isPromote_not_pawn (s : chess) {f : position} (t : position) {k : occupant}
    (hk : s.occupantAt f = some k) (hkp : k.piece ≠ piece_type.pawn) :
    s.isPromote f t = some false := by
  unfold isPromote
  rw [hk]
  simp [hkp]

theorem canMove_king_castling (s : chess) (f t : position) (pl : player)
    (hc : s.isCastling f t pl = some true) :
    s.canMove f t piece_type.king pl = some true := by
  simp [canMove, canMoveKing, hc]

theorem newFlags_not_pawn (k : occupant) (m : move) (hkp : k.piece ≠ piece_type.pawn) :
    newFlags k m = { k with didMove := true } := by
  simp [newFlags, hkp]

end chess

theorem add_def (p : position) (m : move) : p + m = position.add p m := rfl

namespace chess

theorem playExecute_castle (s : chess) (step : Int) (hstep : step = 1 ∨ step = -1)
    (k t rk : occupant)
    (hk : s.occupantAt ⟨5, homeRank s._player⟩ = some k)
    (hkp : k.piece ≠ piece_type.pawn)
    (ht : s.occupantAt ⟨5 + 2 * step, homeRank s._player⟩ = some t) (ht1 : t.is_empty = true)
    (hrk : s.occupantAt ⟨rookCorner step, homeRank s._player⟩ = some rk)
    (hr1 : rk.piece = piece_type.rook) (hr2 : rk.owner = s._player) :
    ∃ s', s.playExecute ⟨5, homeRank s._player⟩ ⟨5 + 2 * step, homeRank s._player⟩
        = some (result.ok, s') ∧ s'._player = s.getOpponent ∧
      ∀ q, s'.getOccupant q =
        if q = ⟨5, homeRank s._player⟩ then some {}
        else if q = ⟨5 + 2 * step, homeRank s._player⟩ then some { k with didMove := true }
        else if q = ⟨rookCorner step, homeRank s._player⟩ then some {}
        else if q = ⟨5 + step, homeRank s._player⟩ then some rk
        else s.getOccupant q := by
  have hfb : onBoard ⟨5, homeRank s._player⟩ := onBoard_homeRank 5 (by omega) _
  have htb : onBoard ⟨5 + 2 * step, homeRank s._player⟩ :=
    onBoard_homeRank _ (by omega) _
  have hcb : onBoard ⟨rookCorner step, homeRank s._player⟩ :=
    onBoard_homeRank _ (by unfold rookCorner; split <;> omega) _
  have hdb : onBoard ⟨5 + step, homeRank s._player⟩ := onBoard_homeRank _ (by omega) _
  have hep := s.isEnPassant_not_pawn ⟨5 + 2 * step, homeRank s._player⟩ hk hkp
  have hk0 : s.getOccupant ⟨5, homeRank s._player⟩ = some k := by
    rw [← occupantAt_of_onBoard s hfb]
    exact hk
  have hrk0 : s.getOccupant ⟨rookCorner step, homeRank s._player⟩ = some rk := by
    rw [← occupantAt_of_onBoard s hcb]
    exact hrk
  obtain ⟨s2, h2, p2, g2⟩ := s.setFlags_spec ⟨5 + 2 * step, homeRank s._player⟩ hk0
  rw [newFlags_not_pawn _ _ hkp] at g2
  have hne_cf : (⟨rookCorner step, homeRank s._player⟩ : position) ≠ ⟨5, homeRank s._player⟩ := by
    intro e
    simp only [position.mk.injEq, rookCorner] at e
    split at e <;> omega
  -- the corner records are those of `s`
  obtain ⟨a, ha⟩ := s.occupantAt_isSome (Or.inr (onBoard_homeRank 8 (by omega) s._player))
  obtain ⟨b, hb⟩ := s.occupantAt_isSome (Or.inr (onBoard_homeRank 1 (by omega) s._player))
  have ha2 : s2.occupantAt ⟨8, homeRank s._player⟩ = some a := by
    rw [occupantAt_of_onBoard _ (onBoard_homeRank 8 (by omega) _), g2,
      if_neg (by simp), ← occupantAt_of_onBoard _ (onBoard_homeRank 8 (by omega) _)]
    exact ha
  have hb2 : s2.occupantAt ⟨1, homeRank s._player⟩ = some b := by
    rw [occupantAt_of_onBoard _ (onBoard_homeRank 1 (by omega) _), g2,
      if_neg (by simp), ← occupantAt_of_onBoard _ (onBoard_homeRank 1 (by omega) _)]
    exact hb
  have hc2 : s2.isCastling ⟨5, homeRank s._player⟩ ⟨5 + 2 * step, homeRank s._player⟩ s2._player
      = some true := by
    rw [p2, isCastling_eq s2 _ _ _ ha2 hb2]
    rcases hstep with rfl | rfl
    · simp only [rookCorner, if_true] at hrk
      rw [ha] at hrk
      cases hrk
      simp [sub_def, move.horiz, hr1, hr2]
    · simp only [rookCorner] at hrk
      rw [if_neg (by decide), hb] at hrk
      cases hrk
      simp [sub_def, move.horiz, hr1, hr2]
  -- the rook's move
  have hrk2 : s2.getOccupant ⟨rookCorner step, homeRank s._player⟩ = some rk := by
    rw [g2, if_neg hne_cf]
    exact hrk0
  obtain ⟨s3, h3, p3, g3⟩ := s2.makeMove_spec' hrk2 hdb
  have hne_fc : (⟨5, homeRank s._player⟩ : position) ≠ ⟨rookCorner step, homeRank s._player⟩ :=
    fun e => hne_cf e.symm
  have hne_fd : (⟨5, homeRank s._player⟩ : position) ≠ ⟨5 + step, homeRank s._player⟩ := by
    intro e
    simp only [position.mk.injEq] at e
    omega
  have hk3 : s3.getOccupant ⟨5, homeRank s._player⟩ = some { k with didMove := true } := by
    rw [g3, if_neg hne_fc, if_neg hne_fd, g2, if_pos rfl]
  obtain ⟨s4, h4⟩ := s3.placeOccupant_isSome { k with didMove := true } htb
  obtain ⟨s5, h5⟩ := s4.placeOccupant_isSome {} hfb
  have hmc : s2.makeCastling ⟨5, homeRank s._player⟩ ⟨5 + 2 * step, homeRank s._player⟩
      = some s5 := by
    unfold makeCastling
    have e1 : ((⟨5 + 2 * step, homeRank s._player⟩ : position)
        - (⟨5, homeRank s._player⟩ : position) : move) = ⟨2 * step, 0⟩ := by
      simp [sub_of_valid (Or.inr htb) (Or.inr hfb)]
    rw [e1]
    dsimp only
    rcases hstep with rfl | rfl
    · have e2 : (⟨5 + 2 * 1, homeRank s._player⟩ : position) + move.horiz 1
          = ⟨rookCorner 1, homeRank s._player⟩ :=
        add_eq _ _ _ hcb (by simp [rookCorner, move.horiz]) (by simp [move.horiz])
      have e3 : (⟨5 + 2 * 1, homeRank s._player⟩ : position) + move.horiz (-1)
          = ⟨5 + 1, homeRank s._player⟩ :=
        add_eq _ _ _ hdb (by simp [move.horiz]) (by simp [move.horiz])
      rw [if_pos (by norm_num), e2, e3, h3]
      simp only [Option.some_bind, hk3, h4, h5]
    · have e2 : (⟨5 + 2 * -1, homeRank s._player⟩ : position) + move.horiz (-2)
          = ⟨rookCorner (-1), homeRank s._player⟩ :=
        add_eq _ _ _ hcb (by simp [rookCorner, move.horiz]) (by simp [move.horiz])
      have e3 : (⟨5 + 2 * -1, homeRank s._player⟩ : position) + move.horiz 1
          = ⟨5 + -1, homeRank s._player⟩ :=
        add_eq _ _ _ hdb (by simp [move.horiz]) (by simp [move.horiz])
      rw [if_neg (by norm_num), e2, e3, h3]
      simp only [Option.some_bind, hk3, h4, h5]
  refine ⟨s5.swapPlayer, ?_, ?_, ?_⟩
  · unfold playExecute
    rw [ht, hep]
    simp only [Option.some_bind, ht1, Bool.true_eq_false, if_false, h2, hc2,
      Bool.false_eq_true, if_true, hmc]
  · rw [swapPlayer_player]
    unfold getOpponent
    rw [placeOccupant_player h5, placeOccupant_player h4, p3, p2]
  · intro q
    show s5.getOccupant q = _
    rw [getOccupant_placeOccupant h5, getOccupant_placeOccupant h4, g3, g2]
    by_cases hq1 : q = ⟨5, homeRank s._player⟩
    · simp [hq1]
    · by_cases hq2 : q = ⟨5 + 2 * step, homeRank s._player⟩
      · simp [hq2]
      · simp [hq1, hq2]

theorem playExecute_ok_empty {s s' : chess} {f t : position}
    (h : s.playExecute f t = some (result.ok, s')) :
    ∃ tt, s.occupantAt t = some tt ∧ tt.is_empty = true := by
  unfold playExecute at h
  obtain ⟨tt, htt, h⟩ := Option.bind_eq_some.mp h
  refine ⟨tt, htt, ?_⟩
  by_contra hne
  have hne' : tt.is_empty = false := by simpa using hne
  rw [if_pos hne'] at h
  simp only [Option.some_bind, if_true] at h
  obtain ⟨ep, -, h⟩ := Option.bind_eq_some.mp h
  obtain ⟨s1, -, h⟩ := Option.bind_eq_some.mp h
  obtain ⟨s2, -, h⟩ := Option.bind_eq_some.mp h
  obtain ⟨c, -, h⟩ := Option.bind_eq_some.mp h
  obtain ⟨s3, -, h⟩ := Option.bind_eq_some.mp h
  simp at h

/-- The corner rook of a castling move, read off `isCastling`. -/
theorem rook_of_isCastling (s : chess) (step : Int) (hstep : step = 1 ∨ step = -1) (pl : player)
    (hc : s.isCastling ⟨5, homeRank pl⟩ ⟨5 + 2 * step, homeRank pl⟩ pl = some true) :
    ∃ rk, s.occupantAt ⟨rookCorner step, homeRank pl⟩ = some rk ∧
      rk.piece = piece_type.rook ∧ rk.owner = pl := by
  obtain ⟨a, ha⟩ := s.occupantAt_isSome (Or.inr (onBoard_homeRank 8 (by omega) pl))
  obtain ⟨b, hb⟩ := s.occupantAt_isSome (Or.inr (onBoard_homeRank 1 (by omega) pl))
  rw [isCastling_eq s _ _ _ ha hb] at hc
  simp only [Option.some.injEq, decide_eq_true_eq, true_and, sub_def, move.horiz,
    move.mk.injEq] at hc
  rcases hstep with rfl | rfl
  · rcases hc with ⟨-, h1, h2⟩ | ⟨⟨h0, -⟩, -⟩
    · exact ⟨a, by simpa [rookCorner] using ha, h1, h2⟩
    · norm_num at h0
  · rcases hc with ⟨⟨h0, -⟩, -⟩ | ⟨-, h1, h2⟩
    · norm_num at h0
    · exact ⟨b, by simpa [rookCorner] using hb, h1, h2⟩

theorem playChecks_castle_ok (s s' : chess) (step : Int) (hstep : step = 1 ∨ step = -1)
    (promote : piece_type) (k : occupant)
    (hk : s.occupantAt ⟨5, homeRank s._player⟩ = some k) (hk1 : k.is_empty = false)
    (hk2 : k.piece = piece_type.king) (hk3 : k.owner = s._player)
    (h : s.playChecks ⟨5, homeRank s._player⟩ ⟨5 + 2 * step, homeRank s._player⟩ promote
      = some (result.ok, s')) :
    ∃ rk, s.occupantAt ⟨rookCorner step, homeRank s._player⟩ = some rk ∧
      rk.piece = piece_type.rook ∧ rk.owner = s._player ∧ s'._player = s.getOpponent ∧
      ∀ q, s'.getOccupant q =
        if q = ⟨5, homeRank s._player⟩ then some {}
        else if q = ⟨5 + 2 * step, homeRank s._player⟩ then some { k with didMove := true }
        else if q = ⟨rookCorner step, homeRank s._player⟩ then some {}
        else if q = ⟨5 + step, homeRank s._player⟩ then some rk
        else s.getOccupant q := by
  have hkp : k.piece ≠ piece_type.pawn := by
    rw [hk2]
    decide
  obtain ⟨c, hc⟩ := s.isCastling_isSome ⟨5, homeRank s._player⟩
    ⟨5 + 2 * step, homeRank s._player⟩ s._player
  have hla := s.isLapsed_not_pawn ⟨5 + 2 * step, homeRank s._player⟩ hk hkp
  have hpr := s.isPromote_not_pawn ⟨5 + 2 * step, homeRank s._player⟩ hk hkp
  unfold playChecks at h
  obtain ⟨wasChecked, -, h⟩ := Option.bind_eq_some.mp h
  rw [hk] at h
  simp only [Option.some_bind, hk1, Bool.false_eq_true, if_false, hk3, ne_eq,
    not_true_eq_false, hk2] at h
  cases c
  · -- not a castling move: the king cannot move two files
    have hcm : s.canMove ⟨5, homeRank s._player⟩ ⟨5 + 2 * step, homeRank s._player⟩
        piece_type.king s._player = some false := by
      simp only [canMove, canMoveKing, hc, move.abs, sub_def, Option.some_bind,
        Bool.false_eq_true, if_false, Option.some.injEq, decide_eq_false_iff_not, not_and]
      intro h1
      unfold iabs wrapInt at h1
      omega
    rw [hcm] at h
    simp at h
  · rw [canMove_king_castling s _ _ _ hc] at h
    simp only [Option.some_bind, Bool.true_eq_false, if_false] at h
    obtain ⟨bl, -, h⟩ := Option.bind_eq_some.mp h
    cases bl
    · simp only [Bool.false_eq_true, if_false, hla, Option.some_bind, hc, if_true] at h
      cases wasChecked
      · simp only [Bool.false_eq_true, if_false] at h
        obtain ⟨⟨wc, s2⟩, hw, h⟩ := Option.bind_eq_some.mp h
        have e := wouldCheckCastling_state hw
        subst e
        cases wc
        · simp only [Bool.false_eq_true, if_false] at h
          obtain ⟨hm, -, h⟩ := Option.bind_eq_some.mp h
          cases hm
          · simp only [Bool.false_eq_true, if_false] at h
            unfold playPromote at h
            rw [hpr] at h
            simp only [Option.some_bind, Bool.false_eq_true, if_false] at h
            obtain ⟨tt, htt, htt1⟩ := playExecute_ok_empty h
            obtain ⟨rk, hrk, hr1, hr2⟩ := rook_of_isCastling s2 step hstep _ hc
            obtain ⟨s'', hex, hpl, hg⟩ := playExecute_castle s2 step hstep k tt rk hk hkp htt
              htt1 hrk hr1 hr2
            rw [hex] at h
            simp only [Option.some.injEq, Prod.mk.injEq, true_and] at h
            subst h
            exact ⟨rk, hrk, hr1, hr2, hpl, hg⟩
          · simp at h
        · simp at h
      · simp at h
    · simp at h

theorem clearLapse_of_not_pawn (pl : player) (o : occupant) (h : o.piece ≠ piece_type.pawn) :
    clearLapse pl o = o := by
  simp [clearLapse, h]

theorem clearLapse_fields (pl : player) (o : occupant) :
    (clearLapse pl o).is_empty = o.is_empty ∧ (clearLapse pl o).owner = o.owner ∧
      (clearLapse pl o).piece = o.piece ∧ (clearLapse pl o).didMove = o.didMove ∧
      (clearLapse pl o).didTwoStep = o.didTwoStep := by
  unfold clearLapse
  split <;> simp

theorem isBlocked_castle (s : chess) (step : Int) (hstep : step = 1 ∨ step = -1) (pl : player)
    (t ps bd : occupant)
    (ht : s.occupantAt ⟨5 + 2 * step, homeRank pl⟩ = some t) (ht1 : t.is_empty = true)
    (hps : s.occupantAt ⟨5 + step, homeRank pl⟩ = some ps) (hps1 : ps.is_empty = true)
    (hbd : s.occupantAt ⟨5 + 2 * step - 1, homeRank pl⟩ = some bd) (hbd1 : bd.is_empty = true)
    (hc : s.isCastling ⟨5, homeRank pl⟩ ⟨5 + 2 * step, homeRank pl⟩ pl = some true) :
    s.isBlocked ⟨5, homeRank pl⟩ ⟨5 + 2 * step, homeRank pl⟩ pl = some false := by
  have hpb : onBoard ⟨5 + step, homeRank pl⟩ := onBoard_homeRank _ (by omega) _
  have htb : onBoard ⟨5 + 2 * step, homeRank pl⟩ := onBoard_homeRank _ (by omega) _
  have hbb : onBoard ⟨5 + 2 * step - 1, homeRank pl⟩ := onBoard_homeRank _ (by omega) _
  have hm : ((⟨5 + 2 * step, homeRank pl⟩ : position) - (⟨5, homeRank pl⟩ : position) : move)
      = ⟨2 * step, 0⟩ := by
    simp [sub_of_valid (Or.inr htb) (Or.inr (onBoard_homeRank 5 (by omega) pl))]
  have e : ∀ m : move, m = ⟨2 * step, 0⟩ →
      m.isDiagonal = false ∧ m.isStraight = true ∧ m.directionize = ⟨step, 0⟩ := by
    rintro m rfl
    rcases hstep with rfl | rfl <;> decide
  obtain ⟨e1, e2, e3⟩ := e _ hm
  have a1 : (⟨5, homeRank pl⟩ : position) + (⟨step, 0⟩ : move) = ⟨5 + step, homeRank pl⟩ :=
    add_eq _ _ _ hpb rfl (by simp)
  have a2 : (⟨5 + step, homeRank pl⟩ : position) + (⟨step, 0⟩ : move)
      = ⟨5 + 2 * step, homeRank pl⟩ :=
    add_eq _ _ _ htb (by simp; ring) (by simp)
  have a3 : (⟨5 + 2 * step, homeRank pl⟩ : position) + move.horiz (-1)
      = ⟨5 + 2 * step - 1, homeRank pl⟩ :=
    add_eq _ _ _ hbb (by simp [move.horiz]; ring) (by simp [move.horiz])
  have hne : (⟨5 + step, homeRank pl⟩ : position) ≠ ⟨5 + 2 * step, homeRank pl⟩ := by
    intro e
    simp only [position.mk.injEq] at e
    omega
  have hscan : s.isBlockedScan ⟨5 + 2 * step, homeRank pl⟩ ⟨step, 0⟩ scanBound
      ⟨5 + step, homeRank pl⟩ = some false := by
    show s.isBlockedScan _ _ (14 + 1 + 1) _ = _
    rw [isBlockedScan, if_pos hne, hps]
    simp only [Option.some_bind, hps1, Bool.true_eq_false, if_false, a2, isBlockedScan_self]
  unfold isBlocked
  rw [ht]
  simp only [Option.some_bind, ht1, Bool.true_eq_false, if_false, e1, e2, and_false, e3, a1,
    hscan, hc, if_true, a3, hbd, Option.map_some', hbd1, Bool.not_true, Bool.false_eq_true]

theorem wouldCheckCastling_first (s : chess) (step : Int) (hstep : step = 1 ∨ step = -1)
    (hr : Int) (hhr : hr = 1 ∨ hr = 8)
    (hw1 : (s.wouldCheck ⟨5, hr⟩ ⟨5 + step, hr⟩).map Prod.fst = some true) :
    s.wouldCheckCastling ⟨5, hr⟩ ⟨5 + 2 * step, hr⟩ = some (true, s) := by
  obtain ⟨s1, h1⟩ := exists_of_map_fst hw1
  have := wouldCheck_state h1
  subst this
  have hpb : onBoard ⟨5 + step, hr⟩ := by
    unfold onBoard
    dsimp only
    omega
  have a1 : (⟨5, hr⟩ : position) + move.horiz step = ⟨5 + step, hr⟩ :=
    add_eq _ _ _ hpb (by simp [move.horiz]) (by simp [move.horiz])
  have hp : (if ((⟨5 + 2 * step, hr⟩ : position) - (⟨5, hr⟩ : position) : move).file = 2
      then (1 : Int) else -1) = step := by
    rcases hstep with rfl | rfl <;> simp [sub_def]
  unfold wouldCheckCastling
  dsimp only
  rw [hp, a1, h1]
  simp

theorem wouldCheckCastling_second (s : chess) (step : Int) (hstep : step = 1 ∨ step = -1)
    (hr : Int) (hhr : hr = 1 ∨ hr = 8) (b2 : Bool)
    (hw1 : (s.wouldCheck ⟨5, hr⟩ ⟨5 + step, hr⟩).map Prod.fst = some false)
    (hw2 : (s.wouldCheck ⟨5, hr⟩ ⟨5 + 2 * step, hr⟩).map Prod.fst = some b2) :
    s.wouldCheckCastling ⟨5, hr⟩ ⟨5 + 2 * step, hr⟩ = some (b2, s) := by
  obtain ⟨s1, h1⟩ := exists_of_map_fst hw1
  obtain ⟨s2, h2⟩ := exists_of_map_fst hw2
  have := wouldCheck_state h1
  subst this
  have := wouldCheck_state h2
  subst this
  have hpb : onBoard ⟨5 + step, hr⟩ := by
    unfold onBoard
    dsimp only
    omega
  have htb : onBoard ⟨5 + 2 * step, hr⟩ := by
    unfold onBoard
    dsimp only
    omega
  have a1 : (⟨5, hr⟩ : position) + move.horiz step = ⟨5 + step, hr⟩ :=
    add_eq _ _ _ hpb (by simp [move.horiz]) (by simp [move.horiz])
  have a2 : (⟨5, hr⟩ : position) + move.horiz (2 * step) = ⟨5 + 2 * step, hr⟩ :=
    add_eq _ _ _ htb (by simp [move.horiz]) (by simp [move.horiz])
  have hp : (if ((⟨5 + 2 * step, hr⟩ : position) - (⟨5, hr⟩ : position) : move).file = 2
      then (1 : Int) else -1) = step := by
    rcases hstep with rfl | rfl <;> simp [sub_def]
  unfold wouldCheckCastling
  dsimp only
  rw [hp, a1, a2, h1]
  simp [h2]

theorem hasMoved_castle (s : chess) (step : Int) (hstep : step = 1 ∨ step = -1)
    (hr : Int) (hhr : hr = 1 ∨ hr = 8) (k rk : occupant)
    (hk : s.occupantAt ⟨5, hr⟩ = some k)
    (hrk : s.occupantAt ⟨rookCorner step, hr⟩ = some rk) :
    s.hasMoved ⟨5, hr⟩ ⟨5 + 2 * step, hr⟩ = some (k.didMove || rk.didMove) := by
  have hcb : onBoard ⟨rookCorner step, hr⟩ := by
    unfold onBoard rookCorner
    dsimp only
    split <;> omega
  unfold hasMoved
  dsimp only
  rw [hk]
  simp only [Option.some_bind]
  cases hkm : k.didMove
  · simp only [Bool.false_eq_true, if_false, Bool.false_or]
    rcases hstep with rfl | rfl
    · have a1 : (⟨5, hr⟩ : position) + move.horiz 3 = ⟨rookCorner 1, hr⟩ :=
        add_eq _ _ _ hcb (by simp [move.horiz, rookCorner]) (by simp [move.horiz])
      simp [sub_def, a1, hrk]
    · have a1 : (⟨5, hr⟩ : position) + move.horiz (-4) = ⟨rookCorner (-1), hr⟩ :=
        add_eq _ _ _ hcb (by simp [move.horiz, rookCorner]) (by simp [move.horiz])
      simp [sub_def, a1, hrk]
  · simp

theorem homeRank_cases (pl : player) : homeRank pl = 1 ∨ homeRank pl = 8 := by
  cases pl
  · exact Or.inl rfl
  · exact Or.inr rfl

theorem isCastling_castle (s : chess) (step : Int) (hstep : step = 1 ∨ step = -1) (pl : player)
    (rk : occupant) (hrk : s.occupantAt ⟨rookCorner step, homeRank pl⟩ = some rk)
    (hr1 : rk.piece = piece_type.rook) (hr2 : rk.owner = pl) :
    s.isCastling ⟨5, homeRank pl⟩ ⟨5 + 2 * step, homeRank pl⟩ pl = some true := by
  obtain ⟨a, ha⟩ := s.occupantAt_isSome (Or.inr (onBoard_homeRank 8 (by omega) pl))
  obtain ⟨b, hb⟩ := s.occupantAt_isSome (Or.inr (onBoard_homeRank 1 (by omega) pl))
  rw [isCastling_eq s _ _ _ ha hb]
  rcases hstep with rfl | rfl
  · simp only [rookCorner, if_true] at hrk
    rw [ha] at hrk
    cases hrk
    simp [sub_def, move.horiz, hr1, hr2]
  · simp only [rookCorner] at hrk
    rw [if_neg (by decide), hb] at hrk
    cases hrk
    simp [sub_def, move.horiz, hr1, hr2]

/-- The checks of `play` on a castling move that is not obstructed, up to the test of the
`didMove` flags. -/
theorem playChecks_castle_prefix (s : chess) (step : Int) (hstep : step = 1 ∨ step = -1)
    (promote : piece_type) (k rk : occupant)
    (hk : s.occupantAt ⟨5, homeRank s._player⟩ = some k) (hk1 : k.is_empty = false)
    (hk2 : k.piece = piece_type.king) (hk3 : k.owner = s._player)
    (hrk : s.occupantAt ⟨rookCorner step, homeRank s._player⟩ = some rk)
    (hr1 : rk.piece = piece_type.rook) (hr2 : rk.owner = s._player)
    (hbl : s.isBlocked ⟨5, homeRank s._player⟩ ⟨5 + 2 * step, homeRank s._player⟩ s._player
      = some false)
    (wasChecked : Bool) (hchk : s.isChecked = some wasChecked) :
    s.playChecks ⟨5, homeRank s._player⟩ ⟨5 + 2 * step, homeRank s._player⟩ promote =
      if wasChecked then some (result.in_check, s)
      else
        (s.wouldCheckCastling ⟨5, homeRank s._player⟩
          ⟨5 + 2 * step, homeRank s._player⟩).bind fun wc =>
          if wc.1 then some (result.would_check, wc.2)
          else
            (wc.2.hasMoved ⟨5, homeRank s._player⟩
              ⟨5 + 2 * step, homeRank s._player⟩).bind fun hm =>
              if hm then some (result.has_moved, wc.2)
              else wc.2.playPromote ⟨5, homeRank s._player⟩
                ⟨5 + 2 * step, homeRank s._player⟩ promote := by
  have hkp : k.piece ≠ piece_type.pawn := by
    rw [hk2]
    decide
  have hc := isCastling_castle s step hstep s._player rk hrk hr1 hr2
  have hla := s.isLapsed_not_pawn ⟨5 + 2 * step, homeRank s._player⟩ hk hkp
  have hcm := canMove_king_castling s _ _ _ hc
  unfold playChecks
  rw [hchk, hk]
  simp only [Option.some_bind, hk1, Bool.false_eq_true, if_false, hk3, ne_eq,
    not_true_eq_false, hk2, hcm, Bool.true_eq_false, hbl, hla, hc, if_true]

end chess

/-! ## Accepted moves: the checks passed and the execution of an ordinary move -/

namespace chess

theorem getOccupant_swapPlayer (s : chess) (p : position) :
    s.swapPlayer.getOccupant p = s.getOccupant p := rfl

theorem iabs_eq_zero {x : Int} (h1 : -2147483648 ≤ x) (h2 : x < 2147483648) :
    iabs x = 0 ↔ x = 0 := by
  unfold iabs wrapInt
  omega

theorem iabs_eq_two {x : Int} (h1 : -2147483648 ≤ x) (h2 : x < 2147483648) :
    iabs x = 2 ↔ x = 2 ∨ x = -2 := by
  unfold iabs wrapInt
  omega

/-- A pseudo-legal pawn move changes the rank. -/
theorem canMovePawn_rank {s : chess} {f t : position} {pl : player}
    (h : s.canMovePawn f t pl = some true) : t.rank ≠ f.rank := by
  unfold canMovePawn at h
  dsimp only at h
  have hp : (if pl = player.white then (1 : Int) else -1) ≠ 0 := by
    split <;> decide
  have hp2 : 2 * (if pl = player.white then (1 : Int) else -1) ≠ 0 := by
    split <;> decide
  have key : ∀ x y : Int, y ≠ 0 → ((t - f : move) = ⟨x, y⟩) → t.rank ≠ f.rank := by
    intro x y hy e
    have := congrArg move.rank e
    rw [sub_def] at this
    unfold wrapInt at this
    dsimp only at this
    omega
  by_cases c1 : (t - f : move) = move.vert (if pl = player.white then 1 else -1)
  · exact key _ _ hp c1
  rw [if_neg c1] at h
  obtain ⟨f0, -, h⟩ := Option.bind_eq_some.mp h
  by_cases c2 : f0.didMove = false ∧
      (t - f : move) = move.vert (2 * (if pl = player.white then 1 else -1))
  · exact key _ _ hp2 c2.2
  rw [if_neg c2] at h
  by_cases c3 : (t - f : move) = ⟨1, if pl = player.white then 1 else -1⟩ ∨
      (t - f : move) = ⟨-1, if pl = player.white then 1 else -1⟩
  · rcases c3 with c3 | c3
    · exact key _ _ hp c3
    · exact key _ _ hp c3
  rw [if_neg c3] at h
  cases h

/-- The checks that a call answering `ok` or `capture` has passed. -/
theorem playChecks_accept {s s' : chess} {f t : position} {pr : piece_type} {r : result}
    (h : s.playChecks f t pr = some (r, s')) (hr : r = result.ok ∨ r = result.capture) :
    ∃ p, s.occupantAt f = some p ∧ p.is_empty = false ∧ p.owner = s._player ∧
      s.canMove f t p.piece s._player = some true ∧
      s.isBlocked f t s._player = some false ∧
      s.isLapsed f t = some false ∧
      s.playPromote f t pr = some (r, s') := by
  unfold playChecks at h
  obtain ⟨wasChecked, -, h⟩ := Option.bind_eq_some.mp h
  obtain ⟨p, hp, h⟩ := Option.bind_eq_some.mp h
  have err : ∀ (r0 : result) (s2 : chess), r0 ≠ result.ok → r0 ≠ result.capture →
      some (r0, s2) = some (r, s') → False := by
    intro r0 s2 h1 h2 h
    simp only [Option.some.injEq, Prod.mk.injEq] at h
    obtain ⟨rfl, -⟩ := h
    rcases hr with e | e
    · exact h1 e
    · exact h2 e
  by_cases c1 : p.is_empty = true
  · rw [if_pos c1] at h
    exact (err _ _ (by decide) (by decide) h).elim
  rw [if_neg c1] at h
  by_cases c2 : p.owner ≠ s._player
  · rw [if_pos c2] at h
    exact (err _ _ (by decide) (by decide) h).elim
  rw [if_neg c2] at h
  obtain ⟨cm, hcm, h⟩ := Option.bind_eq_some.mp h
  by_cases c3 : cm = false
  · rw [if_pos c3] at h
    exact (err _ _ (by decide) (by decide) h).elim
  rw [if_neg c3] at h
  obtain ⟨bl, hbl, h⟩ := Option.bind_eq_some.mp h
  by_cases c4 : bl = true
  · rw [if_pos c4] at h
    exact (err _ _ (by decide) (by decide) h).elim
  rw [if_neg c4] at h
  obtain ⟨la, hla, h⟩ := Option.bind_eq_some.mp h
  by_cases c5 : la = true
  · rw [if_pos c5] at h
    exact (err _ _ (by decide) (by decide) h).elim
  rw [if_neg c5] at h
  have e3 : cm = true := by simpa using c3
  have e4 : bl = false := by simpa using c4
  have e5 : la = false := by simpa using c5
  subst e3 e4 e5
  refine ⟨p, hp, by simpa using c1, not_not.mp c2, hcm, hbl, hla, ?_⟩
  obtain ⟨c, -, h⟩ := Option.bind_eq_some.mp h
  by_cases c6 : c = true
  · rw [if_pos c6] at h
    by_cases c7 : wasChecked = true
    · rw [if_pos c7] at h
      exact (err _ _ (by decide) (by decide) h).elim
    rw [if_neg c7] at h
    obtain ⟨⟨wc, s2⟩, hw, h⟩ := Option.bind_eq_some.mp h
    have e := wouldCheckCastling_state hw
    dsimp only at h
    rw [e] at h
    by_cases c8 : wc = true
    · rw [if_pos c8] at h
      exact (err _ _ (by decide) (by decide) h).elim
    rw [if_neg c8] at h
    obtain ⟨hm, -, h⟩ := Option.bind_eq_some.mp h
    by_cases c9 : hm = true
    · rw [if_pos c9] at h
      exact (err _ _ (by decide) (by decide) h).elim
    rw [if_neg c9] at h
    exact h
  · rw [if_neg c6] at h
    obtain ⟨⟨wc, s2⟩, hw, h⟩ := Option.bind_eq_some.mp h
    have e := wouldCheck_state hw
    dsimp only at h
    rw [e] at h
    by_cases c8 : wc = true
    · rw [if_pos c8] at h
      by_cases c7 : wasChecked = true
      · rw [if_pos c7] at h
        exact (err _ _ (by decide) (by decide) h).elim
      · rw [if_neg c7] at h
        exact (err _ _ (by decide) (by decide) h).elim
    · rw [if_neg c8] at h
      exact h

/-- The execution part of `play` on a move that is not a castling move: the record of `from`,
with the flags `setFlags` gives it, ends on `to`, and `from` is left empty. -/
theorem playExecute_move {s s' : chess} {f t : position} {r : result} {o : occupant}
    (h : s.playExecute f t = some (r, s'))
    (hf : s.occupantAt f = some o) (he : o.is_empty = false) (hown : o.owner = s._player)
    (hft : f ≠ t)
    (h1 : (t - f : move) ≠ move.horiz 2) (h2 : (t - f : move) ≠ move.horiz (-2)) :
    onBoard t ∧ s'.getOccupant t = some (newFlags o (t - f)) ∧ s'.getOccupant f = some {} := by
  have hfb := onBoard_of_occupantAt hf he
  have hg : s.getOccupant f = some o := by
    rw [← occupantAt_of_onBoard s hfb]
    exact hf
  unfold playExecute at h
  obtain ⟨t0, -, h⟩ := Option.bind_eq_some.mp h
  obtain ⟨isCapture, -, h⟩ := Option.bind_eq_some.mp h
  dsimp only at h
  obtain ⟨ep, hep, h⟩ := Option.bind_eq_some.mp h
  obtain ⟨s1, hs1, h⟩ := Option.bind_eq_some.mp h
  obtain ⟨s2, hs2, h⟩ := Option.bind_eq_some.mp h
  obtain ⟨c, hc, h⟩ := Option.bind_eq_some.mp h
  obtain ⟨s3, hs3, h⟩ := Option.bind_eq_some.mp h
  simp only [Option.some.injEq, Prod.mk.injEq] at h
  obtain ⟨-, rfl⟩ := h
  have g1 : s1.getOccupant f = some o := by
    by_cases c0 : ep = true
    · rw [if_pos c0] at hs1
      subst c0
      unfold applyEnPassant at hs1
      dsimp only at hs1
      unfold isEnPassant at hep
      dsimp only at hep
      obtain ⟨tl, htl, hep⟩ := Option.bind_eq_some.mp hep
      obtain ⟨f0, hf0, hep⟩ := Option.bind_eq_some.mp hep
      simp only [Option.some.injEq, decide_eq_true_eq] at hep
      have hne : f ≠ t + move.vert (if s._player = player.white then -1 else 1) := by
        intro e
        rw [← e, hf] at htl
        cases htl
        exact getOpponent_ne s (hep.2.1.symm.trans hown)
      rw [getOccupant_placeOccupant hs1, if_neg hne]
      exact hg
    · rw [if_neg c0] at hs1
      cases hs1
      exact hg
  obtain ⟨s2', hs2', p2, g2⟩ := setFlags_spec s1 t g1
  rw [hs2] at hs2'
  cases hs2'
  have hc' := isCastling_eq_false s2 s2._player h1 h2
  rw [hc] at hc'
  cases hc'
  rw [if_neg (by decide)] at hs3
  obtain ⟨o', ho', htb, p3, g3⟩ := makeMove_spec hs3
  rw [g2, if_pos rfl] at ho'
  cases ho'
  refine ⟨htb, ?_, ?_⟩
  · rw [getOccupant_swapPlayer, g3, if_neg (Ne.symm hft), if_pos rfl]
  · rw [getOccupant_swapPlayer, g3, if_pos rfl]


theorem abs_eq_vert_two {f t : position} (hf : valid f) (ht : valid t) :
    move.abs (t - f) = move.vert 2 ↔
      (t.file = f.file ∧ (t.rank = f.rank + 2 ∨ t.rank = f.rank - 2)) := by
  have h1 := valid_bounds hf
  have h2 := valid_bounds ht
  rw [sub_of_valid ht hf]
  unfold move.abs move.vert
  simp only [move.mk.injEq, iabs_eq_zero (show -2147483648 ≤ t.file - f.file by omega)
    (show t.file - f.file < 2147483648 by omega),
    iabs_eq_two (show -2147483648 ≤ t.rank - f.rank by omega)
    (show t.rank - f.rank < 2147483648 by omega)]
  omega

theorem clearLapse_pawn {pl : player} {o : occupant} (he : o.is_empty = false)
    (hown : o.owner = pl) (hp : o.piece = piece_type.pawn) :
    clearLapse pl o = { o with canBeLapsed := false } := by
  unfold clearLapse
  rw [if_pos ⟨he, hown, hp⟩]


theorem eq_getOpponent_of_ne {s : chess} {pl : player} (h : pl ≠ s._player) :
    pl = s.getOpponent := by
  obtain ⟨p, board⟩ := s
  cases p <;> cases pl <;> simp [getOpponent] at h ⊢

/-- A straight move of a pawn onto an occupied square is blocked, whoever owns the piece
there. -/
theorem isBlocked_pawn_straight (s : chess) {f t : position} {p o : occupant}
    (hf : s.occupantAt f = some p) (hp : p.piece = piece_type.pawn)
    (ht : s.occupantAt t = some o) (he : o.is_empty = false)
    (hs : (t - f : move).isStraight = true) :
    s.isBlocked f t s._player = some true := by
  unfold isBlocked
  rw [ht, Option.some_bind, if_pos he]
  by_cases c : o.owner = s._player
  · rw [if_pos c, Option.some_bind, if_pos rfl]
  · rw [if_neg c, hf, Option.some_bind]
    have e : decide (p.piece = piece_type.pawn ∧ (t - f : move).isStraight = true ∧
        o.owner = s.getOpponent) = true := by
      rw [decide_eq_true_eq]
      exact ⟨hp, hs, eq_getOpponent_of_ne c⟩
    rw [e, Option.some_bind, if_pos rfl]

/-- A pawn can advance one square straight forward, or two when it has not moved. -/
theorem canMovePawn_advance (s : chess) {f t : position} {p : occupant} (n : Int)
    (hf : s.occupantAt f = some p)
    (hn : n = 1 ∨ (n = 2 ∧ p.didMove = false))
    (hfile : t.file = f.file)
    (hrank : t.rank = f.rank + n * (if s._player = player.white then 1 else -1)) :
    s.canMovePawn f t s._player = some true := by
  have em : (t - f : move) = move.vert (n * (if s._player = player.white then 1 else -1)) := by
    have hp : (if s._player = player.white then (1 : Int) else -1) = 1 ∨
        (if s._player = player.white then (1 : Int) else -1) = -1 := by
      split
      · exact Or.inl rfl
      · exact Or.inr rfl
    rw [sub_def]
    unfold move.vert wrapInt
    rw [move.mk.injEq]
    generalize (if s._player = player.white then (1 : Int) else -1) = p at hrank hp
    rcases hp with rfl | rfl <;> rcases hn with rfl | ⟨rfl, -⟩ <;> constructor <;> omega
  unfold canMovePawn
  dsimp only
  rcases hn with rfl | ⟨rfl, hd⟩
  · rw [one_mul] at em
    rw [if_pos em]
  · by_cases c : (t - f : move) = move.vert (if s._player = player.white then 1 else -1)
    · rw [if_pos c]
    · rw [if_neg c, hf, Option.some_bind, if_pos ⟨hd, em⟩]

/-- The answer `blocked`: the piece on `from` belongs to the side to move, the move is
pseudo-legal and `isBlocked` holds. -/
theorem playChecks_blocked (s : chess) {f t : position} (pr : piece_type) {p : occupant}
    (hf : s.occupantAt f = some p) (he : p.is_empty = false) (hown : p.owner = s._player)
    (hcm : s.canMove f t p.piece s._player = some true)
    (hbl : s.isBlocked f t s._player = some true) :
    s.playChecks f t pr = some (result.blocked, s) := by
  obtain ⟨b, hb⟩ := s.isChecked_isSome
  unfold playChecks
  rw [hb, Option.some_bind, hf, Option.some_bind, if_neg (by simp [he]),
    if_neg (not_not.mpr hown), hcm, Option.some_bind, if_neg (by decide), hbl,
    Option.some_bind, if_pos rfl]


/-- A simulation that returns has written on `to`, so `to` is on the board. -/
theorem onBoard_of_wouldCheck {s : chess} {f t : position} {x : Bool × chess}
    (h : s.wouldCheck f t = some x) : onBoard t := by
  unfold wouldCheck at h
  obtain ⟨tmp, -, h⟩ := Option.bind_eq_some.mp h
  obtain ⟨ep, -, h⟩ := Option.bind_eq_some.mp h
  by_cases c : ep = true
  · rw [if_pos c] at h
    obtain ⟨u, -, h⟩ := Option.bind_eq_some.mp h
    obtain ⟨d, -, h⟩ := Option.bind_eq_some.mp h
    obtain ⟨s1, -, h⟩ := Option.bind_eq_some.mp h
    obtain ⟨s2, h2, h⟩ := Option.bind_eq_some.mp h
    obtain ⟨-, -, hb, -⟩ := makeMove_spec h2
    exact hb
  · rw [if_neg c] at h
    obtain ⟨s1, h1, h⟩ := Option.bind_eq_some.mp h
    obtain ⟨-, -, hb, -⟩ := makeMove_spec h1
    exact hb

/-- The execution part of `play` returns on a move that is neither an en passant capture nor
a castling move. -/
theorem playExecute_isSome (s : chess) {f t : position} {o : occupant}
    (hg : s.getOccupant f = some o) (ht : onBoard t)
    (hep : s.isEnPassant f t = some false)
    (h1 : (t - f : move) ≠ move.horiz 2) (h2 : (t - f : move) ≠ move.horiz (-2)) :
    ∃ r s', s.playExecute f t = some (r, s') := by
  obtain ⟨t0, ht0⟩ := s.occupantAt_isSome (Or.inr ht)
  obtain ⟨s2, hs2, p2, g2⟩ := s.setFlags_spec t hg
  have hc := isCastling_eq_false s2 s2._player h1 h2
  have hf2 : s2.getOccupant f = some (newFlags o (t - f)) := by
    rw [g2, if_pos rfl]
  obtain ⟨s3, hs3, -, -⟩ := s2.makeMove_spec' hf2 ht
  unfold playExecute
  rw [ht0, Option.some_bind, hep]
  by_cases c : t0.is_empty = false
  · rw [if_pos c]
    simp only [Option.some_bind, Bool.false_eq_true, if_false, hs2, hc, hs3]
    exact ⟨_, _, rfl⟩
  · rw [if_neg c]
    simp only [Option.some_bind, Bool.false_eq_true, if_false, hs2, hc, hs3]
    exact ⟨_, _, rfl⟩

/-- A call whose move passes every check goes on to the promotion step. -/
theorem playChecks_pass (s : chess) {f t : position} (pr : piece_type) {p : occupant}
    (hf : s.occupantAt f = some p) (he : p.is_empty = false) (hown : p.owner = s._player)
    (hcm : s.canMove f t p.piece s._player = some true)
    (hbl : s.isBlocked f t s._player = some false)
    (hla : s.isLapsed f t = some false)
    (hc : s.isCastling f t s._player = some false)
    (hwc : s.wouldCheck f t = some (false, s)) :
    s.playChecks f t pr = s.playPromote f t pr := by
  obtain ⟨b, hb⟩ := s.isChecked_isSome
  unfold playChecks
  rw [hb, Option.some_bind, hf, Option.some_bind, if_neg (by simp [he]),
    if_neg (not_not.mpr hown), hcm, Option.some_bind, if_neg (by decide), hbl,
    Option.some_bind, if_neg (by decide), hla, Option.some_bind, if_neg (by decide), hc,
    Option.some_bind, if_neg (by decide), hwc, Option.some_bind]
  rfl

end chess

/-! ## The scan of `isBlocked` and the loop of `isChecked`, square by square -/

namespace chess

/-- The scan answers whether one of the squares on its path is occupied. -/
theorem isBlockedScan_eq (s : chess) (t : position) (dir : move) :
    ∀ (n : Nat) (pos : position) (l : List position), valid pos →
      scanPath t dir n pos = some l →
      s.isBlockedScan t dir n pos = some (l.any s.occupied) := by
  intro n
  induction n with
  | zero =>
    intro pos l _ h
    simp [scanPath] at h
  | succ n ih =>
    intro pos l hv h
    unfold isBlockedScan
    unfold scanPath at h
    by_cases hpos : pos = t
    · rw [if_pos hpos] at h
      cases h
      simp [hpos]
    · rw [if_neg hpos] at h
      obtain ⟨l', hl', e⟩ := Option.map_eq_some'.mp h
      subst e
      obtain ⟨o, ho⟩ := s.occupantAt_isSome hv
      rw [if_pos hpos, ho, Option.some_bind]
      have hocc : s.occupied pos = !o.is_empty := by
        unfold occupied
        rw [ho]
      by_cases c : o.is_empty = false
      · rw [if_pos c]
        simp [hocc, c]
      · rw [if_neg c, ih _ _ (valid_add pos dir) hl']
        simp [hocc, c]


/-- The loop of `isChecked` returns, and answers `true` exactly when a square of the list
threatens the king. -/
theorem isCheckedIn_spec (s : chess) (k : position) (hk : valid k) :
    ∀ l : List position, (∀ p ∈ l, onBoard p) →
      ∃ b, s.isCheckedIn k l = some b ∧ (b = true ↔ ∃ p ∈ l, s.threatens k p) := by
  intro l
  induction l with
  | nil =>
    intro _
    exact ⟨false, rfl, by simp⟩
  | cons p rest ih =>
    intro hl
    have hp : onBoard p := hl p (List.mem_cons_self _ _)
    obtain ⟨b, hb, hiff⟩ := ih fun q hq => hl q (List.mem_cons_of_mem _ hq)
    have skip : s.isCheckedIn k (p :: rest) = s.isCheckedIn k rest → ¬ s.threatens k p →
        ∃ b, s.isCheckedIn k (p :: rest) = some b ∧
          (b = true ↔ ∃ q ∈ p :: rest, s.threatens k q) := by
      intro e hnot
      refine ⟨b, e.trans hb, hiff.trans ⟨?_, ?_⟩⟩
      · rintro ⟨q, hq, h⟩
        exact ⟨q, List.mem_cons_of_mem _ hq, h⟩
      · rintro ⟨q, hq, h⟩
        rcases List.mem_cons.mp hq with e | hq
        · rw [e] at h
          exact absurd h hnot
        · exact ⟨q, hq, h⟩
    obtain ⟨o, ho⟩ := s.getOccupant_isSome hp
    have hat : s.occupantAt p = some o := by
      rw [occupantAt_of_onBoard s hp]
      exact ho
    obtain ⟨cm, hcm⟩ := s.canMove_isSome (Or.inr hp) hk o.piece s.getOpponent
    obtain ⟨bl, hbl⟩ := s.isBlocked_isSome hp hk s.getOpponent
    by_cases c : o.is_empty = false ∧ o.owner ≠ s._player
    · cases cm with
      | false =>
        apply skip
        · rw [isCheckedIn, ho, Option.some_bind, if_pos c, hcm]
          rfl
        · rintro ⟨o', ho', -, -, h, -⟩
          rw [hat] at ho'
          cases ho'
          rw [hcm] at h
          cases h
      | true =>
        cases bl with
        | true =>
          apply skip
          · rw [isCheckedIn, ho, Option.some_bind, if_pos c, hcm, Option.some_bind, if_pos rfl,
              hbl]
            rfl
          · rintro ⟨o', ho', -, -, -, h, -⟩
            rw [hat] at ho'
            cases ho'
            rw [hbl] at h
            cases h
        | false =>
          by_cases c2 : o.piece = piece_type.pawn ∧ (k - p : move).isStraight = true
          · apply skip
            · rw [isCheckedIn, ho, Option.some_bind, if_pos c, hcm, Option.some_bind,
                if_pos rfl, hbl, Option.map_some', Option.some_bind,
                if_pos (show (!false) = true from rfl), hat,
                Option.some_bind, if_pos c2]
            · rintro ⟨o', ho', -, -, -, -, h⟩
              rw [hat] at ho'
              cases ho'
              exact h c2
          · refine ⟨true, ?_, ?_⟩
            · rw [isCheckedIn, ho, Option.some_bind, if_pos c, hcm, Option.some_bind,
                if_pos rfl, hbl, Option.map_some', Option.some_bind,
                if_pos (show (!false) = true from rfl), hat,
                Option.some_bind, if_neg c2]
            · refine ⟨fun _ => ⟨p, List.mem_cons_self _ _, o, hat, c.1,
                eq_getOpponent_of_ne c.2, hcm, hbl, c2⟩, fun _ => rfl⟩
    · apply skip
      · rw [isCheckedIn, ho, Option.some_bind, if_neg c]
      · rintro ⟨o', ho', h1, h2, -⟩
        rw [hat] at ho'
        cases ho'
        exact c ⟨h1, by rw [h2]; exact getOpponent_ne s⟩


/-- A square returned by the search for the king is the sentinel or holds a king of the side
to move. -/
theorem findKingIn_king (s : chess) (k : position) (hk : onBoard k) :
    ∀ l : List position, s.findKingIn l = some k →
      ∃ o, s.occupantAt k = some o ∧ o.is_empty = false ∧ o.piece = piece_type.king ∧
        o.owner = s._player := by
  intro l
  induction l with
  | nil =>
    intro h
    simp only [findKingIn, Option.some.injEq] at h
    subst h
    exact absurd hk (by decide)
  | cons p rest ih =>
    intro h
    unfold findKingIn at h
    obtain ⟨o, ho, h⟩ := Option.bind_eq_some.mp h
    by_cases c : o.is_empty = false ∧ o.piece = piece_type.king ∧ o.owner = s._player
    · rw [if_pos c] at h
      simp only [Option.some.injEq] at h
      subst h
      refine ⟨o, ?_, c⟩
      rw [occupantAt_of_onBoard s hk]
      exact ho
    · rw [if_neg c] at h
      exact ih h

/-- The search for the king finds it: when `k` is the only square that holds a king of the
side to move, the search over a list of on-board squares that contains `k` returns `k`. -/
theorem findKingIn_unique (s : chess) (k : position) {king : occupant}
    (hk : s.getOccupant k = some king) (hk1 : king.is_empty = false)
    (hk2 : king.piece = piece_type.king) (hk3 : king.owner = s._player)
    (huniq : ∀ q o, s.getOccupant q = some o → o.is_empty = false →
      o.piece = piece_type.king → o.owner = s._player → q = k) :
    ∀ l : List position, (∀ p ∈ l, onBoard p) → k ∈ l → s.findKingIn l = some k := by
  intro l
  induction l with
  | nil =>
    intro _ h
    cases h
  | cons p rest ih =>
    intro hl hmem
    obtain ⟨o, ho⟩ := s.getOccupant_isSome (hl p (List.mem_cons_self _ _))
    unfold findKingIn
    rw [ho, Option.some_bind]
    by_cases c : o.is_empty = false ∧ o.piece = piece_type.king ∧ o.owner = s._player
    · rw [if_pos c, huniq p o ho c.1 c.2.1 c.2.2]
    · rw [if_neg c]
      have hne : k ≠ p := by
        intro e
        rw [e, ho, Option.some.injEq] at hk
        rw [hk] at c
        exact c ⟨hk1, hk2, hk3⟩
      rcases List.mem_cons.mp hmem with e | hr
      · exact absurd e hne
      · exact ih (fun q hq => hl q (List.mem_cons_of_mem _ hq)) hr

/-- On the initial position the only white king stands on `{5,1}`. -/
theorem start_one_king : ∀ q ∈ position.allPositions, ∀ o ∈ start.getOccupant q,
    o.is_empty = false → o.piece = piece_type.king → o.owner = player.white →
      q = ⟨5, 1⟩ := by
  decide

/-- The two squares between the king and the king-side rook, read as records. -/
theorem empty_between_kingside (s : chess) (p : Int)
    (h6 : (s.occupantAt ⟨6, p⟩).map occupant.is_empty = some true)
    (h7 : (s.occupantAt ⟨7, p⟩).map occupant.is_empty = some true) :
    ∀ f : Int, (5 < f ∧ f < rookCorner 1) ∨ (rookCorner 1 < f ∧ f < 5) →
      ∃ o, s.occupantAt ⟨f, p⟩ = some o ∧ o.is_empty = true := by
  intro f hf
  have hf' : f = 6 ∨ f = 7 := by
    simp only [rookCorner, if_true] at hf
    omega
  rcases hf' with rfl | rfl
  · obtain ⟨o, ho, he⟩ := Option.map_eq_some'.mp h6
    exact ⟨o, ho, he⟩
  · obtain ⟨o, ho, he⟩ := Option.map_eq_some'.mp h7
    exact ⟨o, ho, he⟩

end chess

/-! ## Reachable states: the flag invariant and the count of pieces -/

namespace chess

/-- The steps of the execution part of `play`, read off a call that returned. -/
theorem playExecute_decode {s s' : chess} {f t : position} {r : result}
    (h : s.playExecute f t = some (r, s')) :
    ∃ (t0 : occupant) (ep : Bool) (s1 s2 : chess) (c : Bool) (s3 : chess),
      s.occupantAt t = some t0 ∧ s.isEnPassant f t = some ep ∧
      r = (if t0.is_empty = false ∨ ep = true then result.capture else result.ok) ∧
      (if ep = true then s.applyEnPassant t else some s) = some s1 ∧
      s1.setFlags f t = some s2 ∧
      s2.isCastling f t s2._player = some c ∧
      (if c = true then s2.makeCastling f t else s2.makeMove f t) = some s3 ∧
      s' = s3.swapPlayer := by
  unfold playExecute at h
  obtain ⟨t0, ht0, h⟩ := Option.bind_eq_some.mp h
  obtain ⟨isCapture, hcap, h⟩ := Option.bind_eq_some.mp h
  dsimp only at h
  obtain ⟨ep, hep, h⟩ := Option.bind_eq_some.mp h
  obtain ⟨s1, hs1, h⟩ := Option.bind_eq_some.mp h
  obtain ⟨s2, hs2, h⟩ := Option.bind_eq_some.mp h
  obtain ⟨c, hc, h⟩ := Option.bind_eq_some.mp h
  obtain ⟨s3, hs3, h⟩ := Option.bind_eq_some.mp h
  simp only [Option.some.injEq, Prod.mk.injEq] at h
  obtain ⟨hr, hs'⟩ := h
  refine ⟨t0, ep, s1, s2, c, s3, ht0, hep, ?_, hs1, hs2, hc, hs3, hs'.symm⟩
  rw [← hr]
  by_cases c1 : t0.is_empty = false
  · rw [if_pos c1] at hcap
    have e : true = isCapture := Option.some.inj hcap
    rw [← e, if_pos (Or.inl c1), if_pos rfl]
  · rw [if_neg c1, hep] at hcap
    have e : ep = isCapture := Option.some.inj hcap
    rw [← e]
    by_cases c2 : ep = true
    · rw [if_pos (Or.inr c2), if_pos c2]
    · rw [if_neg (not_or.mpr ⟨c1, c2⟩), if_neg c2]

/-- The shapes of a pseudo-legal pawn move. -/
theorem canMovePawn_shape {s : chess} {f t : position} {pl : player}
    (h : s.canMovePawn f t pl = some true) :
    (t - f : move) = move.vert (if pl = player.white then 1 else -1) ∨
      ((∃ o, s.occupantAt f = some o ∧ o.didMove = false) ∧
        (t - f : move) = move.vert (2 * (if pl = player.white then 1 else -1))) ∨
      (t - f : move) = ⟨1, if pl = player.white then 1 else -1⟩ ∨
      (t - f : move) = ⟨-1, if pl = player.white then 1 else -1⟩ := by
  unfold canMovePawn at h
  dsimp only at h
  by_cases c1 : (t - f : move) = move.vert (if pl = player.white then 1 else -1)
  · exact Or.inl c1
  rw [if_neg c1] at h
  obtain ⟨f0, hf0, h⟩ := Option.bind_eq_some.mp h
  by_cases c2 : f0.didMove = false ∧
      (t - f : move) = move.vert (2 * (if pl = player.white then 1 else -1))
  · exact Or.inr (Or.inl ⟨⟨f0, hf0, c2.1⟩, c2.2⟩)
  rw [if_neg c2] at h
  by_cases c3 : (t - f : move) = ⟨1, if pl = player.white then 1 else -1⟩ ∨
      (t - f : move) = ⟨-1, if pl = player.white then 1 else -1⟩
  · exact Or.inr (Or.inr c3)
  rw [if_neg c3] at h
  cases h

/-- What a negative answer of `isBlocked` says: `to` holds no piece of `pl`, and on a straight
or diagonal line no square strictly between `from` and `to` is occupied. -/
theorem isBlocked_false {s : chess} {f t : position} {pl : player} {a : occupant}
    (h : s.isBlocked f t pl = some false) (hf : onBoard f) (ht : valid t)
    (ha : s.occupantAt t = some a) :
    ¬ (a.is_empty = false ∧ a.owner = pl) ∧
      ((t - f : move).isDiagonal = true ∨ (t - f : move).isStraight = true →
        (squaresBetween f t).any s.occupied = false) := by
  unfold isBlocked at h
  rw [ha, Option.some_bind] at h
  obtain ⟨early, hearly, h⟩ := Option.bind_eq_some.mp h
  by_cases c0 : early = true
  · rw [if_pos c0] at h
    cases h
  rw [if_neg c0] at h
  constructor
  · rintro ⟨c1, c2⟩
    rw [if_pos c1, if_pos c2] at hearly
    cases hearly
    exact c0 rfl
  · intro hd
    have hpath := scanPath_all (f, t) (mem_scanEndpoints hf ht) hd
    dsimp only at hpath h
    have c3 : ¬ ((t - f : move).isDiagonal = false ∧ (t - f : move).isStraight = false) := by
      rintro ⟨e1, e2⟩
      rcases hd with e | e
      · rw [e1] at e
        cases e
      · rw [e2] at e
        cases e
    rw [if_neg c3, isBlockedScan_eq s t _ scanBound _ _
      (valid_add f (t - f : move).directionize) hpath, Option.some_bind] at h
    by_cases c4 : (squaresBetween f t).any s.occupied = true
    · rw [if_pos c4] at h
      cases h
    · simpa using c4

/-- The squares of `makeCastling`: the rook goes from its corner to the square the king
crosses, the record of `from` goes to `to`, and `from` and the corner are left empty. -/
theorem makeCastling_frame (s : chess) (step : Int) (hstep : step = 1 ∨ step = -1)
    (pl : player) {k rk : occupant}
    (hk : s.getOccupant ⟨5, homeRank pl⟩ = some k)
    (hrk : s.getOccupant ⟨rookCorner step, homeRank pl⟩ = some rk) :
    ∃ s', s.makeCastling ⟨5, homeRank pl⟩ ⟨5 + 2 * step, homeRank pl⟩ = some s' ∧
      s'._player = s._player ∧
      ∀ q, s'.getOccupant q =
        if q = ⟨5, homeRank pl⟩ then some {}
        else if q = ⟨5 + 2 * step, homeRank pl⟩ then some k
        else if q = ⟨rookCorner step, homeRank pl⟩ then some {}
        else if q = ⟨5 + step, homeRank pl⟩ then some rk
        else s.getOccupant q := by
  have hfb : onBoard ⟨5, homeRank pl⟩ := onBoard_homeRank 5 (by omega) _
  have htb : onBoard ⟨5 + 2 * step, homeRank pl⟩ := onBoard_homeRank _ (by omega) _
  have hcb : onBoard ⟨rookCorner step, homeRank pl⟩ :=
    onBoard_homeRank _ (by unfold rookCorner; split <;> omega) _
  have hdb : onBoard ⟨5 + step, homeRank pl⟩ := onBoard_homeRank _ (by omega) _
  have hne_cf : (⟨rookCorner step, homeRank pl⟩ : position) ≠ ⟨5, homeRank pl⟩ := by
    intro e
    simp only [position.mk.injEq, rookCorner] at e
    split at e <;> omega
  obtain ⟨s3, h3, p3, g3⟩ := s.makeMove_spec' hrk hdb
  have hne_fd : (⟨5, homeRank pl⟩ : position) ≠ ⟨5 + step, homeRank pl⟩ := by
    intro e
    simp only [position.mk.injEq] at e
    omega
  have hk3 : s3.getOccupant ⟨5, homeRank pl⟩ = some k := by
    rw [g3, if_neg (Ne.symm hne_cf), if_neg hne_fd]
    exact hk
  obtain ⟨s4, h4⟩ := s3.placeOccupant_isSome k htb
  obtain ⟨s5, h5⟩ := s4.placeOccupant_isSome {} hfb
  have hmc : s.makeCastling ⟨5, homeRank pl⟩ ⟨5 + 2 * step, homeRank pl⟩ = some s5 := by
    unfold makeCastling
    have e1 : ((⟨5 + 2 * step, homeRank pl⟩ : position)
        - (⟨5, homeRank pl⟩ : position) : move) = ⟨2 * step, 0⟩ := by
      simp [sub_of_valid (Or.inr htb) (Or.inr hfb)]
    rw [e1]
    dsimp only
    rcases hstep with rfl | rfl
    · have e2 : (⟨5 + 2 * 1, homeRank pl⟩ : position) + move.horiz 1
          = ⟨rookCorner 1, homeRank pl⟩ :=
        add_eq _ _ _ hcb (by simp [rookCorner, move.horiz]) (by simp [move.horiz])
      have e3 : (⟨5 + 2 * 1, homeRank pl⟩ : position) + move.horiz (-1)
          = ⟨5 + 1, homeRank pl⟩ :=
        add_eq _ _ _ hdb (by simp [move.horiz]) (by simp [move.horiz])
      rw [if_pos (by norm_num), e2, e3, h3]
      simp only [Option.some_bind, hk3, h4, h5]
    · have e2 : (⟨5 + 2 * -1, homeRank pl⟩ : position) + move.horiz (-2)
          = ⟨rookCorner (-1), homeRank pl⟩ :=
        add_eq _ _ _ hcb (by simp [rookCorner, move.horiz]) (by simp [move.horiz])
      have e3 : (⟨5 + 2 * -1, homeRank pl⟩ : position) + move.horiz 1
          = ⟨5 + -1, homeRank pl⟩ :=
        add_eq _ _ _ hdb (by simp [move.horiz]) (by simp [move.horiz])
      rw [if_neg (by norm_num), e2, e3, h3]
      simp only [Option.some_bind, hk3, h4, h5]
  refine ⟨s5, hmc, ?_, ?_⟩
  · rw [placeOccupant_player h5, placeOccupant_player h4, p3]
  · intro q
    rw [getOccupant_placeOccupant h5, getOccupant_placeOccupant h4, g3]

/-- What `isCastling` holding says of the squares: `from` is the king's home square, `to`
lies two files from it on the home rank, and the corner on that side holds a rook record of
the player. -/
theorem isCastling_true {s : chess} {f t : position} {pl : player}
    (h : s.isCastling f t pl = some true) (ht : valid t) :
    ∃ step : Int, (step = 1 ∨ step = -1) ∧ f = ⟨5, homeRank pl⟩ ∧
      t = ⟨5 + 2 * step, homeRank pl⟩ ∧
      ∃ rk, s.getOccupant ⟨rookCorner step, homeRank pl⟩ = some rk ∧
        rk.piece = piece_type.rook ∧ rk.owner = pl := by
  have h8 := onBoard_homeRank 8 (by omega) pl
  have h1 := onBoard_homeRank 1 (by omega) pl
  obtain ⟨a, ha⟩ := s.occupantAt_isSome (Or.inr h8)
  obtain ⟨b, hb⟩ := s.occupantAt_isSome (Or.inr h1)
  rw [isCastling_eq s _ _ _ ha hb] at h
  simp only [Option.some.injEq, decide_eq_true_eq] at h
  obtain ⟨hf, h⟩ := h
  rw [occupantAt_of_onBoard s h8] at ha
  rw [occupantAt_of_onBoard s h1] at hb
  have hb5 := onBoard_homeRank 5 (by omega) pl
  subst hf
  rw [sub_of_valid ht (Or.inr hb5)] at h
  obtain ⟨tf, tr⟩ := t
  simp only [move.horiz, move.mk.injEq] at h
  rcases h with ⟨⟨e1, e2⟩, h3, h4⟩ | ⟨⟨e1, e2⟩, h3, h4⟩
  · refine ⟨1, Or.inl rfl, rfl, ?_, a, ?_, h3, h4⟩
    · rw [position.mk.injEq]
      constructor <;> omega
    · simpa [rookCorner] using ha
  · refine ⟨-1, Or.inr rfl, rfl, ?_, b, ?_, h3, h4⟩
    · rw [position.mk.injEq]
      constructor <;> omega
    · simpa [rookCorner] using hb

/-- The board after the execution part of `play`, square by square: either an ordinary move
(with the en passant victim removed when `isEnPassant` holds), or a castling move. -/
theorem playExecute_frame {s s' : chess} {f t : position} {r : result} {o : occupant}
    (h : s.playExecute f t = some (r, s'))
    (hf : s.occupantAt f = some o) (he : o.is_empty = false) (hown : o.owner = s._player)
    (hnp : (t - f : move) = move.horiz 2 ∨ (t - f : move) = move.horiz (-2) →
      o.piece ≠ piece_type.pawn) :
    ∃ (t0 : occupant) (ep : Bool),
      s.occupantAt t = some t0 ∧ s.isEnPassant f t = some ep ∧
      r = (if t0.is_empty = false ∨ ep = true then result.capture else result.ok) ∧
      onBoard t ∧ s'._player = s.getOpponent ∧
      (ep = true → onBoard (t + move.vert (if s._player = player.white then -1 else 1)) ∧
        t + move.vert (if s._player = player.white then -1 else 1) ≠ f) ∧
      ((∀ q, s'.getOccupant q =
          if q = f then some {}
          else if q = t then some (newFlags o (t - f))
          else if ep = true ∧ q = t + move.vert (if s._player = player.white then -1 else 1)
            then some {}
          else s.getOccupant q) ∨
       (ep = false ∧ ∃ (step : Int) (rk : occupant), (step = 1 ∨ step = -1) ∧
          f = ⟨5, homeRank s._player⟩ ∧ t = ⟨5 + 2 * step, homeRank s._player⟩ ∧
          s.getOccupant ⟨rookCorner step, homeRank s._player⟩ = some rk ∧
          rk.piece = piece_type.rook ∧ rk.owner = s._player ∧
          ∀ q, s'.getOccupant q =
            if q = f then some {}
            else if q = t then some (newFlags o (t - f))
            else if q = ⟨rookCorner step, homeRank s._player⟩ then some {}
            else if q = ⟨5 + step, homeRank s._player⟩ then some rk
            else s.getOccupant q)) := by
  have hfb := onBoard_of_occupantAt hf he
  have hg : s.getOccupant f = some o := by
    rw [← occupantAt_of_onBoard s hfb]
    exact hf
  obtain ⟨t0, ep, s1, s2, c, s3, ht0, hep, hr, hs1, hs2, hc, hs3, hs'⟩ := playExecute_decode h
  have key1 : s1._player = s._player ∧
      (∀ q, s1.getOccupant q =
        if ep = true ∧ q = t + move.vert (if s._player = player.white then -1 else 1)
          then some {}
        else s.getOccupant q) ∧
      (ep = true → onBoard (t + move.vert (if s._player = player.white then -1 else 1)) ∧
        t + move.vert (if s._player = player.white then -1 else 1) ≠ f) := by
    by_cases c0 : ep = true
    · rw [if_pos c0] at hs1
      unfold applyEnPassant at hs1
      dsimp only at hs1
      rw [c0] at hep
      unfold isEnPassant at hep
      dsimp only at hep
      obtain ⟨tl, htl, hep⟩ := Option.bind_eq_some.mp hep
      obtain ⟨f0, hf0, hep⟩ := Option.bind_eq_some.mp hep
      simp only [Option.some.injEq, decide_eq_true_eq] at hep
      have hne : t + move.vert (if s._player = player.white then -1 else 1) ≠ f := by
        intro e
        rw [e, hf] at htl
        cases htl
        exact getOpponent_ne s (hep.2.1.symm.trans hown)
      refine ⟨placeOccupant_player hs1, fun q => ?_, fun _ => ⟨onBoard_of_placeOccupant hs1, hne⟩⟩
      rw [getOccupant_placeOccupant hs1]
      by_cases cq : q = t + move.vert (if s._player = player.white then -1 else 1)
      · rw [if_pos cq, if_pos ⟨c0, cq⟩]
      · rw [if_neg cq, if_neg (fun x => cq x.2)]
    · rw [if_neg c0] at hs1
      cases hs1
      refine ⟨rfl, fun q => ?_, fun x => absurd x c0⟩
      rw [if_neg (fun x => c0 x.1)]
  obtain ⟨p1, g1, hv⟩ := key1
  have g1f : s1.getOccupant f = some o := by
    rw [g1]
    by_cases c0 : ep = true
    · rw [if_neg (fun x => (hv c0).2 x.2.symm)]
      exact hg
    · rw [if_neg (fun x => c0 x.1)]
      exact hg
  obtain ⟨s2', hs2', p2, g2⟩ := setFlags_spec s1 t g1f
  rw [hs2] at hs2'
  cases hs2'
  have hpl : s3._player = s._player → s'._player = s.getOpponent := by
    intro e
    rw [hs', swapPlayer_player]
    unfold getOpponent
    rw [e]
  by_cases cc : c = true
  · -- castling
    rw [cc] at hc
    rw [if_pos cc] at hs3
    obtain ⟨step, hstep, ef, et, rk, hrk, hr1, hr2⟩ :=
      isCastling_true hc (valid_of_occupantAt ht0)
    rw [p2, p1] at ef et hrk hr2
    have hgeo : (t - f : move) = move.horiz 2 ∨ (t - f : move) = move.horiz (-2) := by
      rw [ef, et, sub_def]
      unfold move.horiz
      rcases hstep with rfl | rfl
      · left
        norm_num
      · right
        norm_num
    have hpawn := hnp hgeo
    have hepf : ep = false := by
      have := s.isEnPassant_not_pawn t hf hpawn
      rw [hep] at this
      exact Option.some.inj this
    have g1' : ∀ q, s1.getOccupant q = s.getOccupant q := by
      intro q
      rw [g1, if_neg]
      rw [hepf]
      exact fun x => Bool.noConfusion x.1
    have hne_cf : (⟨rookCorner step, homeRank s._player⟩ : position) ≠ f := by
      rw [ef]
      intro e
      simp only [position.mk.injEq, rookCorner] at e
      split at e <;> omega
    have hrk0 : s.getOccupant ⟨rookCorner step, homeRank s._player⟩ = some rk := by
      rw [g2, if_neg hne_cf, g1'] at hrk
      exact hrk
    have hk2 : s2.getOccupant ⟨5, homeRank s._player⟩ = some (newFlags o (t - f)) := by
      rw [← ef, g2, if_pos rfl]
    have hrk2 : s2.getOccupant ⟨rookCorner step, homeRank s._player⟩ = some rk := by
      rw [g2, if_neg hne_cf, g1']
      exact hrk0
    obtain ⟨s5, h5, p5, g5⟩ := s2.makeCastling_frame step hstep s._player hk2 hrk2
    rw [← ef, ← et, hs3] at h5
    cases h5
    have htb : onBoard t := by
      rw [et]
      exact onBoard_homeRank _ (by omega) _
    refine ⟨t0, ep, ht0, hep, hr, htb, hpl (by rw [p5, p2, p1]), hv, Or.inr ⟨hepf, step, rk,
      hstep, ef, et, hrk0, hr1, hr2, fun q => ?_⟩⟩
    rw [hs', getOccupant_swapPlayer, g5, ← ef, ← et]
    by_cases q1 : q = f
    · rw [if_pos q1, if_pos q1]
    rw [if_neg q1, if_neg q1]
    by_cases q2 : q = t
    · rw [if_pos q2, if_pos q2]
    rw [if_neg q2, if_neg q2]
    by_cases q3 : q = ⟨rookCorner step, homeRank s._player⟩
    · rw [if_pos q3, if_pos q3]
    rw [if_neg q3, if_neg q3]
    by_cases q4 : q = ⟨5 + step, homeRank s._player⟩
    · rw [if_pos q4, if_pos q4]
    rw [if_neg q4, if_neg q4, g2, if_neg q1, g1']
  · -- an ordinary move
    rw [if_neg cc] at hs3
    obtain ⟨o', ho', htb, p3, g3⟩ := makeMove_spec hs3
    rw [g2, if_pos rfl] at ho'
    cases ho'
    refine ⟨t0, ep, ht0, hep, hr, htb, hpl (by rw [p3, p2, p1]), hv, Or.inl fun q => ?_⟩
    rw [hs', getOccupant_swapPlayer, g3]
    by_cases q1 : q = f
    · rw [if_pos q1, if_pos q1]
    rw [if_neg q1, if_neg q1]
    by_cases q2 : q = t
    · rw [if_pos q2, if_pos q2]
    rw [if_neg q2, if_neg q2, g2, if_neg q1, g1]

/-- The board after a call of `play` that answers `ok` or `capture`, square by square, in
terms of the board `restartLapses` leaves: the checks the move has passed, the record `o2`
that travels (the mover, after promotion if any), and either an ordinary move, with the en
passant victim removed when `ep` holds, or a castling move. -/
theorem play_accept_frame {s s' : chess} {f t : position} {pr : piece_type} {r : result}
    (h : s.play f t pr = some (r, s')) (hr : r = result.ok ∨ r = result.capture) :
    ∃ (o t0 o2 : occupant) (ep : Bool),
      s.restartLapses.occupantAt f = some o ∧ o.is_empty = false ∧ o.owner = s._player ∧
      s.restartLapses.canMove f t o.piece s._player = some true ∧
      s.restartLapses.isBlocked f t s._player = some false ∧
      (o2 = o ∨ (o.piece = piece_type.pawn ∧ (t.rank = 1 ∨ t.rank = 8) ∧
        pr ≠ piece_type.pawn ∧ o2 = { o with piece := pr })) ∧
      s.restartLapses.occupantAt t = some t0 ∧
      (ep = true → o2.piece = piece_type.pawn ∧
        ∃ vic, s.restartLapses.occupantAt
            (t + move.vert (if s._player = player.white then -1 else 1)) = some vic ∧
          vic.owner = s.getOpponent ∧ vic.canBeLapsed = true ∧
          onBoard (t + move.vert (if s._player = player.white then -1 else 1)) ∧
          t + move.vert (if s._player = player.white then -1 else 1) ≠ f) ∧
      r = (if t0.is_empty = false ∨ ep = true then result.capture else result.ok) ∧
      onBoard f ∧ onBoard t ∧ f ≠ t ∧ s'._player = s.getOpponent ∧
      ((∀ q, s'.getOccupant q =
          if q = f then some {}
          else if q = t then some (newFlags o2 (t - f))
          else if ep = true ∧ q = t + move.vert (if s._player = player.white then -1 else 1)
            then some {}
          else s.restartLapses.getOccupant q) ∨
       (ep = false ∧ o2 = o ∧ o.piece ≠ piece_type.pawn ∧
        ∃ (step : Int) (rk : occupant), (step = 1 ∨ step = -1) ∧
          f = ⟨5, homeRank s._player⟩ ∧ t = ⟨5 + 2 * step, homeRank s._player⟩ ∧
          s.restartLapses.getOccupant ⟨rookCorner step, homeRank s._player⟩ = some rk ∧
          rk.piece = piece_type.rook ∧ rk.owner = s._player ∧
          ∀ q, s'.getOccupant q =
            if q = f then some {}
            else if q = t then some (newFlags o (t - f))
            else if q = ⟨rookCorner step, homeRank s._player⟩ then some {}
            else if q = ⟨5 + step, homeRank s._player⟩ then some rk
            else s.restartLapses.getOccupant q)) := by
  unfold play at h
  obtain ⟨o, ho, he, hown, hcm, hbl, -, hpp⟩ := playChecks_accept h hr
  have hfb := onBoard_of_occupantAt ho he
  have hg : s.restartLapses.getOccupant f = some o := by
    rw [← occupantAt_of_onBoard _ hfb]
    exact ho
  have hft : f ≠ t := by
    intro e
    rw [← e] at hbl
    exact (isBlocked_false hbl hfb (Or.inr hfb) ho).1 ⟨he, hown⟩
  -- a horizontal move is not a pawn's
  have hrank : o.piece = piece_type.pawn → t.rank ≠ f.rank := by
    intro e
    rw [e] at hcm
    exact canMovePawn_rank hcm
  have hvt : valid t := valid_of_isBlocked hbl
  have hgeo : ∀ x : Int, (t - f : move) = move.horiz x → o.piece ≠ piece_type.pawn := by
    intro x e e2
    have := congrArg move.rank e
    rw [sub_of_valid hvt (Or.inr hfb)] at this
    unfold move.horiz at this
    dsimp only at this
    exact hrank e2 (by omega)
  -- the promotion step
  have key : ∃ (o2 : occupant) (s2 : chess),
      (o2 = o ∨ (o.piece = piece_type.pawn ∧ (t.rank = 1 ∨ t.rank = 8) ∧
        pr ≠ piece_type.pawn ∧ o2 = { o with piece := pr })) ∧
      s2.playExecute f t = some (r, s') ∧ s2._player = s._player ∧
      ∀ q, s2.getOccupant q = if q = f then some o2 else s.restartLapses.getOccupant q := by
    unfold playPromote at hpp
    obtain ⟨b, hb, hpp⟩ := Option.bind_eq_some.mp hpp
    unfold isPromote at hb
    rw [ho, Option.map_some', Option.some.injEq] at hb
    by_cases cb : b = true
    · rw [if_pos cb] at hpp
      by_cases cv : isValidPromote pr = false
      · rw [if_pos cv] at hpp
        simp only [Option.some.injEq, Prod.mk.injEq] at hpp
        rcases hr with e | e <;> rw [e] at hpp <;> exact absurd hpp.1 (by decide)
      rw [if_neg cv] at hpp
      obtain ⟨s2, hs2, hx⟩ := Option.bind_eq_some.mp hpp
      unfold applyPromote at hs2
      obtain ⟨s2', hs2', p2, g2⟩ := s.restartLapses.modifyOccupant_isSome hg
        (fun o => { o with piece := pr })
      rw [hs2] at hs2'
      cases hs2'
      rw [cb, decide_eq_true_eq] at hb
      have hv : pr ≠ piece_type.pawn := by
        intro e
        apply cv
        rw [e]
        rfl
      exact ⟨_, s2, Or.inr ⟨hb.1, hb.2, hv, rfl⟩, hx, p2, g2⟩
    · rw [if_neg cb] at hpp
      refine ⟨o, _, Or.inl rfl, hpp, rfl, fun q => ?_⟩
      by_cases cq : q = f
      · rw [if_pos cq, cq]
        exact hg
      · rw [if_neg cq]
  obtain ⟨o2, s2, ho2, hx, p2, g2⟩ := key
  have hf2 : s2.occupantAt f = some o2 := by
    rw [occupantAt_of_onBoard _ hfb, g2, if_pos rfl]
  have he2 : o2.is_empty = false := by
    rcases ho2 with e | ⟨-, -, -, e⟩ <;> rw [e]
    · exact he
    · exact he
  have hown2 : o2.owner = s2._player := by
    rw [p2]
    rcases ho2 with e | ⟨-, -, -, e⟩ <;> rw [e]
    · exact hown
    · exact hown
  have hnp2 : (t - f : move) = move.horiz 2 ∨ (t - f : move) = move.horiz (-2) →
      o2.piece ≠ piece_type.pawn := by
    intro hh
    have : o.piece ≠ piece_type.pawn := hh.elim (hgeo 2) (hgeo (-2))
    rcases ho2 with e | ⟨e1, -⟩
    · rw [e]
      exact this
    · exact absurd e1 this
  obtain ⟨t0, ep, ht0, hep, hr', htb, hpl, hv, hfr⟩ := playExecute_frame hx hf2 he2 hown2 hnp2
  rw [p2] at hv hfr
  have hother : ∀ q, q ≠ f → s2.getOccupant q = s.restartLapses.getOccupant q := by
    intro q hq
    rw [g2, if_neg hq]
  have hat : ∀ q, q ≠ f → s2.occupantAt q = s.restartLapses.occupantAt q := by
    intro q hq
    unfold occupantAt
    rw [hother q hq]
  have ht0' : s.restartLapses.occupantAt t = some t0 := by
    rw [← hat t (Ne.symm hft)]
    exact ht0
  have hpl' : s'._player = s.getOpponent := by
    rw [hpl]
    unfold getOpponent
    rw [p2]
  have hepi : ep = true → o2.piece = piece_type.pawn ∧
      ∃ vic, s.restartLapses.occupantAt
          (t + move.vert (if s._player = player.white then -1 else 1)) = some vic ∧
        vic.owner = s.getOpponent ∧ vic.canBeLapsed = true ∧
        onBoard (t + move.vert (if s._player = player.white then -1 else 1)) ∧
        t + move.vert (if s._player = player.white then -1 else 1) ≠ f := by
    intro e
    rw [e] at hep
    unfold isEnPassant at hep
    rw [p2] at hep
    dsimp only at hep
    obtain ⟨tl, htl, hep⟩ := Option.bind_eq_some.mp hep
    obtain ⟨f0, hf0, hep⟩ := Option.bind_eq_some.mp hep
    rw [hf2] at hf0
    cases hf0
    simp only [Option.some.injEq, decide_eq_true_eq] at hep
    refine ⟨hep.1, tl, ?_, ?_, hep.2.2, (hv e).1, (hv e).2⟩
    · rw [← hat _ (hv e).2]
      exact htl
    · rw [hep.2.1]
      unfold getOpponent
      rw [p2]
  refine ⟨o, t0, o2, ep, ho, he, hown, hcm, hbl, ho2, ht0', hepi, hr', hfb, htb, hft, hpl', ?_⟩
  rcases hfr with hfr | ⟨hepf, step, rk, hstep, ef, et, hrk, hr1, hr2, hfr⟩
  · left
    intro q
    rw [hfr]
    by_cases q1 : q = f
    · rw [if_pos q1, if_pos q1]
    rw [if_neg q1, if_neg q1, hother q q1]
  · right
    have hgeo2 : (t - f : move) = move.horiz (2 * step) := by
      rw [ef, et]
      rcases hstep with rfl | rfl <;> simp [sub_def, move.horiz]
    have hnpawn := hgeo _ hgeo2
    have e2 : o2 = o := by
      rcases ho2 with e | ⟨e1, -⟩
      · exact e
      · exact absurd e1 hnpawn
    have hne_cf : (⟨rookCorner step, homeRank s._player⟩ : position) ≠ f := by
      rw [ef]
      intro e
      simp only [position.mk.injEq, rookCorner] at e
      split at e <;> omega
    refine ⟨hepf, e2, hnpawn, step, rk, hstep, ef, et, ?_, hr1, hr2, fun q => ?_⟩
    · rw [← hother _ hne_cf]
      exact hrk
    · rw [hfr, e2]
      by_cases q1 : q = f
      · rw [if_pos q1, if_pos q1]
      rw [if_neg q1, if_neg q1, hother q q1]

end chess

theorem recordOk_default (q : position) : recordOk q {} := by
  refine ⟨fun _ => rfl, fun h => ?_, fun h => ?_, fun h => ?_⟩
  · cases h
  · cases h
  · cases h

/-- A record with no flag but `didMove` set is `recordOk` on every square, if it is not an
unmoved pawn. -/
theorem recordOk_of_flags {q : position} {o : occupant} (he : o.is_empty = false)
    (h2 : o.didTwoStep = false) (h3 : o.canBeLapsed = false)
    (h4 : o.piece = piece_type.pawn → o.didMove = true) : recordOk q o := by
  refine ⟨fun h => ?_, fun h => ?_, fun h => ?_, fun _ hp hm => ?_⟩
  · rw [he] at h
    cases h
  · rw [h2] at h
    cases h
  · rw [h3] at h
    cases h
  · rw [h4 hp] at hm
    cases hm

theorem recordOk_clearLapse {q : position} {o : occupant} (pl : player) (h : recordOk q o) :
    recordOk q (chess.clearLapse pl o) := by
  unfold chess.clearLapse
  split
  · rename_i hc
    obtain ⟨-, h2, -, h4⟩ := h
    refine ⟨fun h => ?_, h2, fun h => ?_, h4⟩
    · have : o.is_empty = true := h
      rw [hc.1] at this
      cases this
    · cases h
  · exact h

/-- On a pawn's double step the square strictly between `from` and `to` is the one behind
`to`. -/
theorem mem_squaresBetween_vert (f t : position) (p : Int) (hp : p = 1 ∨ p = -1)
    (hm : (t - f : move) = move.vert (2 * p)) (ht : onBoard t) (hf : onBoard f) :
    t + move.vert (-p) ∈ squaresBetween f t ∧ onBoard (t + move.vert (-p)) ∧
      t + move.vert (-p) ≠ t ∧ t + move.vert (-p) ≠ f := by
  obtain ⟨ff, fr⟩ := f
  obtain ⟨tf, tr⟩ := t
  rw [sub_of_valid (Or.inr ht) (Or.inr hf)] at hm
  unfold move.vert at hm
  rw [move.mk.injEq] at hm
  dsimp only at hm
  obtain ⟨h1, h2⟩ := hm
  have e1 : tf = ff := by omega
  have e2 : tr = fr + 2 * p := by omega
  subst e1 e2
  unfold onBoard at ht hf
  dsimp only at ht hf
  have hb : onBoard ⟨tf, fr + p⟩ := by
    unfold onBoard
    dsimp only
    rcases hp with rfl | rfl <;> omega
  have hv : (⟨tf, fr + 2 * p⟩ : position) + move.vert (-p) = ⟨tf, fr + p⟩ :=
    add_eq _ _ _ hb (by simp [move.vert]) (by simp only [move.vert]; omega)
  rw [hv]
  refine ⟨?_, hb, ?_, ?_⟩
  · unfold squaresBetween
    rcases hp with rfl | rfl
    · simp [sub_def, move.directionize, iabs, List.range_succ]
    · simp [sub_def, move.directionize, iabs, List.range_succ]
  · intro e
    rw [position.mk.injEq] at e
    rcases hp with rfl | rfl <;> omega
  · intro e
    rw [position.mk.injEq] at e
    rcases hp with rfl | rfl <;> omega

namespace chess

theorem owner_eq_of_ne_getOpponent {s : chess} {pl : player} (h : pl ≠ s.getOpponent) :
    pl = s._player := by
  obtain ⟨p, board⟩ := s
  cases p <;> cases pl <;> simp [getOpponent] at h ⊢

/-- After `restartLapses`, under the invariant, no record of the side to move has
`canBeLapsed` set. -/
theorem own_not_lapsed {s : chess} (hs : s.flagsOk) {q : position} {o : occupant}
    (h : s.restartLapses.getOccupant q = some o) (hown : o.owner = s._player) :
    o.canBeLapsed = false := by
  rw [getOccupant_restartLapses] at h
  obtain ⟨o0, h0, e⟩ := Option.map_eq_some'.mp h
  subst e
  by_contra hc
  have hc' : (clearLapse s._player o0).canBeLapsed = true := by simpa using hc
  obtain ⟨f1, f2, f3, -, -⟩ := clearLapse_fields s._player o0
  unfold clearLapse at hc'
  by_cases c : o0.is_empty = false ∧ o0.owner = s._player ∧ o0.piece = piece_type.pawn
  · rw [if_pos c] at hc'
    cases hc'
  · rw [if_neg c] at hc'
    obtain ⟨-, h2, h3, -⟩ := hs.1 q o0 h0
    obtain ⟨g1, g2, -⟩ := h2 (h3 hc')
    exact c ⟨g1, f2 ▸ hown, g2⟩

theorem flagsOk_restartLapses {s : chess} (hs : s.flagsOk) : s.restartLapses.flagsOk := by
  constructor
  · intro q o h
    rw [getOccupant_restartLapses] at h
    obtain ⟨o0, h0, e⟩ := Option.map_eq_some'.mp h
    subst e
    exact recordOk_clearLapse _ (hs.1 q o0 h0)
  · intro q o h hc hown
    rw [getOccupant_restartLapses] at h
    obtain ⟨o0, h0, e⟩ := Option.map_eq_some'.mp h
    have e0 : o = o0 := by
      rw [← e]
      unfold clearLapse
      by_cases c : o0.is_empty = false ∧ o0.owner = s._player ∧ o0.piece = piece_type.pawn
      · exfalso
        rw [← e] at hc
        unfold clearLapse at hc
        rw [if_pos c] at hc
        cases hc
      · rw [if_neg c]
    subst e0
    obtain ⟨e1, he1, he2⟩ := hs.2 q o h0 hc hown
    refine ⟨clearLapse s._player e1, ?_, ?_⟩
    · rw [occupantAt_restartLapses, he1]
      rfl
    · rw [(clearLapse_fields s._player e1).1]
      exact he2

/-- The record that an accepted move puts on `to` is `recordOk` there. -/
theorem recordOk_mover {s : chess} {f t : position} {o o2 : occupant} {pl : player}
    {pr : piece_type}
    (hf : s.occupantAt f = some o) (hok : recordOk f o) (he : o.is_empty = false)
    (hown : o.owner = pl) (hl : o.canBeLapsed = false)
    (hcm : s.canMove f t o.piece pl = some true) (ht : valid t)
    (ho2 : o2 = o ∨ (o.piece = piece_type.pawn ∧ (t.rank = 1 ∨ t.rank = 8) ∧
      pr ≠ piece_type.pawn ∧ o2 = { o with piece := pr })) :
    recordOk t (newFlags o2 (t - f)) ∧
      ((newFlags o2 (t - f)).canBeLapsed = true →
        o.piece = piece_type.pawn ∧
          (t - f : move) = move.vert (2 * (if pl = player.white then 1 else -1))) ∧
      (newFlags o2 (t - f)).is_empty = false ∧ (newFlags o2 (t - f)).owner = pl := by
  obtain ⟨-, k2, -, k4⟩ := hok
  by_cases hp : o.piece = piece_type.pawn
  · rw [hp] at hcm
    have hshape := canMovePawn_shape hcm
    have hvf : valid f := Or.inr (onBoard_of_occupantAt hf he)
    have hsub : (t - f : move) = ⟨t.file - f.file, t.rank - f.rank⟩ := sub_of_valid ht hvf
    rcases ho2 with e | ⟨-, hlast, hpr, e⟩
    · -- a pawn that stays a pawn
      subst e
      by_cases c : move.abs (t - f) = move.vert 2
      · have hc := (abs_eq_vert_two hvf ht).mp c
        have hnf : newFlags o2 (t - f)
            = { o2 with didTwoStep := true, canBeLapsed := true, didMove := true } := by
          simp [newFlags, hp, c]
        have hm : (∃ o, s.occupantAt f = some o ∧ o.didMove = false) ∧
            (t - f : move) = move.vert (2 * (if pl = player.white then 1 else -1)) := by
          rcases hshape with h | h | h | h
          · rw [hsub] at h
            unfold move.vert at h
            rw [move.mk.injEq] at h
            exfalso
            split at h <;> omega
          · exact h
          · rw [hsub, move.mk.injEq] at h
            exfalso
            omega
          · rw [hsub, move.mk.injEq] at h
            exfalso
            omega
        obtain ⟨⟨o', ho', hdm⟩, hm⟩ := hm
        rw [hf] at ho'
        cases ho'
        have hfr := k4 he hp hdm
        rw [hnf]
        refine ⟨⟨fun h => ?_, fun _ => ⟨he, hp, ?_⟩, fun _ => rfl, fun _ _ h => ?_⟩,
          fun _ => ⟨hp, hm⟩, he, hown⟩
        · have : o2.is_empty = true := h
          rw [he] at this
          cases this
        · show t.rank = if o2.owner = player.white then 4 else 5
          rw [hsub] at hm
          unfold move.vert at hm
          rw [move.mk.injEq] at hm
          rw [hown] at hfr ⊢
          split at hfr <;> split at hm <;> simp_all <;> omega
        · cases h
      · have hnf : newFlags o2 (t - f) = { o2 with didTwoStep := false, didMove := true } := by
          simp [newFlags, hp, c]
        rw [hnf]
        exact ⟨recordOk_of_flags he rfl hl (fun _ => rfl),
          fun h => absurd (hl ▸ h : false = true) (by decide), he, hown⟩
    · -- a pawn that is promoted
      subst e
      rw [newFlags_not_pawn _ _ hpr]
      refine ⟨recordOk_of_flags he ?_ hl (fun h => absurd h hpr),
        fun h => absurd (hl ▸ h : false = true) (by decide), he, hown⟩
      show o.didTwoStep = false
      by_contra hc
      have hc' : o.didTwoStep = true := by simpa using hc
      obtain ⟨-, -, hrk⟩ := k2 hc'
      rw [hown] at hrk
      rcases hshape with h | ⟨-, h⟩ | h | h <;>
        · rw [hsub] at h
          try unfold move.vert at h
          rw [move.mk.injEq] at h
          split at hrk <;> simp_all <;> omega
  · -- a piece
    have e : o2 = o := by
      rcases ho2 with e | ⟨e1, -⟩
      · exact e
      · exact absurd e1 hp
    subst e
    rw [newFlags_not_pawn _ _ hp]
    refine ⟨recordOk_of_flags he ?_ hl (fun h => absurd h hp),
      fun h => absurd (hl ▸ h : false = true) (by decide), he, hown⟩
    show o2.didTwoStep = false
    by_contra hc
    have hc' : o2.didTwoStep = true := by simpa using hc
    exact hp (k2 hc').2.1

/-- A rook record of the side to move is `recordOk` on every square. -/
theorem recordOk_rook {s : chess} (hs : s.flagsOk) {q q' : position} {rk : occupant}
    (h : s.restartLapses.getOccupant q = some rk) (hr : rk.piece = piece_type.rook) :
    recordOk q' rk := by
  have hp : rk.piece ≠ piece_type.pawn := by
    rw [hr]
    decide
  obtain ⟨k1, k2, k3, -⟩ := (flagsOk_restartLapses hs).1 q rk h
  have he : rk.is_empty = false := by
    by_contra hc
    have hc' : rk.is_empty = true := by simpa using hc
    rw [k1 hc'] at hp
    exact hp rfl
  have h2 : rk.didTwoStep = false := by
    by_contra hc
    have hc' : rk.didTwoStep = true := by simpa using hc
    exact hp (k2 hc').2.1
  have h3 : rk.canBeLapsed = false := by
    by_contra hc
    have hc' : rk.canBeLapsed = true := by simpa using hc
    rw [k3 hc'] at h2
    cases h2
  exact recordOk_of_flags he h2 h3 (fun h => absurd h hp)

/-- The invariant is kept by every call of `play` that returns. -/
theorem flagsOk_play {s s' : chess} {f t : position} {pr : piece_type} {r : result}
    (hs : s.flagsOk) (h : s.play f t pr = some (r, s')) : s'.flagsOk := by
  have hs1 := flagsOk_restartLapses hs
  rcases play_spec h with ⟨-, -, e⟩ | ⟨hr, -⟩
  · rw [e]
    exact hs1
  obtain ⟨o, t0, o2, ep, ho, he, hown, hcm, hbl, ho2, ht0, hep, -, hfb, htb, hft, hpl, hfr⟩ :=
    play_accept_frame h hr.symm
  have hg : s.restartLapses.getOccupant f = some o := by
    rw [← occupantAt_of_onBoard _ hfb]
    exact ho
  have hl := own_not_lapsed hs hg hown
  obtain ⟨hm1, hm2, hm3, hm4⟩ := recordOk_mover ho (hs1.1 f o hg) he hown hl hcm (Or.inr htb) ho2
  have hother : ∀ q o', s.restartLapses.getOccupant q = some o' → o'.owner ≠ s'._player →
      o'.canBeLapsed = false := by
    intro q o' hq hne
    rw [hpl] at hne
    exact own_not_lapsed hs hq (owner_eq_of_ne_getOpponent hne)
  rcases hfr with hfr | ⟨-, e2, hnp, step, rk, hstep, ef, et, hrk, hr1, hr2, hfr⟩
  · -- an ordinary move
    constructor
    · intro q o' hq
      rw [hfr] at hq
      by_cases q1 : q = f
      · rw [if_pos q1] at hq
        cases hq
        exact recordOk_default q
      rw [if_neg q1] at hq
      by_cases q2 : q = t
      · rw [if_pos q2] at hq
        cases hq
        rw [q2]
        exact hm1
      rw [if_neg q2] at hq
      by_cases q3 : ep = true ∧ q = t + move.vert (if s._player = player.white then -1 else 1)
      · rw [if_pos q3] at hq
        cases hq
        exact recordOk_default q
      rw [if_neg q3] at hq
      exact hs1.1 q o' hq
    · intro q o' hq hc hne
      rw [hfr] at hq
      by_cases q1 : q = f
      · rw [if_pos q1] at hq
        cases hq
        cases hc
      rw [if_neg q1] at hq
      by_cases q2 : q = t
      · rw [if_pos q2] at hq
        cases hq
        obtain ⟨hp, hm⟩ := hm2 hc
        have hpp : (if s._player = player.white then (1 : Int) else -1) = 1 ∨
            (if s._player = player.white then (1 : Int) else -1) = -1 := by
          split
          · exact Or.inl rfl
          · exact Or.inr rfl
        obtain ⟨b1, b2, b3, b4⟩ := mem_squaresBetween_vert f t _ hpp hm htb hfb
        have hv : (if (newFlags o2 (t - f)).owner = player.white then (-1 : Int) else 1)
            = -(if s._player = player.white then (1 : Int) else -1) := by
          rw [hm4]
          split <;> rfl
        rw [q2, hv]
        have hstr : (t - f : move).isDiagonal = true ∨ (t - f : move).isStraight = true := by
          right
          rw [hm]
          unfold move.isStraight move.vert
          simp
        have hfree := (isBlocked_false hbl hfb (Or.inr htb) ht0).2 hstr
        have hocc : s.restartLapses.occupied
            (t + move.vert (-(if s._player = player.white then (1 : Int) else -1))) = false := by
          by_contra hx
          have hx' : s.restartLapses.occupied
              (t + move.vert (-(if s._player = player.white then (1 : Int) else -1))) = true := by
            simpa using hx
          have : (squaresBetween f t).any s.restartLapses.occupied = true :=
            List.any_eq_true.mpr ⟨_, b1, hx'⟩
          rw [hfree] at this
          cases this
        obtain ⟨e1, he1⟩ := s.restartLapses.getOccupant_isSome b2
        have he1e : e1.is_empty = true := by
          unfold occupied at hocc
          rw [occupantAt_of_onBoard _ b2, he1] at hocc
          simpa using hocc
        rw [occupantAt_of_onBoard _ b2, hfr, if_neg b4, if_neg b3]
        by_cases q3 : ep = true ∧
            t + move.vert (-(if s._player = player.white then (1 : Int) else -1))
              = t + move.vert (if s._player = player.white then -1 else 1)
        · rw [if_pos q3]
          exact ⟨_, rfl, rfl⟩
        · rw [if_neg q3]
          exact ⟨e1, he1, he1e⟩
      rw [if_neg q2] at hq
      by_cases q3 : ep = true ∧ q = t + move.vert (if s._player = player.white then -1 else 1)
      · rw [if_pos q3] at hq
        cases hq
        cases hc
      rw [if_neg q3] at hq
      rw [hother q o' hq hne] at hc
      cases hc
  · -- castling
    subst e2
    have hnf : newFlags o2 (t - f) = { o2 with didMove := true } := newFlags_not_pawn _ _ hnp
    constructor
    · intro q o' hq
      rw [hfr] at hq
      by_cases q1 : q = f
      · rw [if_pos q1] at hq
        cases hq
        exact recordOk_default q
      rw [if_neg q1] at hq
      by_cases q2 : q = t
      · rw [if_pos q2] at hq
        cases hq
        rw [q2]
        exact hm1
      rw [if_neg q2] at hq
      by_cases q3 : q = ⟨rookCorner step, homeRank s._player⟩
      · rw [if_pos q3] at hq
        cases hq
        exact recordOk_default q
      rw [if_neg q3] at hq
      by_cases q4 : q = ⟨5 + step, homeRank s._player⟩
      · rw [if_pos q4] at hq
        cases hq
        exact recordOk_rook hs hrk hr1
      rw [if_neg q4] at hq
      exact hs1.1 q o' hq
    · intro q o' hq hc hne
      exfalso
      rw [hfr] at hq
      by_cases q1 : q = f
      · rw [if_pos q1] at hq
        cases hq
        cases hc
      rw [if_neg q1] at hq
      by_cases q2 : q = t
      · rw [if_pos q2] at hq
        cases hq
        exact hnp (hm2 hc).1
      rw [if_neg q2] at hq
      by_cases q3 : q = ⟨rookCorner step, homeRank s._player⟩
      · rw [if_pos q3] at hq
        cases hq
        cases hc
      rw [if_neg q3] at hq
      by_cases q4 : q = ⟨5 + step, homeRank s._player⟩
      · rw [if_pos q4] at hq
        cases hq
        rw [hother _ rk hrk hne] at hc
        cases hc
      rw [if_neg q4] at hq
      rw [hother q o' hq hne] at hc
      cases hc

end chess

theorem start_records : ∀ q ∈ position.allPositions, ∀ o ∈ chess.start.getOccupant q,
    recordOk q o ∧ o.canBeLapsed = false := by
  decide

namespace chess

theorem flagsOk_start : start.flagsOk := by
  constructor
  · intro q o h
    exact (start_records q (mem_allPositions (onBoard_of_getOccupant h)) o h).1
  · intro q o h hc
    rw [(start_records q (mem_allPositions (onBoard_of_getOccupant h)) o h).2] at hc
    cases hc

end chess

/-- Every state reached by play satisfies the invariant. -/
theorem reachable_flagsOk {s : chess} (h : Reachable s) : s.flagsOk := by
  induction h with
  | init h0 =>
    rw [new_eq_start] at h0
    cases h0
    exact chess.flagsOk_start
  | step _ _ _ hp ih => exact chess.flagsOk_play ih hp

/-- In a state reached by play a record of kind rook is a piece: the empty squares hold the
default record, of kind pawn.  So there the rook test of `isCastling` only passes on an
occupied corner. -/
theorem reachable_rook_piece {s : chess} (hs : Reachable s) {q : position} {o : occupant}
    (ho : s.getOccupant q = some o) (hr : o.piece = piece_type.rook) : o.is_empty = false := by
  cases he : o.is_empty with
  | false => rfl
  | true =>
    have e := ((reachable_flagsOk hs).1 q o ho).1 he
    rw [e] at hr
    cases hr

theorem allPositions_nodup : position.allPositions.Nodup := by
  decide

theorem length_filter_eq_sum {α : Type} (p : α → Bool) (l : List α) :
    (l.filter p).length = (l.map fun x => if p x = true then 1 else 0).sum := by
  induction l with
  | nil => rfl
  | cons a l ih =>
    rw [List.filter_cons, List.map_cons, List.sum_cons]
    by_cases c : p a = true
    · rw [if_pos c, if_pos c, List.length_cons, ih]
      omega
    · rw [if_neg c, if_neg c, ih]
      omega

namespace chess

theorem weight_of_get {s : chess} {q : position} {o : occupant} (P : occupant → Bool)
    (h : s.getOccupant q = some o) : s.weight P q = if P o = true then 1 else 0 := by
  unfold weight
  rw [h]

/-- A count is the sum of the weights of the 64 squares. -/
theorem countSquares_eq_sum (s : chess) (P : occupant → Bool) :
    s.countSquares P = ∑ q in position.allPositions.toFinset, s.weight P q := by
  unfold countSquares
  rw [length_filter_eq_sum, List.sum_toFinset _ allPositions_nodup]
  refine congrArg List.sum (List.map_congr_left fun q _ => ?_)
  unfold weight
  cases s.getOccupant q with
  | none => rfl
  | some o => rfl

/-- Counts on two boards that differ on the squares of `ch` only. -/
theorem countSquares_change (s s' : chess) (P : occupant → Bool) (ch : Finset position)
    (hch : ∀ q ∈ ch, onBoard q)
    (hframe : ∀ q, q ∉ ch → s'.getOccupant q = s.getOccupant q) :
    s'.countSquares P + ∑ q in ch, s.weight P q
      = s.countSquares P + ∑ q in ch, s'.weight P q := by
  have hsub : ch ⊆ position.allPositions.toFinset := by
    intro q hq
    rw [List.mem_toFinset]
    exact mem_allPositions (hch q hq)
  have hrest : ∑ q in position.allPositions.toFinset \ ch, s'.weight P q
      = ∑ q in position.allPositions.toFinset \ ch, s.weight P q := by
    apply Finset.sum_congr rfl
    intro q hq
    unfold weight
    rw [hframe q (Finset.mem_sdiff.mp hq).2]
  rw [countSquares_eq_sum, countSquares_eq_sum, ← Finset.sum_sdiff hsub,
    ← Finset.sum_sdiff hsub (f := fun q => s.weight P q), hrest]
  omega

/-- A count that looks at `is_empty` and `owner` only is not changed by `restartLapses`. -/
theorem countSquares_restartLapses (s : chess) (P : occupant → Bool)
    (hP : ∀ o o' : occupant, o.is_empty = o'.is_empty → o.owner = o'.owner → P o = P o') :
    s.restartLapses.countSquares P = s.countSquares P := by
  rw [countSquares_eq_sum, countSquares_eq_sum]
  apply Finset.sum_congr rfl
  intro q _
  unfold weight
  rw [getOccupant_restartLapses]
  cases s.getOccupant q with
  | none => rfl
  | some o =>
    obtain ⟨e1, e2, -⟩ := clearLapse_fields s._player o
    simp only [Option.map_some']
    rw [hP _ _ e1 e2]

end chess

/-- One step up or down from an on-board square, when it stays on the board, leads to another
square, from which the opposite step leads back. -/
theorem add_vert_back {t : position} {a : Int} (ha : a = 1 ∨ a = -1) (ht : onBoard t)
    (hv : onBoard (t + move.vert a)) :
    t + move.vert a ≠ t ∧ (t + move.vert a) + move.vert (-a) = t := by
  obtain ⟨tf, tr⟩ := t
  have e : (⟨tf, tr⟩ : position) + move.vert a = ⟨tf, tr + a⟩ := by
    rcases valid_add ⟨tf, tr⟩ (move.vert a) with h | h
    · rw [h] at hv
      exact absurd hv (by decide)
    · rw [add_def] at h ⊢
      unfold position.add at h ⊢
      unfold move.vert at h ⊢
      dsimp only at h ⊢
      split
      · rename_i hc
        rw [if_pos hc] at h
        exact absurd h (by decide)
      · unfold onBoard at ht
        dsimp only at ht
        rw [wrapInt_of_range (by omega) (by omega),
          wrapInt_of_range (by rcases ha with rfl | rfl <;> omega)
            (by rcases ha with rfl | rfl <;> omega), Int.add_zero]
  rw [e]
  constructor
  · intro h
    rw [position.mk.injEq] at h
    rcases ha with rfl | rfl <;> omega
  · exact add_eq _ _ _ ht (by simp [move.vert]) (by simp [move.vert])

/-- On a castling move the square strictly between `from` and `to` is the one the rook
lands on. -/
theorem mem_squaresBetween_horiz (h0 step : Int) (hstep : step = 1 ∨ step = -1) :
    (⟨5 + step, h0⟩ : position) ∈ squaresBetween ⟨5, h0⟩ ⟨5 + 2 * step, h0⟩ := by
  unfold squaresBetween
  rcases hstep with rfl | rfl
  · simp [sub_def, move.directionize, iabs, List.range_succ]
  · simp [sub_def, move.directionize, iabs, List.range_succ]

namespace chess

/-- What an accepted call of `play` removes from the board: under the invariant there is one
record `x`, empty when the answer is `ok` and a piece of the opponent when it is `capture`,
such that every count that looks at `is_empty` and `owner` only goes down by the weight of
`x`. -/
theorem count_play {s s' : chess} {f t : position} {pr : piece_type} {r : result}
    (hs : s.flagsOk) (h : s.play f t pr = some (r, s'))
    (hr : r = result.ok ∨ r = result.capture) :
    ∃ x : occupant, (r = result.ok → x.is_empty = true) ∧
      (r = result.capture → x.is_empty = false ∧ x.owner = s.getOpponent) ∧
      ∀ P : occupant → Bool, (∀ o, o.is_empty = true → P o = false) →
        (∀ o o' : occupant, o.is_empty = o'.is_empty → o.owner = o'.owner → P o = P o') →
        s'.countSquares P + (if P x = true then 1 else 0) = s.countSquares P := by
  have hs1 := flagsOk_restartLapses hs
  obtain ⟨o, t0, o2, ep, ho, he, hown, hcm, hbl, ho2, ht0, hep, hres, hfb, htb, hft, -, hfr⟩ :=
    play_accept_frame h hr
  have hg : s.restartLapses.getOccupant f = some o := by
    rw [← occupantAt_of_onBoard _ hfb]
    exact ho
  have hgt : s.restartLapses.getOccupant t = some t0 := by
    rw [← occupantAt_of_onBoard _ htb]
    exact ht0
  have hl := own_not_lapsed hs hg hown
  obtain ⟨-, -, hm3, hm4⟩ := recordOk_mover ho (hs1.1 f o hg) he hown hl hcm (Or.inr htb) ho2
  have hnot := (isBlocked_false hbl hfb (Or.inr htb) ht0).1
  -- the record on `to`, when the answer depends on it alone
  have target : ep = false → (r = result.ok → t0.is_empty = true) ∧
      (r = result.capture → t0.is_empty = false ∧ t0.owner = s.getOpponent) := by
    intro e
    rw [e] at hres
    by_cases c : t0.is_empty = false
    · rw [if_pos (Or.inl c)] at hres
      refine ⟨fun h => ?_, fun _ => ⟨c, eq_getOpponent_of_ne fun h => hnot ⟨c, h⟩⟩⟩
      rw [hres] at h
      cases h
    · rw [if_neg (fun h => h.elim c (fun h => Bool.noConfusion h))] at hres
      refine ⟨fun _ => by simpa using c, fun h => ?_⟩
      rw [hres] at h
      cases h
  have wmover : ∀ P : occupant → Bool,
      (∀ o o' : occupant, o.is_empty = o'.is_empty → o.owner = o'.owner → P o = P o') →
      P (newFlags o2 (t - f)) = P o := fun P hP =>
    hP _ _ (hm3.trans he.symm) (hm4.trans hown.symm)
  rcases hfr with hfr | ⟨hepf, e2, hnp, step, rk, hstep, ef, et, hrk, hr1, hr2, hfr⟩
  · by_cases cep : ep = true
    · -- en passant
      obtain ⟨-, vic, hvic, hvo, hvl, hvb, hvf⟩ := hep cep
      have hpp : (if s._player = player.white then (-1 : Int) else 1) = 1 ∨
          (if s._player = player.white then (-1 : Int) else 1) = -1 := by
        split
        · exact Or.inr rfl
        · exact Or.inl rfl
      obtain ⟨hvt, hback⟩ := add_vert_back hpp htb hvb
      have hgv : s.restartLapses.getOccupant
          (t + move.vert (if s._player = player.white then -1 else 1)) = some vic := by
        rw [← occupantAt_of_onBoard _ hvb]
        exact hvic
      have hvne : vic.owner ≠ s.restartLapses._player := by
        rw [hvo]
        exact getOpponent_ne s
      obtain ⟨e, he1, he2⟩ := hs1.2 _ vic hgv hvl hvne
      have hdir : (if vic.owner = player.white then (-1 : Int) else 1)
          = -(if s._player = player.white then (-1 : Int) else 1) := by
        rw [hvo]
        unfold getOpponent
        split <;> simp
      rw [hdir, hback, ht0] at he1
      cases he1
      obtain ⟨-, k2, k3, -⟩ := hs1.1 _ vic hgv
      have hve : vic.is_empty = false := (k2 (k3 hvl)).1
      have hcap : r = result.capture := by
        rw [hres, if_pos (Or.inr cep)]
      refine ⟨vic, fun h => ?_, fun _ => ⟨hve, hvo⟩, fun P hP1 hP2 => ?_⟩
      · rw [hcap] at h
        cases h
      have hch := countSquares_change s.restartLapses s' P
        {f, t, t + move.vert (if s._player = player.white then -1 else 1)}
        (by
          intro q hq
          simp only [Finset.mem_insert, Finset.mem_singleton] at hq
          rcases hq with rfl | rfl | rfl
          · exact hfb
          · exact htb
          · exact hvb)
        (by
          intro q hq
          simp only [Finset.mem_insert, Finset.mem_singleton, not_or] at hq
          rw [hfr, if_neg hq.1, if_neg hq.2.1, if_neg (fun x => hq.2.2 x.2)])
      have n1 : f ∉ ({t, t + move.vert (if s._player = player.white then -1 else 1)} :
          Finset position) := by
        simp only [Finset.mem_insert, Finset.mem_singleton, not_or]
        exact ⟨hft, Ne.symm hvf⟩
      have n2 : t ∉ ({t + move.vert (if s._player = player.white then -1 else 1)} :
          Finset position) := by
        simp only [Finset.mem_singleton]
        exact Ne.symm hvt
      rw [Finset.sum_insert n1, Finset.sum_insert n2, Finset.sum_singleton,
        Finset.sum_insert n1, Finset.sum_insert n2, Finset.sum_singleton,
        weight_of_get P hg, weight_of_get P hgt, weight_of_get P hgv,
        weight_of_get P (show s'.getOccupant f = some {} by rw [hfr, if_pos rfl]),
        weight_of_get P (show s'.getOccupant t = some (newFlags o2 (t - f)) by
          rw [hfr, if_neg (Ne.symm hft), if_pos rfl]),
        weight_of_get P (show s'.getOccupant
            (t + move.vert (if s._player = player.white then -1 else 1)) = some {} by
          rw [hfr, if_neg hvf, if_neg hvt, if_pos ⟨cep, rfl⟩]),
        wmover P hP2, hP1 _ he2, hP1 {} rfl, countSquares_restartLapses s P hP2] at hch
      simp only [Bool.false_eq_true, if_false] at hch
      omega
    · -- an ordinary move
      have cep' : ep = false := by simpa using cep
      obtain ⟨x1, x2⟩ := target cep'
      refine ⟨t0, x1, x2, fun P hP1 hP2 => ?_⟩
      have hch := countSquares_change s.restartLapses s' P {f, t}
        (by
          intro q hq
          simp only [Finset.mem_insert, Finset.mem_singleton] at hq
          rcases hq with rfl | rfl
          · exact hfb
          · exact htb)
        (by
          intro q hq
          simp only [Finset.mem_insert, Finset.mem_singleton, not_or] at hq
          rw [hfr, if_neg hq.1, if_neg hq.2, if_neg (fun x => cep x.1)])
      rw [Finset.sum_pair hft, Finset.sum_pair hft,
        weight_of_get P hg, weight_of_get P hgt,
        weight_of_get P (show s'.getOccupant f = some {} by rw [hfr, if_pos rfl]),
        weight_of_get P (show s'.getOccupant t = some (newFlags o2 (t - f)) by
          rw [hfr, if_neg (Ne.symm hft), if_pos rfl]),
        wmover P hP2, hP1 {} rfl, countSquares_restartLapses s P hP2] at hch
      simp only [Bool.false_eq_true, if_false] at hch
      omega
  · -- castling
    subst e2
    obtain ⟨x1, x2⟩ := target hepf
    refine ⟨t0, x1, x2, fun P hP1 hP2 => ?_⟩
    have hcb : onBoard ⟨rookCorner step, homeRank s._player⟩ :=
      onBoard_homeRank _ (by unfold rookCorner; split <;> omega) _
    have hdb : onBoard ⟨5 + step, homeRank s._player⟩ := onBoard_homeRank _ (by omega) _
    have hstr : (t - f : move).isDiagonal = true ∨ (t - f : move).isStraight = true := by
      right
      rw [ef, et, sub_def]
      unfold move.isStraight
      simp
    have hfree := (isBlocked_false hbl hfb (Or.inr htb) ht0).2 hstr
    have hmem := mem_squaresBetween_horiz (homeRank s._player) step hstep
    rw [← ef, ← et] at hmem
    obtain ⟨d0, hd0⟩ := s.restartLapses.getOccupant_isSome hdb
    have hd0e : d0.is_empty = true := by
      by_contra hx
      have hx' : s.restartLapses.occupied ⟨5 + step, homeRank s._player⟩ = true := by
        unfold occupied
        rw [occupantAt_of_onBoard _ hdb, hd0]
        simpa using hx
      have : (squaresBetween f t).any s.restartLapses.occupied = true :=
        List.any_eq_true.mpr ⟨_, hmem, hx'⟩
      rw [hfree] at this
      cases this
    have c_f : (⟨rookCorner step, homeRank s._player⟩ : position) ≠ f := by
      rw [ef]
      intro e
      simp only [position.mk.injEq, rookCorner] at e
      split at e <;> omega
    have c_t : (⟨rookCorner step, homeRank s._player⟩ : position) ≠ t := by
      rw [et]
      intro e
      simp only [position.mk.injEq, rookCorner] at e
      split at e <;> omega
    have d_f : (⟨5 + step, homeRank s._player⟩ : position) ≠ f := by
      rw [ef]
      intro e
      simp only [position.mk.injEq] at e
      omega
    have d_t : (⟨5 + step, homeRank s._player⟩ : position) ≠ t := by
      rw [et]
      intro e
      simp only [position.mk.injEq] at e
      omega
    have d_c : (⟨5 + step, homeRank s._player⟩ : position)
        ≠ ⟨rookCorner step, homeRank s._player⟩ := by
      intro e
      simp only [position.mk.injEq, rookCorner] at e
      split at e <;> omega
    have hch := countSquares_change s.restartLapses s' P
      {f, t, ⟨rookCorner step, homeRank s._player⟩, ⟨5 + step, homeRank s._player⟩}
      (by
        intro q hq
        simp only [Finset.mem_insert, Finset.mem_singleton] at hq
        rcases hq with rfl | rfl | rfl | rfl
        · exact hfb
        · exact htb
        · exact hcb
        · exact hdb)
      (by
        intro q hq
        simp only [Finset.mem_insert, Finset.mem_singleton, not_or] at hq
        rw [hfr, if_neg hq.1, if_neg hq.2.1, if_neg hq.2.2.1, if_neg hq.2.2.2])
    have n1 : f ∉ ({t, ⟨rookCorner step, homeRank s._player⟩,
        ⟨5 + step, homeRank s._player⟩} : Finset position) := by
      simp only [Finset.mem_insert, Finset.mem_singleton, not_or]
      exact ⟨hft, Ne.symm c_f, Ne.symm d_f⟩
    have n2 : t ∉ ({⟨rookCorner step, homeRank s._player⟩,
        ⟨5 + step, homeRank s._player⟩} : Finset position) := by
      simp only [Finset.mem_insert, Finset.mem_singleton, not_or]
      exact ⟨Ne.symm c_t, Ne.symm d_t⟩
    have n3 : (⟨rookCorner step, homeRank s._player⟩ : position)
        ∉ ({⟨5 + step, homeRank s._player⟩} : Finset position) := by
      simp only [Finset.mem_singleton]
      exact Ne.symm d_c
    rw [Finset.sum_insert n1, Finset.sum_insert n2, Finset.sum_insert n3, Finset.sum_singleton,
      Finset.sum_insert n1, Finset.sum_insert n2, Finset.sum_insert n3, Finset.sum_singleton,
      weight_of_get P hg, weight_of_get P hgt, weight_of_get P hrk, weight_of_get P hd0,
      weight_of_get P (show s'.getOccupant f = some {} by rw [hfr, if_pos rfl]),
      weight_of_get P (show s'.getOccupant t = some (newFlags o2 (t - f)) by
        rw [hfr, if_neg (Ne.symm hft), if_pos rfl]),
      weight_of_get P (show s'.getOccupant ⟨rookCorner step, homeRank s._player⟩ = some {} by
        rw [hfr, if_neg c_f, if_neg c_t, if_pos rfl]),
      weight_of_get P (show s'.getOccupant ⟨5 + step, homeRank s._player⟩ = some rk by
        rw [hfr, if_neg d_f, if_neg d_t, if_neg d_c, if_pos rfl]),
      wmover P hP2, hP1 _ hd0e, hP1 {} rfl, countSquares_restartLapses s P hP2] at hch
    simp only [Bool.false_eq_true, if_false] at hch
    omega

end chess

/-- A sequence of calls with on-board positions leads from a reachable state to a reachable
state. -/
theorem reachable_playAll {s : chess} (hs : Reachable s) :
    ∀ (moves : List (position × position × piece_type)) (rs : List result) (s' : chess),
      (∀ m ∈ moves, onBoard m.1 ∧ onBoard m.2.1) →
      s.playAll moves = some (rs, s') → Reachable s' := by
  intro moves
  induction moves generalizing s with
  | nil =>
    intro rs s' _ h
    simp only [chess.playAll, Option.some.injEq, Prod.mk.injEq] at h
    rw [← h.2]
    exact hs
  | cons m rest ih =>
    intro rs s' hm h
    obtain ⟨f, t, pr⟩ := m
    unfold chess.playAll at h
    obtain ⟨⟨r, s1⟩, h1, h2⟩ := Option.bind_eq_some.mp h
    obtain ⟨⟨rs1, s2⟩, h3, h4⟩ := Option.map_eq_some'.mp h2
    simp only [Prod.mk.injEq] at h4
    rw [← h4.2]
    have hb := hm (f, t, pr) (List.mem_cons_self _ _)
    exact ih (Reachable.step hs hb.1 hb.2 h1) rs1 s2
      (fun m hm' => hm m (List.mem_cons_of_mem _ hm')) h3

/-- The state after a sequence of calls with on-board positions is reachable. -/
theorem reachable_after (moves : List (position × position × piece_type))
    (hm : ∀ m ∈ moves, onBoard m.1 ∧ onBoard m.2.1) : Reachable (chess.after moves) := by
  have h0 : Reachable chess.start := Reachable.init new_eq_start
  unfold chess.after
  cases h : chess.start.playAll moves with
  | none => exact h0
  | some x =>
    obtain ⟨rs, s'⟩ := x
    exact reachable_playAll h0 moves rs s' hm h

/-! ## The claims -/

section Claims

open chess

set_option maxHeartbeats 4000000

/-- C1, as amended.  When `play` answers anything other than `ok` or `capture`, the state
after the call is the state before it with `canBeLapsed` cleared on the pawns of the side to
move (the effect of `restartLapses`, the first statement of `play`): the side to move and
every other field of every one of the 64 records are unchanged. -/
theorem play_reject_frame (s s' : chess) (from' to' : position) (promote : piece_type)
    (r : result) (h : s.play from' to' promote = some (r, s'))
    (hok : r ≠ result.ok) (hcap : r ≠ result.capture) :
    s' = s.restartLapses := by
  rcases chess.play_spec h with ⟨-, -, e⟩ | ⟨h1 | h1, -⟩
  · exact e
  · exact absurd h1 hcap
  · exact absurd h1 hok

/-- Witness for C1 (amended): on the initial position `play({1,7},{1,6})` is rejected with
`bad_piece` and leaves the state that `restartLapses` made. -/
theorem play_reject_frame_witness :
    ∃ s', start.play ⟨1, 7⟩ ⟨1, 6⟩ = some (result.bad_piece, s') ∧ s' = start.restartLapses := by
  obtain ⟨s', h⟩ := exists_of_map_fst
    (by decide! : (start.play ⟨1, 7⟩ ⟨1, 6⟩).map Prod.fst = some result.bad_piece)
  exact ⟨s', h, play_reject_frame _ _ _ _ _ _ h (by decide) (by decide)⟩

/-- Counterexample to C1 as stated.  After `play({1,2},{1,4})` and `play({1,7},{1,6})` (both
`ok`), the call `play({1,6},{1,5})` is rejected with `bad_piece`, and yet the record of the
white pawn on `{1,4}` changes: its `canBeLapsed` was true before the call and is false after
it. -/
theorem play_reject_changes_board :
    ((after [ply 1 2 1 4, ply 1 7 1 6]).play ⟨1, 6⟩ ⟨1, 5⟩).map
        (fun r => (r.1, r.2.occupantAt ⟨1, 4⟩))
      = some (result.bad_piece,
          some (occupant.mk false player.white piece_type.pawn true true false)) ∧
    (after [ply 1 2 1 4, ply 1 7 1 6]).occupantAt ⟨1, 4⟩
      = some (occupant.mk false player.white piece_type.pawn true true true) ∧
    (start.playAll [ply 1 2 1 4, ply 1 7 1 6]).map Prod.fst = some [result.ok, result.ok] := by
  decide!

/-- C2, as amended.  On every state and for on-board `from` and `to`: whenever `wouldCheck`
returns, the state (all 64 records and the side to move) is the one it started from; and it
does return, with that state, unless the en-passant branch is taken with `to` on rank 1 or
rank 8. -/
theorem wouldCheck_restores (s : chess) (from' to' : position)
    (hf : onBoard from') (ht : onBoard to') :
    (∀ b s', s.wouldCheck from' to' = some (b, s') → s' = s) ∧
      (¬ (s.isEnPassant from' to' = some true ∧ (to'.rank = 1 ∨ to'.rank = 8)) →
        ∃ b, s.wouldCheck from' to' = some (b, s)) := by
  refine ⟨fun b s' h => chess.wouldCheck_state h, fun h => ?_⟩
  obtain ⟨⟨b, s'⟩, hr⟩ := s.wouldCheck_isSome hf ht h
  have e := chess.wouldCheck_state hr
  subst e
  exact ⟨b, hr⟩

/-- Witness for C2 (amended): on the initial position the simulation of `{5,2}` to `{5,4}`
returns and leaves the initial position. -/
theorem wouldCheck_restores_witness :
    onBoard ⟨5, 2⟩ ∧ onBoard ⟨5, 4⟩ ∧ ∃ b, start.wouldCheck ⟨5, 2⟩ ⟨5, 4⟩ = some (b, start) :=
  ⟨by decide, by decide,
    (wouldCheck_restores start ⟨5, 2⟩ ⟨5, 4⟩ (by decide) (by decide)).2 (by decide!)⟩

/-- Counterexample to C2 as stated.  In the state `flaggedOnRank7` (white to move, the black
pawn on `{3,7}` flagged `canBeLapsed`), with `from = {2,7}` (a pawn) and `to = {3,8}`, both on
the board, `isEnPassant` holds, the square above `to` is the sentinel `{0,0}`, a write there
is outside the grid, and so `wouldCheck` does not return a state at all. -/
theorem wouldCheck_leaves_grid :
    onBoard ⟨2, 7⟩ ∧ onBoard ⟨3, 8⟩ ∧
    flaggedOnRank7.occupantAt ⟨3, 7⟩
      = some (occupant.mk false player.black piece_type.pawn false true true) ∧
    flaggedOnRank7.isEnPassant ⟨2, 7⟩ ⟨3, 8⟩ = some true ∧
    (⟨3, 8⟩ : position) + move.vert 1 = {} ∧
    (flaggedOnRank7.placeOccupant {} {}).isSome = false ∧
    (flaggedOnRank7.wouldCheck ⟨2, 7⟩ ⟨3, 8⟩).map Prod.fst = none := by
  decide!

/-- C3.  After a call of `play` that answers `ok` or `capture` the side to move is the
opponent of the player who was to move; after any other answer it is unchanged. -/
theorem play_turn (s s' : chess) (from' to' : position) (promote : piece_type) (r : result)
    (h : s.play from' to' promote = some (r, s')) :
    ((r = result.ok ∨ r = result.capture) →
        s'._player = s.getOpponent ∧ s'._player ≠ s._player) ∧
      (¬ (r = result.ok ∨ r = result.capture) → s'._player = s._player) := by
  have hne : s.getOpponent ≠ s._player := by
    unfold chess.getOpponent
    split
    · rename_i hw
      rw [hw]
      decide
    · rename_i hw
      exact fun e => hw e.symm
  rcases chess.play_spec h with ⟨h1, h2, e⟩ | ⟨h1, h2⟩
  · constructor
    · rintro (h3 | h3)
      · exact absurd h3 h1
      · exact absurd h3 h2
    · intro _
      rw [e]
      rfl
  · constructor
    · intro _
      exact ⟨h2, by rw [h2]; exact hne⟩
    · intro h3
      exact absurd (Or.symm h1) h3

/-- Witness for C3: on the initial position `play({5,2},{5,4})` answers `ok` and black is to
move afterwards. -/
theorem play_turn_witness :
    ∃ s', start.play ⟨5, 2⟩ ⟨5, 4⟩ = some (result.ok, s') ∧ s'._player = player.black := by
  obtain ⟨s', h⟩ := exists_of_map_fst
    (by decide! : (start.play ⟨5, 2⟩ ⟨5, 4⟩).map Prod.fst = some result.ok)
  exact ⟨s', h, ((play_turn _ _ _ _ _ _ h).1 (Or.inl rfl)).1⟩

/-- C4.  En passant capture: when `from` holds a pawn of the side to move, `to` is one step
diagonally forward (`d` is the file step), empty and not on the last rank, the square behind
`to` holds an opponent pawn with `didTwoStep` and `canBeLapsed` both true, and the simulated
move (`wouldCheck`, run as `play` runs it, after `restartLapses`) does not leave the mover in
check, then `play` answers `capture`; afterwards `to` holds the capturing pawn (moved, flags
cleared), and `from` and the square of the captured pawn hold the default empty record. -/
theorem en_passant_capture (s : chess) (from' to' : position) (promote : piece_type)
    (pawn target victim : occupant) (d : Int)
    (hd : d = 1 ∨ d = -1)
    (hto : to' = ⟨from'.file + d, from'.rank + (if s._player = player.white then 1 else -1)⟩)
    (hfrom : s.occupantAt from' = some pawn) (hp1 : pawn.is_empty = false)
    (hp2 : pawn.owner = s._player) (hp3 : pawn.piece = piece_type.pawn)
    (htarget : s.occupantAt to' = some target) (ht1 : target.is_empty = true)
    (hlast : to'.rank ≠ (if s._player = player.white then 8 else 1))
    (hvictim : s.occupantAt ⟨to'.file, from'.rank⟩ = some victim)
    (hv1 : victim.is_empty = false) (hv2 : victim.owner = s.getOpponent)
    (_hv3 : victim.piece = piece_type.pawn) (hv4 : victim.didTwoStep = true)
    (hv5 : victim.canBeLapsed = true)
    (hsafe : (s.restartLapses.wouldCheck from' to').map Prod.fst = some false) :
    ∃ s', s.play from' to' promote = some (result.capture, s') ∧
      s'.occupantAt to' =
        some { pawn with didMove := true, didTwoStep := false, canBeLapsed := false } ∧
      s'.occupantAt from' = some {} ∧
      s'.occupantAt ⟨to'.file, from'.rank⟩ = some {} := by
  obtain ⟨ff, fr⟩ := from'
  subst hto
  dsimp only at *
  have hvb := chess.onBoard_of_occupantAt hvictim hv1
  have hfb := chess.onBoard_of_occupantAt hfrom hp1
  have htb : onBoard ⟨ff + d, fr + (if s._player = player.white then 1 else -1)⟩ := by
    refine chess.onBoard_of_occupantAt_file htarget ?_
    unfold onBoard at hvb
    dsimp only at hvb ⊢
    omega
  have hfrom1 := chess.occupantAt_restartLapses s ⟨ff, fr⟩
  have hto1 := chess.occupantAt_restartLapses s
    ⟨ff + d, fr + (if s._player = player.white then 1 else -1)⟩
  have hvic1 := chess.occupantAt_restartLapses s ⟨ff + d, fr⟩
  rw [hfrom] at hfrom1
  rw [htarget] at hto1
  rw [hvictim] at hvic1
  have hvo : victim.owner ≠ s._player := by
    rw [hv2]
    exact s.getOpponent_ne
  simp only [Option.map_some', chess.clearLapse, hp1, hp2, hp3, ht1, hv1, hvo, and_self,
    if_true, Bool.true_eq_false, false_and, if_false, and_false] at hfrom1 hto1 hvic1
  obtain ⟨s', h1, -, h3⟩ := chess.playChecks_enPassant s.restartLapses ff fr d promote _ target
    victim hd hfrom1 rfl rfl rfl hto1 ht1 hlast hvic1 hv1 hv2 hv4 hv5 hsafe
  simp only [chess.restartLapses_player] at h1 h3
  obtain ⟨pe, po, pp, pdm, pdt, pcl⟩ := pawn
  dsimp only at hp1 hp2 hp3 h3
  subst hp1 hp2 hp3
  have hb' : ∀ q, onBoard q → s'.occupantAt q = s'.getOccupant q :=
    fun q hq => chess.occupantAt_of_onBoard s' hq
  refine ⟨s', h1, ?_, ?_, ?_⟩
  · rw [hb' _ htb, h3]
    have hne3 : (⟨ff + d, fr + (if s._player = player.white then 1 else -1)⟩ : position)
        ≠ ⟨ff, fr⟩ := by
      intro e
      simp only [position.mk.injEq] at e
      omega
    rw [if_neg hne3, if_pos rfl]
  · rw [hb' _ hfb, h3]
    simp
  · rw [hb' _ hvb, h3]
    have hne1 : (⟨ff + d, fr⟩ : position) ≠ ⟨ff, fr⟩ := by
      intro e
      simp only [position.mk.injEq] at e
      omega
    have hne2 : (⟨ff + d, fr⟩ : position)
        ≠ ⟨ff + d, fr + (if s._player = player.white then 1 else -1)⟩ := by
      intro e
      simp only [position.mk.injEq] at e
      split at e <;> omega
    simp [hne1, hne2]

/-- Witness for C4: the position of `test_enpassant` (`{4,2}` to `{4,4}`, `{1,7}` to `{1,6}`,
`{4,4}` to `{4,5}`, `{3,7}` to `{3,5}`), in which `play({4,5},{3,6})` answers `capture`. -/
theorem en_passant_capture_witness :
    (start.playAll [ply 4 2 4 4, ply 1 7 1 6, ply 4 4 4 5, ply 3 7 3 5]).map Prod.fst
      = some [result.ok, result.ok, result.ok, result.ok] ∧
    ∃ s', (after [ply 4 2 4 4, ply 1 7 1 6, ply 4 4 4 5, ply 3 7 3 5]).play ⟨4, 5⟩ ⟨3, 6⟩
        = some (result.capture, s') ∧
      s'.occupantAt ⟨3, 6⟩ = some (occupant.mk false player.white piece_type.pawn true false false) ∧
      s'.occupantAt ⟨4, 5⟩ = some {} ∧ s'.occupantAt ⟨3, 5⟩ = some {} :=
  (fun H =>
    have h1 := And.right H
    have h2 := And.right h1
    have h3 := And.right h2
    have h4 := And.right h3
    have h5 := And.right h4
    have h6 := And.right h5
    have h7 := And.right h6
    have h8 := And.right h7
    ⟨And.left H,
      en_passant_capture (after [ply 4 2 4 4, ply 1 7 1 6, ply 4 4 4 5, ply 3 7 3 5])
        ⟨4, 5⟩ ⟨3, 6⟩ piece_type.pawn
        (occupant.mk false player.white piece_type.pawn true false false)
        {}
        (occupant.mk false player.black piece_type.pawn true true true)
        (-1) (by decide) (And.left h1) (And.left h2) (by decide) (And.left h3) (by decide)
        (And.left h4) (by decide) (And.left h5) (And.left h6) (by decide) (And.left h7) (by decide)
        (by decide) (by decide) h8⟩) (by decide!)

/-- C5.  Lapsed en passant: when `from` holds a pawn of the side to move, `to` is one step
diagonally forward (`d` is the file step) and empty, and the square behind `to` holds an
opponent pawn with `didTwoStep` true and `canBeLapsed` false, then `play` answers `lapsed`
(and leaves the state that `restartLapses` made). -/
theorem lapsed_en_passant (s : chess) (from' to' : position) (promote : piece_type)
    (pawn target victim : occupant) (d : Int)
    (hd : d = 1 ∨ d = -1)
    (hto : to' = ⟨from'.file + d, from'.rank + (if s._player = player.white then 1 else -1)⟩)
    (hfrom : s.occupantAt from' = some pawn) (hp1 : pawn.is_empty = false)
    (hp2 : pawn.owner = s._player) (hp3 : pawn.piece = piece_type.pawn)
    (htarget : s.occupantAt to' = some target) (ht1 : target.is_empty = true)
    (hvictim : s.occupantAt ⟨to'.file, from'.rank⟩ = some victim)
    (hv1 : victim.is_empty = false) (hv2 : victim.owner = s.getOpponent)
    (_hv3 : victim.piece = piece_type.pawn) (hv4 : victim.didTwoStep = true)
    (hv5 : victim.canBeLapsed = false) :
    s.play from' to' promote = some (result.lapsed, s.restartLapses) := by
  obtain ⟨ff, fr⟩ := from'
  subst hto
  dsimp only at *
  have hfrom1 := chess.occupantAt_restartLapses s ⟨ff, fr⟩
  have hto1 := chess.occupantAt_restartLapses s
    ⟨ff + d, fr + (if s._player = player.white then 1 else -1)⟩
  have hvic1 := chess.occupantAt_restartLapses s ⟨ff + d, fr⟩
  rw [hfrom] at hfrom1
  rw [htarget] at hto1
  rw [hvictim] at hvic1
  have hvo : victim.owner ≠ s._player := by
    rw [hv2]
    exact s.getOpponent_ne
  simp only [Option.map_some', chess.clearLapse, hp1, hp2, hp3, ht1, hv1, hvo, and_self,
    if_true, Bool.true_eq_false, false_and, if_false, and_false] at hfrom1 hto1 hvic1
  exact chess.playChecks_lapsed s.restartLapses ff fr d promote _ target
    victim hd hfrom1 rfl rfl rfl hto1 ht1 hvic1 hv1 hv2 hv4 hv5

/-- Witness for C5, the instance the claim names: from the initial position the black pawn
double-steps to `{3,5}` next to the white pawn on `{4,5}`, one further round is played
(`{8,2}` to `{8,3}`, `{8,7}` to `{8,6}`), and the en passant attempt `play({4,5},{3,6})` then
answers `lapsed`. -/
theorem lapsed_en_passant_witness :
    (start.playAll [ply 4 2 4 4, ply 1 7 1 6, ply 4 4 4 5, ply 3 7 3 5, ply 8 2 8 3,
        ply 8 7 8 6]).map Prod.fst
      = some [result.ok, result.ok, result.ok, result.ok, result.ok, result.ok] ∧
    (after [ply 4 2 4 4, ply 1 7 1 6, ply 4 4 4 5, ply 3 7 3 5, ply 8 2 8 3,
        ply 8 7 8 6]).play ⟨4, 5⟩ ⟨3, 6⟩
      = some (result.lapsed, (after [ply 4 2 4 4, ply 1 7 1 6, ply 4 4 4 5, ply 3 7 3 5,
          ply 8 2 8 3, ply 8 7 8 6]).restartLapses) :=
  (fun H =>
    have h1 := And.right H
    have h2 := And.right h1
    have h3 := And.right h2
    have h4 := And.right h3
    have h5 := And.right h4
    have h6 := And.right h5
    ⟨And.left H,
      lapsed_en_passant (after [ply 4 2 4 4, ply 1 7 1 6, ply 4 4 4 5, ply 3 7 3 5, ply 8 2 8 3,
          ply 8 7 8 6])
        ⟨4, 5⟩ ⟨3, 6⟩ piece_type.pawn
        (occupant.mk false player.white piece_type.pawn true false false)
        {}
        (occupant.mk false player.black piece_type.pawn true true false)
        (-1) (by decide) (And.left h1) (And.left h2) (by decide) (And.left h3) (by decide)
        (And.left h4) (by decide) (And.left h5) (by decide) h6 (by decide)
        (by decide) (by decide)⟩) (by decide!)

/-- C6, the code at a failing input.  From the initial position, after `{4,2}` to `{4,4}`,
`{3,7}` to `{3,5}`, `{4,4}` to `{4,5}` and the knight `{2,8}` to `{3,6}` (all `ok`), white is to
move, `{4,5}` holds a white pawn and `{3,6}`, one step diagonally forward, holds a black
knight: an ordinary capture.  `play({4,5},{3,6})` answers `lapsed`, because `isLapsed` looks
only at the pawn behind the destination (the black pawn on `{3,5}`, which double-stepped two
moves ago) and never at the destination itself. -/
theorem lapsed_on_ordinary_capture :
    (start.playAll [ply 4 2 4 4, ply 3 7 3 5, ply 4 4 4 5, ply 2 8 3 6, ply 4 5 3 6]).map Prod.fst
      = some [result.ok, result.ok, result.ok, result.ok, result.lapsed] ∧
    (after [ply 4 2 4 4, ply 3 7 3 5, ply 4 4 4 5, ply 2 8 3 6]).occupantAt ⟨4, 5⟩
      = some (occupant.mk false player.white piece_type.pawn true false false) ∧
    (after [ply 4 2 4 4, ply 3 7 3 5, ply 4 4 4 5, ply 2 8 3 6]).occupantAt ⟨3, 6⟩
      = some (occupant.mk false player.black piece_type.knight true false false) ∧
    (after [ply 4 2 4 4, ply 3 7 3 5, ply 4 4 4 5, ply 2 8 3 6])._player = player.white := by
  decide!

/-- C7, as amended.  Castling execution: when the king of the side to move stands on its home
square `{5, p}` (`p` is rank 1 for white, rank 8 for black), `to` is two files to the right
(`step = 1`) or to the left (`step = -1`) on the same rank, a piece stands on the corner on
that side (`{8, p}` or `{1, p}`), and `play` answers `ok`, then that piece is a rook of the
side to move, and afterwards `to` holds the king (with `didMove` set), the square
`{5 + step, p}` (file 6 or file 4) holds that rook, the king's home square and the corner hold
the default empty record, and on every other square the placement (`is_empty`, `owner`,
`piece`) is as before the call. -/
theorem castling_execution (s s' : chess) (from' to' : position) (promote : piece_type)
    (k : occupant) (step : Int) (hstep : step = 1 ∨ step = -1)
    (hfrom : from' = ⟨5, homeRank s._player⟩)
    (hto : to' = ⟨5 + 2 * step, homeRank s._player⟩)
    (hk : s.occupantAt from' = some k) (hk1 : k.is_empty = false)
    (hk2 : k.piece = piece_type.king) (hk3 : k.owner = s._player)
    (hcorner : ∃ c, s.occupantAt ⟨rookCorner step, homeRank s._player⟩ = some c ∧
      c.is_empty = false)
    (h : s.play from' to' promote = some (result.ok, s')) :
    s'.occupantAt to' = some { k with didMove := true } ∧
    (∃ rk, s.occupantAt ⟨rookCorner step, homeRank s._player⟩ = some rk ∧
      rk.is_empty = false ∧ rk.piece = piece_type.rook ∧ rk.owner = s._player ∧
      s'.occupantAt ⟨5 + step, homeRank s._player⟩ = some rk) ∧
    s'.occupantAt from' = some {} ∧
    s'.occupantAt ⟨rookCorner step, homeRank s._player⟩ = some {} ∧
    ∀ q, onBoard q → q ≠ from' → q ≠ to' → q ≠ ⟨rookCorner step, homeRank s._player⟩ →
      q ≠ ⟨5 + step, homeRank s._player⟩ →
      ∃ o o', s.occupantAt q = some o ∧ s'.occupantAt q = some o' ∧
        o'.is_empty = o.is_empty ∧ o'.owner = o.owner ∧ o'.piece = o.piece := by
  subst hfrom hto
  have hkp : k.piece ≠ piece_type.pawn := by
    rw [hk2]
    decide
  have hk' : s.restartLapses.occupantAt ⟨5, homeRank s.restartLapses._player⟩ = some k := by
    rw [chess.restartLapses_player, chess.occupantAt_restartLapses, hk, Option.map_some',
      chess.clearLapse_of_not_pawn _ _ hkp]
  obtain ⟨rk, hrk, hr1, hr2, -, hg⟩ := chess.playChecks_castle_ok s.restartLapses s' step hstep
    promote k hk' hk1 hk2 hk3 h
  simp only [chess.restartLapses_player] at hrk hr2 hg
  have hfb : onBoard ⟨5, homeRank s._player⟩ := chess.onBoard_homeRank 5 (by omega) _
  have htb : onBoard ⟨5 + 2 * step, homeRank s._player⟩ :=
    chess.onBoard_homeRank _ (by omega) _
  have hcb : onBoard ⟨rookCorner step, homeRank s._player⟩ :=
    chess.onBoard_homeRank _ (by unfold rookCorner; split <;> omega) _
  have hdb : onBoard ⟨5 + step, homeRank s._player⟩ := chess.onBoard_homeRank _ (by omega) _
  have hne_tf : (⟨5 + 2 * step, homeRank s._player⟩ : position) ≠ ⟨5, homeRank s._player⟩ := by
    intro e
    simp only [position.mk.injEq] at e
    omega
  have hne_cf : (⟨rookCorner step, homeRank s._player⟩ : position) ≠ ⟨5, homeRank s._player⟩ := by
    intro e
    simp only [position.mk.injEq, rookCorner] at e
    split at e <;> omega
  have hne_ct : (⟨rookCorner step, homeRank s._player⟩ : position)
      ≠ ⟨5 + 2 * step, homeRank s._player⟩ := by
    intro e
    simp only [position.mk.injEq, rookCorner] at e
    split at e <;> omega
  have hne_df : (⟨5 + step, homeRank s._player⟩ : position) ≠ ⟨5, homeRank s._player⟩ := by
    intro e
    simp only [position.mk.injEq] at e
    omega
  have hne_dt : (⟨5 + step, homeRank s._player⟩ : position)
      ≠ ⟨5 + 2 * step, homeRank s._player⟩ := by
    intro e
    simp only [position.mk.injEq] at e
    omega
  have hne_dc : (⟨5 + step, homeRank s._player⟩ : position)
      ≠ ⟨rookCorner step, homeRank s._player⟩ := by
    intro e
    simp only [position.mk.injEq, rookCorner] at e
    split at e <;> omega
  have hb' : ∀ q, onBoard q → s'.occupantAt q = s'.getOccupant q :=
    fun q hq => chess.occupantAt_of_onBoard s' hq
  have hrk' : s.occupantAt ⟨rookCorner step, homeRank s._player⟩ = some rk := by
    obtain ⟨rk0, hrk0⟩ := s.occupantAt_isSome (Or.inr hcb)
    rw [chess.occupantAt_restartLapses, hrk0, Option.map_some', Option.some.injEq] at hrk
    have hp0 : rk0.piece ≠ piece_type.pawn := by
      rw [← (chess.clearLapse_fields s._player rk0).2.2.1, hrk, hr1]
      decide
    rw [chess.clearLapse_of_not_pawn _ _ hp0] at hrk
    rw [hrk0, hrk]
  have hre : rk.is_empty = false := by
    obtain ⟨c, hc, hce⟩ := hcorner
    rw [hrk', Option.some.injEq] at hc
    rw [hc]
    exact hce
  refine ⟨?_, ⟨rk, hrk', hre, hr1, hr2, ?_⟩, ?_, ?_, ?_⟩
  · rw [hb' _ htb, hg, if_neg hne_tf, if_pos rfl]
  · rw [hb' _ hdb, hg, if_neg hne_df, if_neg hne_dt, if_neg hne_dc, if_pos rfl]
  · rw [hb' _ hfb, hg, if_pos rfl]
  · rw [hb' _ hcb, hg, if_neg hne_cf, if_neg hne_ct, if_pos rfl]
  · intro q hq h1 h2 h3 h4
    obtain ⟨o, ho⟩ := s.getOccupant_isSome hq
    refine ⟨o, chess.clearLapse s._player o, ?_, ?_, ?_⟩
    · rw [chess.occupantAt_of_onBoard s hq]
      exact ho
    · rw [hb' _ hq, hg, if_neg h1, if_neg h2, if_neg h3, if_neg h4,
        chess.getOccupant_restartLapses, ho, Option.map_some']
    · have := chess.clearLapse_fields s._player o
      exact ⟨this.1, this.2.1, this.2.2.1⟩

/-- Witness for C7: after `{5,2}` to `{5,4}`, `{6,1}` to `{3,4}`, `{7,1}` to `{6,3}` (and
three black pawn moves) white castles king-side with `play({5,1},{7,1})`. -/
theorem castling_execution_witness :
    (start.playAll [ply 5 2 5 4, ply 1 7 1 6, ply 6 1 3 4, ply 1 6 1 5, ply 7 1 6 3,
        ply 1 5 1 4]).map Prod.fst
      = some [result.ok, result.ok, result.ok, result.ok, result.ok, result.ok] ∧
    ∃ s', (after [ply 5 2 5 4, ply 1 7 1 6, ply 6 1 3 4, ply 1 6 1 5, ply 7 1 6 3,
        ply 1 5 1 4]).play ⟨5, 1⟩ ⟨7, 1⟩ = some (result.ok, s') ∧
      s'.occupantAt ⟨7, 1⟩
        = some (occupant.mk false player.white piece_type.king true false false) ∧
      s'.occupantAt ⟨6, 1⟩
        = some (occupant.mk false player.white piece_type.rook false false false) ∧
      s'.occupantAt ⟨5, 1⟩ = some {} ∧ s'.occupantAt ⟨8, 1⟩ = some {} := by
  have H : ((start.playAll [ply 5 2 5 4, ply 1 7 1 6, ply 6 1 3 4, ply 1 6 1 5, ply 7 1 6 3,
        ply 1 5 1 4]).map Prod.fst
      = some [result.ok, result.ok, result.ok, result.ok, result.ok, result.ok]) ∧
    (((after [ply 5 2 5 4, ply 1 7 1 6, ply 6 1 3 4, ply 1 6 1 5, ply 7 1 6 3,
        ply 1 5 1 4]).play ⟨5, 1⟩ ⟨7, 1⟩).map Prod.fst = some result.ok) ∧
    ((after [ply 5 2 5 4, ply 1 7 1 6, ply 6 1 3 4, ply 1 6 1 5, ply 7 1 6 3,
        ply 1 5 1 4])._player = player.white) ∧
    ((after [ply 5 2 5 4, ply 1 7 1 6, ply 6 1 3 4, ply 1 6 1 5, ply 7 1 6 3,
        ply 1 5 1 4]).occupantAt ⟨5, 1⟩
      = some (occupant.mk false player.white piece_type.king false false false)) ∧
    ((after [ply 5 2 5 4, ply 1 7 1 6, ply 6 1 3 4, ply 1 6 1 5, ply 7 1 6 3,
        ply 1 5 1 4]).occupantAt ⟨8, 1⟩
      = some (occupant.mk false player.white piece_type.rook false false false)) := by
    decide!
  obtain ⟨f1, f2, f3, f4, f5⟩ := H
  refine ⟨f1, ?_⟩
  obtain ⟨s', h⟩ := exists_of_map_fst f2
  have key := castling_execution _ s' ⟨5, 1⟩ ⟨7, 1⟩ piece_type.pawn
    (occupant.mk false player.white piece_type.king false false false) 1 (by decide)
    (by rw [f3]; rfl) (by rw [f3]; rfl) f4 (by decide) (by decide) f3.symm
    ⟨_, by rw [f3]; exact f5, rfl⟩ h
  obtain ⟨h1, ⟨rk, h2, -, -, -, h3⟩, h4, h5, -⟩ := key
  have e : rk = occupant.mk false player.white piece_type.rook false false false := by
    have h2' : (after [ply 5 2 5 4, ply 1 7 1 6, ply 6 1 3 4, ply 1 6 1 5, ply 7 1 6 3,
        ply 1 5 1 4]).occupantAt ⟨8, 1⟩ = some rk := by
      rw [f3] at h2
      exact h2
    rw [f5] at h2'
    exact (Option.some.inj h2').symm
  subst e
  rw [f3] at h3 h5
  exact ⟨s', h, h1, h3, h4, h5⟩

/-- Counterexample to C7 as stated.  On the board `emptyCorner` white is to move, its king
stands on the home square `{5,1}`, `{7,1}` is two files to the right, and `play({5,1},{7,1})`
answers `ok`, with the king on `{7,1}` afterwards.  But the corner `{8,1}` held no piece, only
an empty record of kind `rook` owned by white, which is all that `isCastling` tests; that empty
record is what `makeCastling` moves to `{6,1}`: no rook stands on file 6. -/
theorem castling_empty_corner :
    emptyCorner._player = player.white ∧
    emptyCorner.occupantAt ⟨5, 1⟩ = some (fresh player.white piece_type.king) ∧
    emptyCorner.occupantAt ⟨8, 1⟩
      = some (occupant.mk true player.white piece_type.rook false false false) ∧
    (emptyCorner.play ⟨5, 1⟩ ⟨7, 1⟩).map
        (fun x => (x.1, x.2.occupantAt ⟨7, 1⟩, x.2.occupantAt ⟨6, 1⟩))
      = some (result.ok,
          some (occupant.mk false player.white piece_type.king true false false),
          some (occupant.mk true player.white piece_type.rook false false false)) := by
  decide!

/-- C8, the code at a failing input.  From the initial position, after the ten calls below
(all `ok`) the white king stands on `{5,2}`, the white queen on `{5,1}`, the squares `{6,1}`
and `{7,1}` are empty and the white rook is on `{8,1}`.  The queen's move `play({5,1},{7,1})`
is treated as castling, since `isCastling` never looks at the piece on `from`, and is
rejected with `has_moved` although the occupant of `from` is not a king. -/
theorem has_moved_on_queen_move :
    (start.playAll [ply 5 2 5 4, ply 1 7 1 6, ply 6 1 3 4, ply 1 6 1 5, ply 7 1 6 3,
        ply 1 5 1 4, ply 5 1 5 2, ply 2 7 2 6, ply 4 1 5 1, ply 2 6 2 5,
        ply 5 1 7 1]).map Prod.fst
      = some [result.ok, result.ok, result.ok, result.ok, result.ok, result.ok, result.ok,
          result.ok, result.ok, result.ok, result.has_moved] ∧
    (after [ply 5 2 5 4, ply 1 7 1 6, ply 6 1 3 4, ply 1 6 1 5, ply 7 1 6 3,
        ply 1 5 1 4, ply 5 1 5 2, ply 2 7 2 6, ply 4 1 5 1, ply 2 6 2 5]).occupantAt ⟨5, 1⟩
      = some (occupant.mk false player.white piece_type.queen true false false) ∧
    (after [ply 5 2 5 4, ply 1 7 1 6, ply 6 1 3 4, ply 1 6 1 5, ply 7 1 6 3,
        ply 1 5 1 4, ply 5 1 5 2, ply 2 7 2 6, ply 4 1 5 1, ply 2 6 2 5])._player
      = player.white := by
  decide!

/-- C9.  Castling after prior movement: when the king of the side to move stands on its home
square `{5, p}`, the move goes two files towards an own rook on the corner of that side, every
square strictly between king and rook is empty, the side to move is not in check, and neither
the square the king crosses nor the square it lands on is attacked (`wouldCheck`, run as
`play` runs it, after `restartLapses`), then `play` answers `has_moved` if the `didMove` flag
of the king or of that rook is set, and `ok` if neither is. -/
theorem castling_has_moved (s : chess) (from' to' : position) (promote : piece_type)
    (k rk : occupant) (step : Int) (hstep : step = 1 ∨ step = -1)
    (hfrom : from' = ⟨5, homeRank s._player⟩)
    (hto : to' = ⟨5 + 2 * step, homeRank s._player⟩)
    (hk : s.occupantAt from' = some k) (hk1 : k.is_empty = false)
    (hk2 : k.piece = piece_type.king) (hk3 : k.owner = s._player)
    (hrk : s.occupantAt ⟨rookCorner step, homeRank s._player⟩ = some rk)
    (_hr0 : rk.is_empty = false) (hr1 : rk.piece = piece_type.rook) (hr2 : rk.owner = s._player)
    (hbetween : ∀ f : Int, (5 < f ∧ f < rookCorner step) ∨ (rookCorner step < f ∧ f < 5) →
      ∃ o, s.occupantAt ⟨f, homeRank s._player⟩ = some o ∧ o.is_empty = true)
    (hchk : s.restartLapses.isChecked = some false)
    (hpass : (s.restartLapses.wouldCheck from' ⟨5 + step, homeRank s._player⟩).map Prod.fst
      = some false)
    (hland : (s.restartLapses.wouldCheck from' to').map Prod.fst = some false) :
    (k.didMove = true ∨ rk.didMove = true →
        s.play from' to' promote = some (result.has_moved, s.restartLapses)) ∧
      (k.didMove = false ∧ rk.didMove = false →
        ∃ s', s.play from' to' promote = some (result.ok, s')) := by
  subst hfrom hto
  have hkp : k.piece ≠ piece_type.pawn := by
    rw [hk2]
    decide
  have hrp : rk.piece ≠ piece_type.pawn := by
    rw [hr1]
    decide
  -- the same facts on the state left by `restartLapses`
  have hk' : s.restartLapses.occupantAt ⟨5, homeRank s.restartLapses._player⟩ = some k := by
    rw [chess.restartLapses_player, chess.occupantAt_restartLapses, hk, Option.map_some',
      chess.clearLapse_of_not_pawn _ _ hkp]
  have hrk' : s.restartLapses.occupantAt ⟨rookCorner step, homeRank s.restartLapses._player⟩
      = some rk := by
    rw [chess.restartLapses_player, chess.occupantAt_restartLapses, hrk, Option.map_some',
      chess.clearLapse_of_not_pawn _ _ hrp]
  have hempty : ∀ f : Int, (5 < f ∧ f < rookCorner step) ∨ (rookCorner step < f ∧ f < 5) →
      ∃ o, s.restartLapses.occupantAt ⟨f, homeRank s.restartLapses._player⟩ = some o ∧
        o.is_empty = true := by
    intro f hf
    obtain ⟨o, ho, ho1⟩ := hbetween f hf
    refine ⟨chess.clearLapse s._player o, ?_, ?_⟩
    · rw [chess.restartLapses_player, chess.occupantAt_restartLapses, ho, Option.map_some']
    · rw [(chess.clearLapse_fields _ _).1]
      exact ho1
  obtain ⟨t, ht, ht1⟩ := hempty (5 + 2 * step)
    (by rcases hstep with rfl | rfl <;> simp [rookCorner])
  obtain ⟨ps, hps, hps1⟩ := hempty (5 + step)
    (by rcases hstep with rfl | rfl <;> simp [rookCorner])
  obtain ⟨bd, hbd, hbd1⟩ := hempty (5 + 2 * step - 1)
    (by rcases hstep with rfl | rfl <;> simp [rookCorner])
  have hc := chess.isCastling_castle s.restartLapses step hstep s.restartLapses._player rk hrk'
    hr1 hr2
  have hbl := chess.isBlocked_castle s.restartLapses step hstep s.restartLapses._player t ps bd
    ht ht1 hps hps1 hbd hbd1 hc
  have hpre := chess.playChecks_castle_prefix s.restartLapses step hstep promote k rk hk' hk1
    hk2 hk3 hrk' hr1 hr2 hbl false hchk
  have hwc := chess.wouldCheckCastling_second s.restartLapses step hstep
    (homeRank s.restartLapses._player) (chess.homeRank_cases _) false hpass hland
  have hhm := chess.hasMoved_castle s.restartLapses step hstep
    (homeRank s.restartLapses._player) (chess.homeRank_cases _) k rk hk' hrk'
  rw [hwc] at hpre
  simp only [Bool.false_eq_true, if_false, Option.some_bind, hhm] at hpre
  constructor
  · intro hm
    have : (k.didMove || rk.didMove) = true := by
      rcases hm with h | h <;> simp [h]
    rw [this] at hpre
    exact hpre
  · rintro ⟨h1, h2⟩
    have : (k.didMove || rk.didMove) = false := by
      simp [h1, h2]
    rw [this] at hpre
    simp only [Bool.false_eq_true, if_false] at hpre
    have hpr := s.restartLapses.isPromote_not_pawn
      ⟨5 + 2 * step, homeRank s.restartLapses._player⟩ hk' hkp
    obtain ⟨s', hex, -, -⟩ := chess.playExecute_castle s.restartLapses step hstep k t rk hk' hkp
      ht ht1 hrk' hr1 hr2
    refine ⟨s', hpre.trans ?_⟩
    unfold chess.playPromote
    rw [hpr]
    simp only [Option.some_bind, Bool.false_eq_true, if_false]
    exact hex

/-- Witness for C9, the instance the claim names: the thirteen calls of `main` (the third is
`blocked`, the others `ok`), in which the white rook goes `{8,1}` to `{7,1}` and back, after
which `play({5,1},{7,1})` answers `has_moved`. -/
theorem castling_has_moved_witness :
    (start.playAll mainMoves).map Prod.fst
      = some [result.ok, result.ok, result.blocked, result.ok, result.ok, result.ok, result.ok,
          result.ok, result.ok, result.ok, result.ok, result.ok, result.ok] ∧
    (after mainMoves).play ⟨5, 1⟩ ⟨7, 1⟩
      = some (result.has_moved, (after mainMoves).restartLapses) :=
  (fun H =>
    have h1 := And.right H
    have h2 := And.right h1
    have h3 := And.right h2
    have h4 := And.right h3
    have h5 := And.right h4
    have h6 := And.right h5
    have h7 := And.right h6
    have h8 := And.right h7
    have h9 := And.right h8
    have h10 := And.right h9
    have h11 := And.right h10
    ⟨And.left H,
      (castling_has_moved (after mainMoves) ⟨5, 1⟩ ⟨7, 1⟩ piece_type.pawn
        (occupant.mk false player.white piece_type.king false false false)
        (occupant.mk false player.white piece_type.rook true false false)
        1 (by decide) (And.left h1) (And.left h2) (And.left h3) (by decide) (by decide) (And.left h4)
        (And.left h5) (by decide) (by decide) (And.left h6)
        (empty_between_kingside _ _ (And.left h7) (And.left h8))
        (And.left h9) (And.left h10) h11).1 (Or.inr rfl)⟩) (by decide!)

/-- C10.  Castling and check: when the king of the side to move stands on its home square and
attempts a castling move (two files towards an own rook on the corner) that is not blocked,
`play` answers `in_check` if the king is attacked in the current position; otherwise it
answers `would_check` if the king would be attacked on the square it passes or, that one being
safe, on the square it lands on (each a `wouldCheck` of the king alone).  Nothing is assumed
on the `didMove` flags: both answers come before `has_moved`. -/
theorem castling_check_precedence (s : chess) (from' to' : position) (promote : piece_type)
    (k rk : occupant) (step : Int) (hstep : step = 1 ∨ step = -1)
    (hfrom : from' = ⟨5, homeRank s._player⟩)
    (hto : to' = ⟨5 + 2 * step, homeRank s._player⟩)
    (hk : s.occupantAt from' = some k) (hk1 : k.is_empty = false)
    (hk2 : k.piece = piece_type.king) (hk3 : k.owner = s._player)
    (hrk : s.occupantAt ⟨rookCorner step, homeRank s._player⟩ = some rk)
    (hr1 : rk.piece = piece_type.rook) (hr2 : rk.owner = s._player)
    (hbl : s.restartLapses.isBlocked from' to' s._player = some false) :
    (s.restartLapses.isChecked = some true →
        s.play from' to' promote = some (result.in_check, s.restartLapses)) ∧
      (s.restartLapses.isChecked = some false →
        (s.restartLapses.wouldCheck from' ⟨5 + step, homeRank s._player⟩).map Prod.fst
            = some true ∨
          ((s.restartLapses.wouldCheck from' ⟨5 + step, homeRank s._player⟩).map Prod.fst
              = some false ∧
            (s.restartLapses.wouldCheck from' to').map Prod.fst = some true) →
        s.play from' to' promote = some (result.would_check, s.restartLapses)) := by
  subst hfrom hto
  have hkp : k.piece ≠ piece_type.pawn := by
    rw [hk2]
    decide
  have hrp : rk.piece ≠ piece_type.pawn := by
    rw [hr1]
    decide
  have hk' : s.restartLapses.occupantAt ⟨5, homeRank s.restartLapses._player⟩ = some k := by
    rw [chess.restartLapses_player, chess.occupantAt_restartLapses, hk, Option.map_some',
      chess.clearLapse_of_not_pawn _ _ hkp]
  have hrk' : s.restartLapses.occupantAt ⟨rookCorner step, homeRank s.restartLapses._player⟩
      = some rk := by
    rw [chess.restartLapses_player, chess.occupantAt_restartLapses, hrk, Option.map_some',
      chess.clearLapse_of_not_pawn _ _ hrp]
  constructor
  · intro hchk
    have hpre := chess.playChecks_castle_prefix s.restartLapses step hstep promote k rk hk' hk1
      hk2 hk3 hrk' hr1 hr2 hbl true hchk
    exact hpre
  · intro hchk hw
    have hpre := chess.playChecks_castle_prefix s.restartLapses step hstep promote k rk hk' hk1
      hk2 hk3 hrk' hr1 hr2 hbl false hchk
    have hwc : s.restartLapses.wouldCheckCastling ⟨5, homeRank s.restartLapses._player⟩
        ⟨5 + 2 * step, homeRank s.restartLapses._player⟩ = some (true, s.restartLapses) := by
      rcases hw with h1 | ⟨h1, h2⟩
      · exact chess.wouldCheckCastling_first s.restartLapses step hstep _
          (chess.homeRank_cases _) h1
      · exact chess.wouldCheckCastling_second s.restartLapses step hstep _
          (chess.homeRank_cases _) true h1 h2
    rw [hwc] at hpre
    exact hpre

/-- Witness for C10, one instance for each answer.  In the first position a black bishop on
`{2,4}` gives check and the castling attempt answers `in_check`; in the second a black bishop
on `{1,6}` attacks `{6,1}`, the square the king crosses, and it answers `would_check`. -/
theorem castling_check_precedence_witness :
    ((start.playAll [ply 4 2 4 4, ply 5 7 5 6, ply 5 2 5 4, ply 1 7 1 6, ply 7 1 6 3,
        ply 1 6 1 5, ply 6 1 3 4, ply 6 8 2 4]).map Prod.fst
      = some [result.ok, result.ok, result.ok, result.ok, result.ok, result.ok, result.ok,
          result.ok] ∧
    (after [ply 4 2 4 4, ply 5 7 5 6, ply 5 2 5 4, ply 1 7 1 6, ply 7 1 6 3,
        ply 1 6 1 5, ply 6 1 3 4, ply 6 8 2 4]).play ⟨5, 1⟩ ⟨7, 1⟩
      = some (result.in_check, (after [ply 4 2 4 4, ply 5 7 5 6, ply 5 2 5 4, ply 1 7 1 6,
          ply 7 1 6 3, ply 1 6 1 5, ply 6 1 3 4, ply 6 8 2 4]).restartLapses)) ∧
    ((start.playAll [ply 7 2 7 3, ply 2 7 2 6, ply 6 1 8 3, ply 3 8 1 6, ply 7 1 6 3,
        ply 8 7 8 6, ply 5 2 5 4, ply 8 6 8 5]).map Prod.fst
      = some [result.ok, result.ok, result.ok, result.ok, result.ok, result.ok, result.ok,
          result.ok] ∧
    (after [ply 7 2 7 3, ply 2 7 2 6, ply 6 1 8 3, ply 3 8 1 6, ply 7 1 6 3,
        ply 8 7 8 6, ply 5 2 5 4, ply 8 6 8 5]).play ⟨5, 1⟩ ⟨7, 1⟩
      = some (result.would_check, (after [ply 7 2 7 3, ply 2 7 2 6, ply 6 1 8 3, ply 3 8 1 6,
          ply 7 1 6 3, ply 8 7 8 6, ply 5 2 5 4, ply 8 6 8 5]).restartLapses)) :=
  (fun H =>
    have h1 := And.right H
    have h2 := And.right h1
    have h3 := And.right h2
    have h4 := And.right h3
    have h5 := And.right h4
    have h6 := And.right h5
    have h7 := And.right h6
    have h8 := And.right h7
    have h9 := And.right h8
    have h10 := And.right h9
    have h11 := And.right h10
    have h12 := And.right h11
    have h13 := And.right h12
    have h14 := And.right h13
    have h15 := And.right h14
    have h16 := And.right h15
    have h17 := And.right h16
    have h18 := And.right h17
    ⟨⟨And.left H,
      (castling_check_precedence (after [ply 4 2 4 4, ply 5 7 5 6, ply 5 2 5 4, ply 1 7 1 6,
          ply 7 1 6 3, ply 1 6 1 5, ply 6 1 3 4, ply 6 8 2 4]) ⟨5, 1⟩ ⟨7, 1⟩ piece_type.pawn
        (occupant.mk false player.white piece_type.king false false false)
        (occupant.mk false player.white piece_type.rook false false false)
        1 (by decide) (And.left h1) (And.left h2) (And.left h3) (by decide) (by decide) (And.left h4)
        (And.left h5) (by decide) (And.left h6) (And.left h7)).1 (And.left h8)⟩,
     ⟨And.left h9,
      (castling_check_precedence (after [ply 7 2 7 3, ply 2 7 2 6, ply 6 1 8 3, ply 3 8 1 6,
          ply 7 1 6 3, ply 8 7 8 6, ply 5 2 5 4, ply 8 6 8 5]) ⟨5, 1⟩ ⟨7, 1⟩ piece_type.pawn
        (occupant.mk false player.white piece_type.king false false false)
        (occupant.mk false player.white piece_type.rook false false false)
        1 (by decide) (And.left h10) (And.left h11) (And.left h12) (by decide) (by decide) (And.left h13)
        (And.left h14) (by decide) (And.left h15) (And.left h16)).2 (And.left h17)
        (Or.inl h18)⟩⟩) (by decide!)

/-- C13.  If `from` holds a piece that the side to move does not own, `play` answers
`bad_piece`, whatever `to` and `promote` are (the shape of the move is not looked at); the
state after the call is the one `restartLapses` made. -/
theorem play_bad_piece (s : chess) (from' to' : position) (promote : piece_type)
    (o : occupant) (h : s.occupantAt from' = some o) (he : o.is_empty = false)
    (hown : o.owner ≠ s._player) :
    s.play from' to' promote = some (result.bad_piece, s.restartLapses) := by
  have hc : clearLapse s._player o = o := by
    unfold clearLapse
    rw [if_neg (fun h => hown h.2.1)]
  have ho : s.restartLapses.occupantAt from' = some o := by
    rw [occupantAt_restartLapses, h, Option.map_some', hc]
  obtain ⟨b, hb⟩ := s.restartLapses.isChecked_isSome
  unfold play playChecks
  rw [hb, Option.some_bind, ho, Option.some_bind, if_neg (by simp [he]),
    if_pos (by rw [restartLapses_player]; exact hown)]

/-- Witness for C13: on the initial position `{1,7}` holds a black pawn, white is to move, and
`play({1,7},{1,6})` answers `bad_piece`. -/
theorem play_bad_piece_witness :
    start.occupantAt ⟨1, 7⟩ = some (occupant.of player.black piece_type.pawn) ∧
      start.play ⟨1, 7⟩ ⟨1, 6⟩ = some (result.bad_piece, start.restartLapses) :=
  ⟨by decide, play_bad_piece start ⟨1, 7⟩ ⟨1, 6⟩ piece_type.pawn
    (occupant.of player.black piece_type.pawn) (by decide) rfl (by decide)⟩

/-- C14.  If `from` is the sentinel `{0,0}`, or a square whose record is empty, `play`
answers `no_piece`, whatever `to` and `promote` are. -/
theorem play_no_piece (s : chess) (from' to' : position) (promote : piece_type)
    (h : from' = {} ∨ ∃ o, s.occupantAt from' = some o ∧ o.is_empty = true) :
    s.play from' to' promote = some (result.no_piece, s.restartLapses) := by
  have h' : ∃ o, s.restartLapses.occupantAt from' = some o ∧ o.is_empty = true := by
    rcases h with rfl | ⟨o, ho, he⟩
    · exact ⟨{}, rfl, rfl⟩
    · refine ⟨clearLapse s._player o, ?_, ?_⟩
      · rw [occupantAt_restartLapses, ho]
        rfl
      · unfold clearLapse
        rw [if_neg (by simp [he])]
        exact he
  obtain ⟨o, ho, he⟩ := h'
  obtain ⟨b, hb⟩ := s.restartLapses.isChecked_isSome
  unfold play playChecks
  rw [hb, Option.some_bind, ho, Option.some_bind, if_pos he]

/-- Witness for C14: on the initial position, `play` from the sentinel and `play` from the
empty square `{1,3}` both answer `no_piece`. -/
theorem play_no_piece_witness :
    start.play {} ⟨1, 3⟩ = some (result.no_piece, start.restartLapses) ∧
      start.play ⟨1, 3⟩ ⟨1, 4⟩ = some (result.no_piece, start.restartLapses) :=
  ⟨play_no_piece start {} ⟨1, 3⟩ piece_type.pawn (Or.inl rfl),
    play_no_piece start ⟨1, 3⟩ ⟨1, 4⟩ piece_type.pawn (Or.inr ⟨{}, by decide, rfl⟩)⟩

/-- C15, as amended.  On every state `at` answers the default record (empty, owner white, no
flag set) for the sentinel `{0,0}` without indexing the grid, and so for every off-board
result of `position + move`, which is always the sentinel. -/
theorem occupantAt_off_board (s : chess) (p : position) (m : move) :
    s.occupantAt {} = some (occupant.mk true player.white piece_type.pawn false false false) ∧
      (¬ onBoard (p + m) → s.occupantAt (p + m)
        = some (occupant.mk true player.white piece_type.pawn false false false)) := by
  refine ⟨rfl, fun h => ?_⟩
  rcases valid_add p m with e | e
  · rw [e]
    rfl
  · exact absurd e h

/-- Witness for C15 (amended): `{8,8} + {1,1}` is off the board and `at` answers the default
record there. -/
theorem occupantAt_off_board_witness :
    ¬ onBoard ((⟨8, 8⟩ : position) + (⟨1, 1⟩ : move)) ∧
      start.occupantAt ((⟨8, 8⟩ : position) + (⟨1, 1⟩ : move))
        = some (occupant.mk true player.white piece_type.pawn false false false) :=
  ⟨by decide, (occupantAt_off_board start ⟨8, 8⟩ ⟨1, 1⟩).2 (by decide)⟩

/-- Counterexample to C15 as stated.  The positions `{9,9}` and `{0,5}` are not on the board
and are not the sentinel; `at` does not guard them and indexes the grid at `[8][8]` and
`[-1][4]`, outside the 8×8 array, so no record is returned. -/
theorem occupantAt_unguarded :
    ¬ onBoard ⟨9, 9⟩ ∧ start.occupantAt ⟨9, 9⟩ = none ∧
      ¬ onBoard ⟨0, 5⟩ ∧ start.occupantAt ⟨0, 5⟩ = none := by
  decide

/-- C17.  The constructor returns a state with white to move and exactly 32 occupied squares:
an unmoved white pawn on every file of rank 2 and a black one on every file of rank 7, the
default empty record on ranks 3 to 6, and on rank 1 (white) and rank 8 (black) rook, knight,
bishop, queen, king, bishop, knight, rook in file order; no record has `didMove`, `didTwoStep`
or `canBeLapsed` set; each player has 8 pawns, 2 rooks, 2 knights, 2 bishops, 1 queen and 1
king. -/
theorem constructor_state :
    ∃ s, chess.new = some s ∧ s._player = player.white ∧
      s.countSquares (fun o => !o.is_empty) = 32 ∧
      (∀ f : Int, 1 ≤ f → f ≤ 8 →
        s.occupantAt ⟨f, 2⟩ = some (fresh player.white piece_type.pawn) ∧
        s.occupantAt ⟨f, 7⟩ = some (fresh player.black piece_type.pawn) ∧
        ∀ r : Int, 3 ≤ r → r ≤ 6 →
          s.occupantAt ⟨f, r⟩
            = some (occupant.mk true player.white piece_type.pawn false false false)) ∧
      ([1, 2, 3, 4, 5, 6, 7, 8].map fun f => s.occupantAt ⟨f, 1⟩)
        = ([piece_type.rook, piece_type.knight, piece_type.bishop, piece_type.queen,
            piece_type.king, piece_type.bishop, piece_type.knight, piece_type.rook].map
            fun pc => some (fresh player.white pc)) ∧
      ([1, 2, 3, 4, 5, 6, 7, 8].map fun f => s.occupantAt ⟨f, 8⟩)
        = ([piece_type.rook, piece_type.knight, piece_type.bishop, piece_type.queen,
            piece_type.king, piece_type.bishop, piece_type.knight, piece_type.rook].map
            fun pc => some (fresh player.black pc)) ∧
      s.countSquares (fun o => o.didMove || o.didTwoStep || o.canBeLapsed) = 0 ∧
      ∀ pl : player,
        s.countPieces pl piece_type.pawn = 8 ∧ s.countPieces pl piece_type.rook = 2 ∧
        s.countPieces pl piece_type.knight = 2 ∧ s.countPieces pl piece_type.bishop = 2 ∧
        s.countPieces pl piece_type.queen = 1 ∧ s.countPieces pl piece_type.king = 1 := by
  refine ⟨start, new_eq_start, rfl, by decide!, ?_, by decide!, by decide!, by decide!, ?_⟩
  · intro f h1 h2
    refine ⟨?_, ?_, ?_⟩
    · interval_cases f <;> decide!
    · interval_cases f <;> decide!
    · intro r h3 h4
      interval_cases f <;> interval_cases r <;> decide!
  · intro pl
    cases pl <;> decide!

/-- C18, as amended.  `p + m` is the position `(f, r)`, where `f` and `r` are the sums
`p.file + m.file` and `p.rank + m.rank` as `int` computes them (wrapped to 32 bits), when that
position is on the board (both coordinates in `1..8`), and the sentinel `{0,0}` otherwise.
When the two sums are representable, `f` and `r` are the sums themselves.  And for on-board
`p` and `q`, `p + (q - p) = q`. -/
theorem position_add_spec (p q : position) (m : move) :
    (onBoard ⟨wrapInt (p.file + m.file), wrapInt (p.rank + m.rank)⟩ →
        p + m = ⟨wrapInt (p.file + m.file), wrapInt (p.rank + m.rank)⟩) ∧
      (¬ onBoard ⟨wrapInt (p.file + m.file), wrapInt (p.rank + m.rank)⟩ → p + m = {}) ∧
      (isInt (p.file + m.file) → isInt (p.rank + m.rank) →
        (onBoard ⟨p.file + m.file, p.rank + m.rank⟩ →
          p + m = ⟨p.file + m.file, p.rank + m.rank⟩) ∧
        (¬ onBoard ⟨p.file + m.file, p.rank + m.rank⟩ → p + m = {})) ∧
      (onBoard p → onBoard q → p + (q - p) = q) := by
  have key : ∀ hb : Prop, (hb ↔ onBoard ⟨wrapInt (p.file + m.file), wrapInt (p.rank + m.rank)⟩) →
      (hb → p + m = ⟨wrapInt (p.file + m.file), wrapInt (p.rank + m.rank)⟩) ∧
        (¬ hb → p + m = {}) := by
    intro hb e
    constructor
    · intro h
      have h' := e.mp h
      show position.add p m = _
      unfold position.add
      unfold onBoard at h'
      dsimp only at h' ⊢
      rw [if_neg (by omega)]
    · intro h
      have h' : ¬ onBoard ⟨wrapInt (p.file + m.file), wrapInt (p.rank + m.rank)⟩ :=
        fun x => h (e.mpr x)
      show position.add p m = _
      unfold position.add
      unfold onBoard at h'
      dsimp only at h' ⊢
      rw [if_pos (by omega)]
  refine ⟨(key _ Iff.rfl).1, (key _ Iff.rfl).2, fun h1 h2 => ?_, fun hp hq => ?_⟩
  · unfold isInt at h1 h2
    have e1 := wrapInt_of_range h1.1 h1.2
    have e2 := wrapInt_of_range h2.1 h2.2
    have := key (onBoard ⟨p.file + m.file, p.rank + m.rank⟩) (by rw [e1, e2])
    rw [e1, e2] at this
    exact this
  · apply add_eq _ _ _ hq
    · rw [sub_of_valid (Or.inr hq) (Or.inr hp)]
      dsimp only
      omega
    · rw [sub_of_valid (Or.inr hq) (Or.inr hp)]
      dsimp only
      omega

/-- Counterexample to C18 as stated.  The coordinates `-2147483648` and `-2147483645` are
values of `int`; their sum `-4294967293` is not, and the code's sum wraps to `3`.  So
`{-2147483648, 5} + {-2147483645, 0}` is the on-board position `{3, 5}`, not the sentinel,
although the position of the two sums, `{-4294967293, 5}`, is not on the board. -/
theorem position_add_wraps :
    isInt (-2147483648) ∧ isInt (-2147483645) ∧ isInt 5 ∧ isInt 0 ∧
    ¬ onBoard ⟨-2147483648 + -2147483645, 5 + 0⟩ ∧
    (⟨-2147483648, 5⟩ : position) + (⟨-2147483645, 0⟩ : move) = ⟨3, 5⟩ := by
  decide

/-- Witness for C18 (amended): `{2,3} + {1,-2}` is `{3,1}`, `{8,8} + {1,0}` is the sentinel,
and `{2,3} + ({7,5} - {2,3})` is `{7,5}`. -/
theorem position_add_spec_witness :
    (⟨2, 3⟩ : position) + (⟨1, -2⟩ : move) = ⟨3, 1⟩ ∧
      (⟨8, 8⟩ : position) + (⟨1, 0⟩ : move) = {} ∧
      (⟨2, 3⟩ : position) + ((⟨7, 5⟩ : position) - (⟨2, 3⟩ : position)) = ⟨7, 5⟩ :=
  ⟨((position_add_spec ⟨2, 3⟩ ⟨7, 5⟩ ⟨1, -2⟩).2.2.1 (by decide) (by decide)).1 (by decide),
    ((position_add_spec ⟨8, 8⟩ ⟨7, 5⟩ ⟨1, 0⟩).2.2.1 (by decide) (by decide)).2 (by decide),
    (position_add_spec ⟨2, 3⟩ ⟨7, 5⟩ ⟨1, -2⟩).2.2.2 (by decide) (by decide)⟩

/-- C11.  Promotion: when `from` holds a pawn of the side to move, `to` is on rank 8 or
rank 1 and the move passes the earlier checks of `play` (run as `play` runs them, after
`restartLapses`: pseudo-legal, not blocked, not lapsed, the simulation does not leave the mover
in check), then `play` answers `bad_promote` exactly when `promote` is `pawn` (the default
argument) or `king`; for every other `promote` it answers `ok` or `capture`, and afterwards
`to` holds a piece of kind `promote` with the owner of the pawn and `from` holds the default
empty record. -/
theorem promotion (s : chess) (from' to' : position) (promote : piece_type) (pawn : occupant)
    (hfrom : s.occupantAt from' = some pawn) (hp1 : pawn.is_empty = false)
    (hp2 : pawn.owner = s._player) (hp3 : pawn.piece = piece_type.pawn)
    (hrank : to'.rank = 8 ∨ to'.rank = 1)
    (hcm : s.restartLapses.canMove from' to' piece_type.pawn s._player = some true)
    (hbl : s.restartLapses.isBlocked from' to' s._player = some false)
    (hla : s.restartLapses.isLapsed from' to' = some false)
    (hwc : (s.restartLapses.wouldCheck from' to').map Prod.fst = some false) :
    ((s.play from' to' promote).map Prod.fst = some result.bad_promote ↔
        (promote = piece_type.pawn ∨ promote = piece_type.king)) ∧
      (promote ≠ piece_type.pawn → promote ≠ piece_type.king →
        ∃ r s' o, s.play from' to' promote = some (r, s') ∧
          (r = result.ok ∨ r = result.capture) ∧
          s'.occupantAt to' = some o ∧ o.is_empty = false ∧ o.piece = promote ∧
          o.owner = pawn.owner ∧ s'.occupantAt from' = some {}) := by
  obtain ⟨s0, hw⟩ := exists_of_map_fst hwc
  have e0 := wouldCheck_state hw
  subst e0
  have htb := onBoard_of_wouldCheck hw
  have hfb := onBoard_of_occupantAt hfrom hp1
  obtain ⟨e1, e2, e3, e4, -⟩ := clearLapse_fields s._player pawn
  have hf1 : s.restartLapses.occupantAt from' = some (clearLapse s._player pawn) := by
    rw [occupantAt_restartLapses, hfrom]
    rfl
  have hg1 : s.restartLapses.getOccupant from' = some (clearLapse s._player pawn) := by
    rw [← occupantAt_of_onBoard _ hfb]
    exact hf1
  have hrk : to'.rank ≠ from'.rank := canMovePawn_rank hcm
  have hft : from' ≠ to' := fun e => hrk (by rw [e])
  have hm : ∀ x : Int, (to' - from' : move) ≠ move.horiz x := by
    intro x e
    have := congrArg move.rank e
    rw [sub_of_valid (Or.inr htb) (Or.inr hfb)] at this
    unfold move.horiz at this
    dsimp only at this
    omega
  have hpass : s.play from' to' promote = s.restartLapses.playPromote from' to' promote := by
    unfold play
    refine playChecks_pass _ promote hf1 (e1.trans hp1) (e2.trans hp2) ?_ hbl hla
      (isCastling_eq_false _ _ (hm 2) (hm (-2))) hw
    rw [e3, hp3]
    exact hcm
  have hpr : s.restartLapses.isPromote from' to' = some true := by
    unfold isPromote
    rw [hf1, Option.map_some', e3, hp3]
    simp [hrank.symm]
  have bad : (promote = piece_type.pawn ∨ promote = piece_type.king) →
      s.play from' to' promote = some (result.bad_promote, s.restartLapses) := by
    intro hbad
    rw [hpass]
    unfold playPromote
    rw [hpr, Option.some_bind, if_pos rfl, if_pos]
    unfold isValidPromote
    rcases hbad with rfl | rfl <;> decide
  have good : promote ≠ piece_type.pawn → promote ≠ piece_type.king →
      ∃ r s' o, s.play from' to' promote = some (r, s') ∧
        (r = result.ok ∨ r = result.capture) ∧
        s'.occupantAt to' = some o ∧ o.is_empty = false ∧ o.piece = promote ∧
        o.owner = pawn.owner ∧ s'.occupantAt from' = some {} := by
    intro n1 n2
    obtain ⟨s2, hs2, p2, g2⟩ := s.restartLapses.modifyOccupant_isSome hg1
      (fun o => { o with piece := promote })
    have hg2 : s2.getOccupant from'
        = some { clearLapse s._player pawn with piece := promote } := by
      rw [g2, if_pos rfl]
    have hf2 : s2.occupantAt from'
        = some { clearLapse s._player pawn with piece := promote } := by
      rw [occupantAt_of_onBoard _ hfb]
      exact hg2
    have hep : s2.isEnPassant from' to' = some false := isEnPassant_not_pawn s2 to' hf2 n1
    obtain ⟨r, s', hx⟩ := s2.playExecute_isSome hg2 htb hep (hm 2) (hm (-2))
    obtain ⟨-, gt, gf⟩ := playExecute_move hx hf2 (e1.trans hp1)
      ((e2.trans hp2).trans p2.symm) hft (hm 2) (hm (-2))
    have hplay : s.play from' to' promote = some (r, s') := by
      rw [hpass]
      unfold playPromote applyPromote
      rw [hpr, Option.some_bind, if_pos rfl, if_neg, hs2, Option.some_bind]
      · exact hx
      · unfold isValidPromote
        simp [n1, n2]
    rw [newFlags_not_pawn _ _ n1] at gt
    rw [← occupantAt_of_onBoard _ htb] at gt
    rw [← occupantAt_of_onBoard _ hfb] at gf
    exact ⟨r, s', _, hplay, (playExecute_spec hx).1.symm, gt, e1.trans hp1, rfl, e2, gf⟩
  refine ⟨⟨fun h => ?_, fun h => ?_⟩, good⟩
  · by_contra hn
    obtain ⟨r, s', o, hx, hr, -⟩ := good (fun e => hn (Or.inl e)) (fun e => hn (Or.inr e))
    rw [hx] at h
    simp only [Option.map_some', Option.some.injEq] at h
    rcases hr with e | e <;> rw [e] at h <;> cases h
  · rw [bad h]
    rfl

/-- Witness for C11: after the first twelve calls of `test_promote`, the white pawn on
`{1,7}` takes on `{2,8}` and is promoted to a bishop. -/
theorem promotion_witness :
    ∃ r s' o, (after promoteMoves).play ⟨1, 7⟩ ⟨2, 8⟩ piece_type.bishop = some (r, s') ∧
      (r = result.ok ∨ r = result.capture) ∧
      s'.occupantAt ⟨2, 8⟩ = some o ∧ o.is_empty = false ∧ o.piece = piece_type.bishop ∧
      o.owner = player.white ∧ s'.occupantAt ⟨1, 7⟩ = some {} :=
  (fun H =>
    have h1 := And.right H
    have h2 := And.right h1
    have h3 := And.right h2
    have h4 := And.right h3
    have h5 := And.right h4
    (promotion (after promoteMoves) ⟨1, 7⟩ ⟨2, 8⟩ piece_type.bishop
      (occupant.mk false player.white piece_type.pawn true false false)
      (And.left H) rfl (And.left h1) rfl (Or.inl rfl) (And.left h2) (And.left h3) (And.left h4)
      h5).2 (by decide) (by decide)) (by decide!)

/-- C12.  When `from` holds a pawn of the side to move and `to` is `n` squares straight ahead
of it (`n = 1`, or `n = 2` for a pawn that has not moved) and occupied by a piece of either
player, `play` answers `blocked`; the state after the call is the one `restartLapses` made, so
nothing is captured. -/
theorem pawn_advance_blocked (s : chess) (from' to' : position) (promote : piece_type)
    (pawn target : occupant) (n : Int)
    (hfrom : s.occupantAt from' = some pawn) (hp1 : pawn.is_empty = false)
    (hp2 : pawn.owner = s._player) (hp3 : pawn.piece = piece_type.pawn)
    (hn : n = 1 ∨ (n = 2 ∧ pawn.didMove = false))
    (hfile : to'.file = from'.file)
    (hrank : to'.rank = from'.rank + n * (if s._player = player.white then 1 else -1))
    (hto : s.occupantAt to' = some target) (ht1 : target.is_empty = false) :
    s.play from' to' promote = some (result.blocked, s.restartLapses) := by
  have hf1 : s.restartLapses.occupantAt from' = some (clearLapse s._player pawn) := by
    rw [occupantAt_restartLapses, hfrom]
    rfl
  have ht1' : s.restartLapses.occupantAt to' = some (clearLapse s._player target) := by
    rw [occupantAt_restartLapses, hto]
    rfl
  obtain ⟨e1, e2, e3, e4, -⟩ := clearLapse_fields s._player pawn
  obtain ⟨e5, -, -, -, -⟩ := clearLapse_fields s._player target
  have hstr : (to' - from' : move).isStraight = true := by
    rw [sub_def]
    unfold move.isStraight wrapInt
    rw [decide_eq_true_eq]
    left
    dsimp only
    omega
  unfold play
  apply playChecks_blocked _ promote hf1 (e1.trans hp1) (e2.trans hp2)
  · rw [e3, hp3]
    refine canMovePawn_advance s.restartLapses n hf1 ?_ hfile hrank
    rw [e4]
    exact hn
  · exact isBlocked_pawn_straight _ hf1 (e3.trans hp3) ht1' (e5.trans ht1) hstr

/-- Witness for C12: after `play({1,2},{1,4})` and `play({1,7},{1,5})`, both `ok`, the call
`play({1,4},{1,5})` answers `blocked`. -/
theorem pawn_advance_blocked_witness :
    (start.playAll [ply 1 2 1 4, ply 1 7 1 5]).map Prod.fst = some [result.ok, result.ok] ∧
      (after [ply 1 2 1 4, ply 1 7 1 5]).play ⟨1, 4⟩ ⟨1, 5⟩
        = some (result.blocked, (after [ply 1 2 1 4, ply 1 7 1 5]).restartLapses) :=
  (fun H =>
    have h1 := And.right H
    have h2 := And.right h1
    have h3 := And.right h2
    have h4 := And.right h3
    ⟨And.left H, pawn_advance_blocked (after [ply 1 2 1 4, ply 1 7 1 5]) ⟨1, 4⟩ ⟨1, 5⟩
      piece_type.pawn (occupant.mk false player.white piece_type.pawn true true true)
      (occupant.mk false player.black piece_type.pawn true true true) 1
      (And.left h1) rfl (And.left h2) rfl (Or.inl rfl) rfl (And.left h3) h4 rfl⟩) (by decide!)

/-- C16.  Double-step flags: when a call of `play` answers `ok` or `capture`, `from` held a
pawn and `to` is not on rank 1 or 8 (so the pawn is not promoted), the record on `to` after
the call is that pawn, with `didMove` true, and with `didTwoStep` and `canBeLapsed` both true
if the move was a two-square vertical advance and both false otherwise. -/
theorem double_step_flags (s s' : chess) (from' to' : position) (promote : piece_type)
    (r : result) (pawn : occupant)
    (h : s.play from' to' promote = some (r, s'))
    (hr : r = result.ok ∨ r = result.capture)
    (hfrom : s.occupantAt from' = some pawn) (hp : pawn.piece = piece_type.pawn)
    (hrank : to'.rank ≠ 1 ∧ to'.rank ≠ 8) :
    ∃ o, s'.occupantAt to' = some o ∧ o.is_empty = false ∧ o.piece = piece_type.pawn ∧
      o.owner = pawn.owner ∧ o.didMove = true ∧
      ((to'.file = from'.file ∧ (to'.rank = from'.rank + 2 ∨ to'.rank = from'.rank - 2)) →
        o.didTwoStep = true ∧ o.canBeLapsed = true) ∧
      (¬ (to'.file = from'.file ∧ (to'.rank = from'.rank + 2 ∨ to'.rank = from'.rank - 2)) →
        o.didTwoStep = false ∧ o.canBeLapsed = false) := by
  unfold play at h
  obtain ⟨p, hp0, he, hown, hcm, hbl, hla, hpp⟩ := playChecks_accept h hr
  have hp1 := hp0
  rw [occupantAt_restartLapses, hfrom, Option.map_some', Option.some.injEq] at hp1
  have f1 := clearLapse_fields s._player pawn
  rw [hp1] at f1
  obtain ⟨f1e, f1o, f1p, f1m, f1t⟩ := f1
  have he' : pawn.is_empty = false := by rw [← f1e]; exact he
  have hown' : pawn.owner = s._player := by rw [← f1o]; exact hown
  have hpe : p = { pawn with canBeLapsed := false } := by
    rw [← hp1]
    exact clearLapse_pawn he' hown' hp
  have hpp1 : p.piece = piece_type.pawn := by rw [f1p]; exact hp
  rw [hpp1] at hcm
  have hrk : to'.rank ≠ from'.rank := canMovePawn_rank hcm
  have hft : from' ≠ to' := fun e => hrk (by rw [e])
  have hvf : valid from' := Or.inr (onBoard_of_occupantAt hp0 he)
  have hvt : valid to' := valid_of_isBlocked hbl
  have hm : ∀ x : Int, (to' - from' : move) ≠ move.horiz x := by
    intro x e
    have := congrArg move.rank e
    rw [sub_of_valid hvt hvf] at this
    unfold move.horiz at this
    dsimp only at this
    omega
  have hpr : s.restartLapses.isPromote from' to' = some false := by
    unfold isPromote
    rw [hp0]
    simp [hrank.1, hrank.2]
  unfold playPromote at hpp
  rw [hpr, Option.some_bind, if_neg (by decide)] at hpp
  obtain ⟨htb, g1, -⟩ := playExecute_move hpp hp0 he hown hft (hm 2) (hm (-2))
  refine ⟨newFlags p (to' - from'), ?_, ?_⟩
  · rw [occupantAt_of_onBoard _ htb]
    exact g1
  · have key := @abs_eq_vert_two from' to' hvf hvt
    subst hpe
    by_cases c : to'.file = from'.file ∧ (to'.rank = from'.rank + 2 ∨ to'.rank = from'.rank - 2)
    · simp [newFlags, hp, he', key.mpr c, c]
    · have c' : ¬ move.abs (to' - from') = move.vert 2 := fun e => c (key.mp e)
      simp [newFlags, hp, he', c', c]

/-- Witness for C16: on the initial position `play({1,2},{1,4})` answers `ok` and leaves on
`{1,4}` a pawn with `didMove`, `didTwoStep` and `canBeLapsed` all true. -/
theorem double_step_flags_witness :
    ∃ s' o, start.play ⟨1, 2⟩ ⟨1, 4⟩ = some (result.ok, s') ∧
      s'.occupantAt ⟨1, 4⟩ = some o ∧ o.didMove = true ∧
      o.didTwoStep = true ∧ o.canBeLapsed = true := by
  obtain ⟨s', h⟩ := exists_of_map_fst
    (by decide! : (start.play ⟨1, 2⟩ ⟨1, 4⟩).map Prod.fst = some result.ok)
  obtain ⟨o, h1, -, -, -, h2, h3, -⟩ := double_step_flags start s' ⟨1, 2⟩ ⟨1, 4⟩
    piece_type.pawn result.ok (occupant.of player.white piece_type.pawn) h (Or.inl rfl)
    (by decide) rfl (by decide)
  exact ⟨s', o, h, h1, h2, (h3 (by decide)).1, (h3 (by decide)).2⟩

/-- C20.  On every state in which the king of the side to move stands on the on-board square
`k` (the square `k` holds a king of the side to move, and no other square does), `isChecked`
returns, and answers true exactly when some on-board square `p` holds an opponent piece `o`
with `canMove(p, k, o.piece, opponent)` true, `isBlocked(p, k, opponent)` false, and not (`o` a
pawn and `k - p` straight); `findKingPosition` returns `k`.  The function is embedded as a
reader of the state: it returns no new state. -/
theorem isChecked_spec (s : chess) (k : position) (king : occupant)
    (hkb : onBoard k) (hk : s.occupantAt k = some king) (hk1 : king.is_empty = false)
    (hk2 : king.piece = piece_type.king) (hk3 : king.owner = s._player)
    (huniq : ∀ q o, s.occupantAt q = some o → o.is_empty = false →
      o.piece = piece_type.king → o.owner = s._player → q = k) :
    s.findKingPosition = some k ∧
      ∃ b, s.isChecked = some b ∧
        (b = true ↔ ∃ p o, onBoard p ∧ s.occupantAt p = some o ∧ o.is_empty = false ∧
          o.owner = s.getOpponent ∧
          s.canMove p k o.piece s.getOpponent = some true ∧
          s.isBlocked p k s.getOpponent = some false ∧
          ¬ (o.piece = piece_type.pawn ∧ (k - p : move).isStraight = true)) := by
  have hfirst : s.findKingPosition = some k := by
    unfold findKingPosition
    refine findKingIn_unique s k ?_ hk1 hk2 hk3 ?_ _ onBoard_of_mem_allPositions
      (mem_allPositions hkb)
    · rw [← occupantAt_of_onBoard s hkb]
      exact hk
    · intro q o hq
      have hqb := onBoard_of_getOccupant hq
      rw [← occupantAt_of_onBoard s hqb] at hq
      exact huniq q o hq
  obtain ⟨b, hb, hiff⟩ := isCheckedIn_spec s k (Or.inr hkb) position.allPositions
    onBoard_of_mem_allPositions
  refine ⟨hfirst, b, ?_, hiff.trans ⟨?_, ?_⟩⟩
  · unfold isChecked
    rw [hfirst]
    exact hb
  · rintro ⟨p, hp, o, h⟩
    exact ⟨p, o, onBoard_of_mem_allPositions p hp, h⟩
  · rintro ⟨p, o, hp, h⟩
    exact ⟨p, mem_allPositions hp, o, h⟩

/-- Witness for C20: on the initial position the white king stands on `{5,1}` and nowhere
else, and `isChecked` answers by the threats to that square. -/
theorem isChecked_spec_witness :
    start.findKingPosition = some ⟨5, 1⟩ ∧
      ∃ b, start.isChecked = some b ∧
        (b = true ↔ ∃ p o, onBoard p ∧ start.occupantAt p = some o ∧ o.is_empty = false ∧
          o.owner = start.getOpponent ∧
          start.canMove p ⟨5, 1⟩ o.piece start.getOpponent = some true ∧
          start.isBlocked p ⟨5, 1⟩ start.getOpponent = some false ∧
          ¬ (o.piece = piece_type.pawn ∧
            ((⟨5, 1⟩ : position) - p : move).isStraight = true)) :=
  isChecked_spec start ⟨5, 1⟩ (fresh player.white piece_type.king) (by decide) (by decide)
    rfl rfl rfl (fun q o hq he hp ho =>
      start_one_king q (mem_allPositions (onBoard_of_occupantAt hq he)) o
        ((occupantAt_of_onBoard start (onBoard_of_occupantAt hq he)).symm.trans hq) he hp ho)

/-- C21.  Flag invariant: in every state reachable from the initial position by calls of
`play` with on-board positions (whatever they answer), every record of the board with
`didTwoStep` set is a non-empty pawn, and every record with `canBeLapsed` set has `didTwoStep`
set. -/
theorem flag_invariant (s : chess) (h : Reachable s) (q : position) (o : occupant)
    (ho : s.getOccupant q = some o) :
    (o.didTwoStep = true → o.is_empty = false ∧ o.piece = piece_type.pawn) ∧
      (o.canBeLapsed = true → o.didTwoStep = true) := by
  obtain ⟨-, k2, k3, -⟩ := (reachable_flagsOk h).1 q o ho
  exact ⟨fun h => ⟨(k2 h).1, (k2 h).2.1⟩, k3⟩

/-- Witness for C21: after `play({1,2},{1,4})` the state is reachable and the pawn on `{1,4}`
has `didTwoStep` and `canBeLapsed` set; it is a non-empty pawn. -/
theorem flag_invariant_witness :
    (after [ply 1 2 1 4]).getOccupant ⟨1, 4⟩
        = some (occupant.mk false player.white piece_type.pawn true true true) ∧
      (occupant.mk false player.white piece_type.pawn true true true).is_empty = false ∧
      (occupant.mk false player.white piece_type.pawn true true true).piece
        = piece_type.pawn :=
  (fun H => ⟨H, (flag_invariant (after [ply 1 2 1 4]) (reachable_after _ (by decide)) ⟨1, 4⟩
    (occupant.mk false player.white piece_type.pawn true true true) H).1 rfl⟩) (by decide!)

/-- C22.  Piece conservation: in every state reachable from the initial position by calls of
`play` with on-board positions, a call of `play` that answers `ok` leaves the number of
occupied squares unchanged, and a call that answers `capture` lowers it by exactly one: the
number of squares occupied by the opponent of the player who moved goes down by one and the
number occupied by the mover stays the same.  (The positions of a call that answers `ok` or
`capture` are on the board, so the theorem needs no hypothesis on them.) -/
theorem piece_conservation (s s' : chess) (from' to' : position) (promote : piece_type)
    (r : result) (hs : Reachable s) (h : s.play from' to' promote = some (r, s')) :
    (r = result.ok → s'.occupiedCount = s.occupiedCount) ∧
      (r = result.capture →
        s'.occupiedCount + 1 = s.occupiedCount ∧
        s'.ownedCount s.getOpponent + 1 = s.ownedCount s.getOpponent ∧
        s'.ownedCount s._player = s.ownedCount s._player) := by
  have hP1 : ∀ o : occupant, o.is_empty = true → (!o.is_empty) = false := by
    intro o h
    rw [h]
    rfl
  have hP2 : ∀ o o' : occupant, o.is_empty = o'.is_empty → o.owner = o'.owner →
      (!o.is_empty) = (!o'.is_empty) := by
    intro o o' h _
    rw [h]
  have hQ1 : ∀ (pl : player) (o : occupant), o.is_empty = true →
      (!o.is_empty && decide (o.owner = pl)) = false := by
    intro pl o h
    rw [h]
    rfl
  have hQ2 : ∀ (pl : player) (o o' : occupant), o.is_empty = o'.is_empty →
      o.owner = o'.owner → (!o.is_empty && decide (o.owner = pl))
        = (!o'.is_empty && decide (o'.owner = pl)) := by
    intro pl o o' h1 h2
    rw [h1, h2]
  constructor
  · intro e
    obtain ⟨x, x1, -, hx⟩ := count_play (reachable_flagsOk hs) h (Or.inl e)
    have c1 := hx (fun o => !o.is_empty) hP1 hP2
    dsimp only at c1
    rw [hP1 x (x1 e), if_neg (by decide)] at c1
    exact c1
  · intro e
    obtain ⟨x, -, x2, hx⟩ := count_play (reachable_flagsOk hs) h (Or.inr e)
    obtain ⟨xe, xo⟩ := x2 e
    have c1 := hx (fun o => !o.is_empty) hP1 hP2
    have c2 := hx (fun o => !o.is_empty && decide (o.owner = s.getOpponent))
      (hQ1 _) (hQ2 _)
    have c3 := hx (fun o => !o.is_empty && decide (o.owner = s._player)) (hQ1 _) (hQ2 _)
    have hne : x.owner ≠ s._player := by
      rw [xo]
      exact getOpponent_ne s
    dsimp only at c1 c2 c3
    rw [xe] at c1 c2 c3
    rw [xo] at c2
    rw [decide_eq_false hne] at c3
    exact ⟨c1, by simpa using c2, c3⟩

/-- Witness for C22: after `{4,2}-{4,4}`, `{1,7}-{1,6}`, `{4,4}-{4,5}`, `{3,7}-{3,5}` the en
passant capture `play({4,5},{3,6})` answers `capture`, empties `{3,5}`, and the number of
occupied squares goes from 32 to 31. -/
theorem piece_conservation_witness :
    ∃ s', (after [ply 4 2 4 4, ply 1 7 1 6, ply 4 4 4 5, ply 3 7 3 5]).play ⟨4, 5⟩ ⟨3, 6⟩
        = some (result.capture, s') ∧
      s'.occupantAt ⟨3, 5⟩ = some {} ∧
      (after [ply 4 2 4 4, ply 1 7 1 6, ply 4 4 4 5, ply 3 7 3 5]).occupiedCount = 32 ∧
      s'.occupiedCount = 31 := by
  have H : ((after [ply 4 2 4 4, ply 1 7 1 6, ply 4 4 4 5, ply 3 7 3 5]).play ⟨4, 5⟩
        ⟨3, 6⟩).map (fun x => (x.1, x.2.occupantAt ⟨3, 5⟩))
        = some (result.capture, some {}) ∧
      (after [ply 4 2 4 4, ply 1 7 1 6, ply 4 4 4 5, ply 3 7 3 5]).occupiedCount = 32 := by
    decide!
  obtain ⟨H1, H2⟩ := H
  obtain ⟨⟨r, s'⟩, h, e⟩ := Option.map_eq_some'.mp H1
  simp only [Option.some.injEq, Prod.mk.injEq] at e
  obtain ⟨rfl, e2⟩ := e
  have key := (piece_conservation _ s' ⟨4, 5⟩ ⟨3, 6⟩ piece_type.pawn result.capture
    (reachable_after _ (by decide)) h).2 rfl
  refine ⟨s', h, e2, H2, ?_⟩
  have := key.1
  omega

end Claims

end Chess
